import Mathlib

/-!
Verification development for the BGE-File configuration reader
(src/BgeConfig.hpp).  Strings are modelled as `List Char`; the file
collaborator (BgeFile.hpp, out of scope per the spec) is modelled as a
list of lines: `WriteLine` appends one line, `ReadLine` yields the next
line without its terminator, `Ready` is a boolean parameter.
C++ exceptions (`std::string::at` out of range, `std::stoi` failures)
are modelled with `Except CppError`.  Functions that return raw pointers
into the tree (`GetSubSection`, `AddSubSection`, ...) are modelled twice:
once returning the pointed-to value, and once returning the access path
(list of section names from the root), which is how the parser's
`currentSection` pointer is represented.
-/

namespace BgeSpec

/-- Errors raised by the modelled C++ standard library calls. -/
inductive CppError where
  | outOfRange
  | invalidArgument
deriving DecidableEq, Repr

/-- The six whitespace characters of `" \n\t\r\f\v"` used in the
`find_first_not_of` guard of `BgeConfig::StringTrimLeading`. -/
def isWs6 (c : Char) : Bool :=
  c = ' ' || c = '\n' || c = '\t' || c = '\r' || c = '\x0c' || c = '\x0b'

/-- The three whitespace characters actually tested by the two trimming
loops of `BgeConfig::StringTrimLeading` (lines 841-842). -/
def isWs3 (c : Char) : Bool :=
  c = '\t' || c = '\n' || c = ' '

/-- `BgeConfig::StringTrimComment`: copies characters until two
consecutive slashes are found (the `i < size-1` bound keeps a lone final
slash). -/
def stringTrimComment : List Char → List Char
  | [] => []
  | [c] => [c]
  | c :: d :: rest =>
    if c = '/' && d = '/' then [] else c :: stringTrimComment (d :: rest)

/-- `BgeConfig::StringTrimLeading`: if every character is one of the six
whitespace kinds (`find_first_not_of` returns `npos`) the result is
empty; otherwise the two index loops strip only tab, newline and space
from both ends. -/
def stringTrimLeading (s : List Char) : List Char :=
  if s.all isWs6 then []
  else ((s.dropWhile isWs3).reverse.dropWhile isWs3).reverse

/-- `BgeConfig::StringIsBool`. -/
def stringIsBool (s : List Char) : Bool :=
  s = "True".toList || s = "true".toList || s = "False".toList || s = "false".toList

/-- Decimal digit test (`chr < '0' || chr > '9'` negated). -/
def isDigitChar (c : Char) : Bool :=
  '0' ≤ c && c ≤ '9'

/-- `BgeConfig::StringIsNumber`: optional leading sign, then every
remaining character must be a digit (zero remaining characters pass the
loop, so a lone sign yields `true`).  The C++ code reads `str.at(0)`
unconditionally and would throw on an empty string, but its only caller
`EstimateValueType` guards the empty case first; the `[]` branch here is
that unreachable case. -/
def stringIsNumber (s : List Char) : Bool :=
  match s with
  | [] => true
  | c :: rest =>
    if c = '+' || c = '-' then rest.all isDigitChar
    else (c :: rest).all isDigitChar

/-- The digit-and-at-most-one-dot loop of `BgeConfig::StringIsFloat`. -/
def floatBody : List Char → Bool → Bool
  | [], _ => true
  | '.' :: rest, hasDot => if hasDot then false else floatBody rest true
  | c :: rest, hasDot => isDigitChar c && floatBody rest hasDot

/-- `BgeConfig::StringIsFloat`: optional leading sign, then digits with
at most one dot.  As with `stringIsNumber`, the empty case is guarded by
the caller. -/
def stringIsFloat (s : List Char) : Bool :=
  match s with
  | [] => true
  | c :: rest =>
    if c = '+' || c = '-' then floatBody rest false
    else floatBody (c :: rest) false

/-- `BgePropertyValueType`. -/
inductive BgePropertyValueType where
  | UNKNOWN
  | STRING
  | FLOAT
  | BOOL
  | INT
deriving DecidableEq, Repr

open BgePropertyValueType

/-- `BgeConfig::EstimateValueType`: empty, bool, integer, float, string
in that order. -/
def EstimateValueType (value : List Char) : BgePropertyValueType :=
  if value = [] then UNKNOWN
  else if stringIsBool value then BOOL
  else if stringIsNumber value then INT
  else if stringIsFloat value then FLOAT
  else STRING

/-- `std::string::find_first_of('.')`, split form: `none` when there is
no dot, otherwise the text before the first dot and the text after it
(`substr(0, divider)` and `substr(divider+1)`). -/
def splitFirstDot : List Char → Option (List Char × List Char)
  | [] => none
  | c :: rest =>
    if c = '.' then some ([], rest)
    else (splitFirstDot rest).map (fun p => (c :: p.1, p.2))

/-- `std::string::find_last_of('=')`: index of the last `=`. -/
def findLastEq : List Char → Option Nat
  | [] => none
  | c :: rest =>
    match findLastEq rest with
    | some i => some (i + 1)
    | none => if c = '=' then some 0 else none

/-- Value of a digit list, most significant first. -/
def digitsVal (l : List Char) : Nat :=
  l.foldl (fun acc c => 10 * acc + (c.toNat - '0'.toNat)) 0

/-- Decimal digits of a natural number, structural on a fuel argument
so that the definition computes by kernel reduction; the recursion
consumes `n / 10` which is at most `fuel - 1` when `n ≤ fuel`. -/
def natToDigitsF : Nat → Nat → List Char
  | 0, n => [Char.ofNat ('0'.toNat + n)]
  | fuel + 1, n =>
    if n < 10 then [Char.ofNat ('0'.toNat + n)]
    else natToDigitsF fuel (n / 10) ++ [Char.ofNat ('0'.toNat + n % 10)]

/-- Decimal digits of a natural number, modelling `std::to_string`. -/
def natToDigits (n : Nat) : List Char :=
  natToDigitsF n n

/-- `std::to_string` on a C++ `int`, modelling the serializer's integer
rendering. -/
def intToString (i : Int) : List Char :=
  if i < 0 then '-' :: natToDigits (-i).toNat else natToDigits i.toNat

/-- The optional-sign consumption shared by `std::stoi`/`std::stod`:
value `1` or `-1` plus the remaining text. -/
def signSplit (s : List Char) : Int × List Char :=
  match s with
  | [] => (1, [])
  | c :: r => if c = '+' then (1, r) else if c = '-' then (-1, r) else (1, c :: r)

/-- `std::stoi` as used by the parser: optional sign, at least one
digit (else `std::invalid_argument`), value limited to the 32-bit
`int` range (else `std::out_of_range`); trailing non-digits are
ignored. -/
def stoiModel (s : List Char) : Except CppError Int :=
  let signAndRest := signSplit s
  let digs := signAndRest.2.takeWhile isDigitChar
  if digs = [] then .error .invalidArgument
  else
    let v : Int := signAndRest.1 * (digitsVal digs : Int)
    if v < -2147483648 || 2147483647 < v then .error .outOfRange
    else .ok v

/-- `std::stod` as used by the parser, modelled exactly over rationals:
optional sign, digits with an optional dot (at least one digit overall,
else `std::invalid_argument`).  The IEEE rounding of the real `double`
conversion is not modelled; no claim depends on float values. -/
def stodModel (s : List Char) : Except CppError Rat :=
  let signAndRest := signSplit s
  let ip := signAndRest.2.takeWhile isDigitChar
  let rest2 := signAndRest.2.drop ip.length
  let fp :=
    match rest2 with
    | '.' :: r => r.takeWhile isDigitChar
    | _ => []
  if ip = [] && fp = [] then .error .invalidArgument
  else
    .ok ((signAndRest.1 : Rat) *
      ((digitsVal ip : Rat) + (digitsVal fp : Rat) / ((10 : Rat) ^ fp.length)))

/-- `BgeConfigProperty`.  The C++ field `Type` is called `Ty` here
(`Type` is a Lean keyword); `FloatValue` is modelled as a rational. -/
structure BgeConfigProperty where
  Name : List Char
  Ty : BgePropertyValueType
  StrValue : List Char
  IntValue : Int
  FloatValue : Rat
  BoolValue : Bool
deriving DecidableEq, Repr

/-- The default `BgeConfigProperty()` constructor. -/
def defaultProperty : BgeConfigProperty :=
  ⟨[], UNKNOWN, [], 0, 0, false⟩

/-- `BgeConfigSection`: name, `mProperties`, `mNestedSections`. -/
inductive BgeConfigSection where
  | mk (Name : List Char) (mProperties : List BgeConfigProperty)
       (mNestedSections : List BgeConfigSection)

namespace BgeConfigSection

def Name : BgeConfigSection → List Char
  | .mk n _ _ => n

def mProperties : BgeConfigSection → List BgeConfigProperty
  | .mk _ ps _ => ps

def mNestedSections : BgeConfigSection → List BgeConfigSection
  | .mk _ _ ss => ss

@[simp]
theorem Name_mk (n ps ss) : Name (.mk n ps ss) = n := rfl

@[simp]
theorem mProperties_mk (n ps ss) : mProperties (.mk n ps ss) = ps := rfl

@[simp]
theorem mNestedSections_mk (n ps ss) : mNestedSections (.mk n ps ss) = ss := rfl

end BgeConfigSection

/-- `GetPropertyIterator`: `std::find_if` by name over a property
list; `none` models the `end()` iterator. -/
def getPropIter (props : List BgeConfigProperty) (name : List Char) :
    Option BgeConfigProperty :=
  props.find? (fun other => name = other.Name)

/-- `GetSectionIterator`: `std::find_if` by name over a section list. -/
def getSecIter (secs : List BgeConfigSection) (name : List Char) :
    Option BgeConfigSection :=
  secs.find? (fun other => name = other.Name)

/-- Dereference of a pointer-as-path: descend through first-match child
sections.  `navPath s []` is the node itself. -/
def navPath : BgeConfigSection → List (List Char) → Option BgeConfigSection
  | sec, [] => some sec
  | sec, n :: rest => (getSecIter sec.mNestedSections n).bind (fun c => navPath c rest)

/-- Replace the first section with the given name (the one a C++
pointer obtained by `find_if` aliases) by the image of `f`. -/
def updateFirstSec (f : BgeConfigSection → BgeConfigSection) :
    List BgeConfigSection → List Char → List BgeConfigSection
  | [], _ => []
  | s :: rest, n =>
    if s.Name = n then f s :: rest else s :: updateFirstSec f rest n

/-- In-place mutation through a pointer-as-path: apply `f` to the node
the path designates; a dangling path (never produced by the modelled
code) leaves the tree unchanged. -/
def updateAtPath (f : BgeConfigSection → BgeConfigSection) :
    BgeConfigSection → List (List Char) → BgeConfigSection
  | sec, [] => f sec
  | sec, seg :: rest =>
    .mk sec.Name sec.mProperties
      (updateFirstSec (fun c => updateAtPath f c rest) sec.mNestedSections seg)

theorem splitFirstDot_lengths :
    ∀ (name a b : List Char), splitFirstDot name = some (a, b) →
      a.length < name.length ∧ b.length < name.length := by
  intro name
  induction name with
  | nil => intro a b h; simp [splitFirstDot] at h
  | cons c rest ih =>
    intro a b h
    rw [splitFirstDot] at h
    by_cases hc : c = '.'
    · simp [hc] at h
      obtain ⟨ha, hb⟩ := h
      subst ha; subst hb; simp
    · rw [if_neg hc] at h
      cases hsp : splitFirstDot rest with
      | none => rw [hsp] at h; simp at h
      | some p =>
        rw [hsp] at h
        simp only [Option.map_some', Option.some.injEq, Prod.mk.injEq] at h
        obtain ⟨ha, hb⟩ := h
        obtain ⟨h1, h2⟩ := ih p.1 p.2 (by rw [hsp])
        subst hb
        constructor
        · rw [← ha, List.length_cons, List.length_cons]; omega
        · rw [List.length_cons]; omega

/-!
The C++ addressing methods recurse along strictly shorter names (the
text after the first dot).  To keep the Lean definitions computable by
kernel reduction, each is structural on a `fuel` argument instantiated
with `name.length` in the public definition; fuel 0 can only be reached
with the empty name, for which it returns the empty-name result.
Fuel-irrelevance and one-step unfolding equations matching the C++
recursion are proved below.
-/

mutual

/-- `BgeConfigSection::HasSubSection` (fueled). -/
def HasSubSectionF : Nat → BgeConfigSection → List Char → Bool
  | 0, _, _ => false
  | fuel + 1, sec, name =>
    if name = [] then false
    else
      match splitFirstDot name with
      | none => (getSecIter sec.mNestedSections name).isSome
      | some (sectionName, nextSectionName) =>
        if ¬ HasSubSectionF fuel sec sectionName then false
        else
          match GetSubSectionF fuel sec sectionName with
          | none => false
          | some sub => HasSubSectionF fuel sub nextSectionName

/-- `BgeConfigSection::GetSubSection` (fueled; value of the returned
pointer, where the `none` fallbacks after a positive `HasSubSection`
are unreachable artifacts of totality). -/
def GetSubSectionF : Nat → BgeConfigSection → List Char → Option BgeConfigSection
  | 0, _, _ => none
  | fuel + 1, sec, name =>
    if name = [] then none
    else
      match splitFirstDot name with
      | none => getSecIter sec.mNestedSections name
      | some (sectionName, nextSectionName) =>
        if ¬ HasSubSectionF fuel sec sectionName then none
        else
          match GetSubSectionF fuel sec sectionName with
          | none => none
          | some sub => GetSubSectionF fuel sub nextSectionName

end

/-- `BgeConfigSection::HasSubSection`. -/
def HasSubSection (sec : BgeConfigSection) (name : List Char) : Bool :=
  HasSubSectionF name.length sec name

/-- `BgeConfigSection::GetSubSection`. -/
def GetSubSection (sec : BgeConfigSection) (name : List Char) :
    Option BgeConfigSection :=
  GetSubSectionF name.length sec name

/-- Access path of the pointer returned by
`BgeConfigSection::GetSubSection`: the dot-split segments, resolved by
the same recursion (fueled). -/
def GetSubSectionPathF : Nat → BgeConfigSection → List Char →
    Option (List (List Char))
  | 0, _, _ => none
  | fuel + 1, sec, name =>
    if name = [] then none
    else
      match splitFirstDot name with
      | none =>
        if (getSecIter sec.mNestedSections name).isSome then some [name] else none
      | some (sectionName, nextSectionName) =>
        if ¬ HasSubSection sec sectionName then none
        else
          match GetSubSection sec sectionName with
          | none => none
          | some sub =>
            (GetSubSectionPathF fuel sub nextSectionName).map (sectionName :: ·)

def GetSubSectionPath (sec : BgeConfigSection) (name : List Char) :
    Option (List (List Char)) :=
  GetSubSectionPathF name.length sec name

/-- `BgeConfigSection::Get` (fueled). -/
def GetF : Nat → BgeConfigSection → List Char → Option BgeConfigProperty
  | 0, _, _ => none
  | fuel + 1, sec, name =>
    if name = [] then none
    else
      match splitFirstDot name with
      | none => getPropIter sec.mProperties name
      | some (sectionName, nextSectionName) =>
        if ¬ HasSubSection sec sectionName then none
        else
          match GetSubSection sec sectionName with
          | none => none
          | some sub => GetF fuel sub nextSectionName

/-- `BgeConfigSection::Get`. -/
def Get (sec : BgeConfigSection) (name : List Char) : Option BgeConfigProperty :=
  GetF name.length sec name

/-- `BgeConfigSection::HasProperty` (fueled). -/
def HasPropertyF : Nat → BgeConfigSection → List Char → Bool
  | 0, _, _ => false
  | fuel + 1, sec, name =>
    if name = [] then false
    else
      match splitFirstDot name with
      | none => (getPropIter sec.mProperties name).isSome
      | some (sectionName, nextSectionName) =>
        if ¬ HasSubSection sec sectionName then false
        else
          match GetSubSection sec sectionName with
          | none => false
          | some sub => HasPropertyF fuel sub nextSectionName

/-- `BgeConfigSection::HasProperty`. -/
def HasProperty (sec : BgeConfigSection) (name : List Char) : Bool :=
  HasPropertyF name.length sec name

/-- `BgeConfigSection::AddSubSection` (fueled), state-passing: first
component is the mutated section, second the access path of the
returned pointer (`none` models returning `nullptr`).  In the dotted
branch the C++ code `AddSubSection(sectionName)->AddSubSection(nextSectionName)`
mutates the tree through the returned pointer; this is modelled by
navigating to the returned path, recursing there, and writing the
result back.  When the inner call returns `nullptr` (empty leading
segment) the C++ code dereferences a null pointer — undefined
behavior — modelled here as a no-op returning `none`. -/
def AddSubSectionPF : Nat → BgeConfigSection → List Char →
    BgeConfigSection × Option (List (List Char))
  | 0, sec, _ => (sec, none)
  | fuel + 1, sec, name =>
    if name = [] then (sec, none)
    else if HasSubSection sec name then (sec, GetSubSectionPath sec name)
    else
      match splitFirstDot name with
      | none =>
        (.mk sec.Name sec.mProperties (sec.mNestedSections ++ [.mk name [] []]),
         some [name])
      | some (sectionName, nextSectionName) =>
        let r1 := AddSubSectionPF fuel sec sectionName
        match r1.2 with
        | none => (r1.1, none)
        | some p1 =>
          match navPath r1.1 p1 with
          | none => (r1.1, none)
          | some child =>
            let r2 := AddSubSectionPF fuel child nextSectionName
            (updateAtPath (fun _ => r2.1) r1.1 p1, r2.2.map (p1 ++ ·))

/-- `BgeConfigSection::AddSubSection`. -/
def AddSubSectionP (sec : BgeConfigSection) (name : List Char) :
    BgeConfigSection × Option (List (List Char)) :=
  AddSubSectionPF name.length sec name

/-- `BgeConfigSection::AddProperty` (fueled).  The C++ code obtains a
pointer via `AddSubSection`/`GetSubSection` and then mutates through
it; modelled by a write-back through the pointer's path. -/
def AddPropertyF : Nat → BgeConfigSection → List Char → BgeConfigProperty →
    BgeConfigSection
  | 0, sec, _, _ => sec
  | fuel + 1, sec, name, property =>
    if name = [] then sec
    else if HasProperty sec name then sec
    else
      match splitFirstDot name with
      | none =>
        .mk sec.Name (sec.mProperties ++ [{ property with Name := name }])
          sec.mNestedSections
      | some (sectionName, nextSectionStr) =>
        let r :=
          if ¬ HasSubSection sec sectionName then AddSubSectionP sec sectionName
          else (sec, GetSubSectionPath sec sectionName)
        match r.2 with
        | none => r.1
        | some p1 =>
          match navPath r.1 p1 with
          | none => r.1
          | some child =>
            updateAtPath (fun _ => AddPropertyF fuel child nextSectionStr property)
              r.1 p1

/-- `BgeConfigSection::AddProperty`. -/
def AddProperty (sec : BgeConfigSection) (name : List Char)
    (property : BgeConfigProperty) : BgeConfigSection :=
  AddPropertyF name.length sec name property

theorem length_pos_of_ne_nil {name : List Char} (h : name ≠ []) :
    name.length - 1 + 1 = name.length := by
  cases name with
  | nil => exact absurd rfl h
  | cons c rest => simp

/-- Any sufficient fuel computes the same `HasSubSection`/`GetSubSection`
values. -/
theorem hasGetF_agree :
    ∀ fuel fuel2 (sec : BgeConfigSection) (name : List Char),
      name.length ≤ fuel → name.length ≤ fuel2 →
      HasSubSectionF fuel sec name = HasSubSectionF fuel2 sec name ∧
        GetSubSectionF fuel sec name = GetSubSectionF fuel2 sec name := by
  intro fuel
  induction fuel with
  | zero =>
    intro fuel2 sec name h h2
    have hn : name = [] := by
      cases name with
      | nil => rfl
      | cons c rest => simp at h
    subst hn
    cases fuel2 <;> simp [HasSubSectionF, GetSubSectionF]
  | succ fuel ih =>
    intro fuel2 sec name h h2
    cases fuel2 with
    | zero =>
      have hn : name = [] := by
        cases name with
        | nil => rfl
        | cons c rest => simp at h2
      subst hn
      simp [HasSubSectionF, GetSubSectionF]
    | succ fuel2 =>
      by_cases hn : name = []
      · subst hn; simp [HasSubSectionF, GetSubSectionF]
      · simp only [HasSubSectionF, GetSubSectionF, if_neg hn]
        cases hs : splitFirstDot name with
        | none => exact ⟨rfl, rfl⟩
        | some p =>
          obtain ⟨a, b⟩ := p
          obtain ⟨la, lb⟩ := splitFirstDot_lengths _ _ _ hs
          have ha1 : a.length ≤ fuel := by omega
          have ha2 : a.length ≤ fuel2 := by omega
          have hb1 : b.length ≤ fuel := by omega
          have hb2 : b.length ≤ fuel2 := by omega
          obtain ⟨eh, eg⟩ := ih fuel2 sec a ha1 ha2
          dsimp only
          rw [eh, eg]
          cases hg : GetSubSectionF fuel2 sec a with
          | none => exact ⟨rfl, rfl⟩
          | some sub =>
            dsimp only
            obtain ⟨eh2, eg2⟩ := ih fuel2 sub b hb1 hb2
            rw [eh2, eg2]
            exact ⟨rfl, rfl⟩

theorem HasSubSectionF_eq_fn {fuel : Nat} {sec : BgeConfigSection}
    {name : List Char} (h : name.length ≤ fuel) :
    HasSubSectionF fuel sec name = HasSubSection sec name :=
  (hasGetF_agree fuel name.length sec name h (Nat.le_refl _)).1

theorem GetSubSectionF_eq_fn {fuel : Nat} {sec : BgeConfigSection}
    {name : List Char} (h : name.length ≤ fuel) :
    GetSubSectionF fuel sec name = GetSubSection sec name :=
  (hasGetF_agree fuel name.length sec name h (Nat.le_refl _)).2

/-- One-step unfolding of `BgeConfigSection::HasSubSection`, phrased as
the C++ recursion. -/
theorem HasSubSection_eq (sec : BgeConfigSection) (name : List Char) :
    HasSubSection sec name =
      (if name = [] then false
       else
         match splitFirstDot name with
         | none => (getSecIter sec.mNestedSections name).isSome
         | some (sectionName, nextSectionName) =>
           if ¬ HasSubSection sec sectionName then false
           else
             match GetSubSection sec sectionName with
             | none => false
             | some sub => HasSubSection sub nextSectionName) := by
  by_cases hn : name = []
  · subst hn; simp [HasSubSection, HasSubSectionF]
  · rw [HasSubSection, ← length_pos_of_ne_nil hn]
    simp only [HasSubSectionF, if_neg hn]
    cases hs : splitFirstDot name with
    | none => rfl
    | some p =>
      obtain ⟨a, b⟩ := p
      obtain ⟨la, lb⟩ := splitFirstDot_lengths _ _ _ hs
      dsimp only
      rw [HasSubSectionF_eq_fn (by omega), GetSubSectionF_eq_fn (by omega)]
      cases hg : GetSubSection sec a with
      | none => rfl
      | some sub => dsimp only; rw [HasSubSectionF_eq_fn (by omega)]

/-- One-step unfolding of `BgeConfigSection::GetSubSection`. -/
theorem GetSubSection_eq (sec : BgeConfigSection) (name : List Char) :
    GetSubSection sec name =
      (if name = [] then none
       else
         match splitFirstDot name with
         | none => getSecIter sec.mNestedSections name
         | some (sectionName, nextSectionName) =>
           if ¬ HasSubSection sec sectionName then none
           else
             match GetSubSection sec sectionName with
             | none => none
             | some sub => GetSubSection sub nextSectionName) := by
  by_cases hn : name = []
  · subst hn; simp [GetSubSection, GetSubSectionF]
  · rw [GetSubSection, ← length_pos_of_ne_nil hn]
    simp only [GetSubSectionF, if_neg hn]
    cases hs : splitFirstDot name with
    | none => rfl
    | some p =>
      obtain ⟨a, b⟩ := p
      obtain ⟨la, lb⟩ := splitFirstDot_lengths _ _ _ hs
      dsimp only
      rw [HasSubSectionF_eq_fn (by omega), GetSubSectionF_eq_fn (by omega)]
      cases hg : GetSubSection sec a with
      | none => rfl
      | some sub => dsimp only; rw [GetSubSectionF_eq_fn (by omega)]

theorem getSubSectionPathF_agree :
    ∀ fuel fuel2 (sec : BgeConfigSection) (name : List Char),
      name.length ≤ fuel → name.length ≤ fuel2 →
      GetSubSectionPathF fuel sec name = GetSubSectionPathF fuel2 sec name := by
  intro fuel
  induction fuel with
  | zero =>
    intro fuel2 sec name h h2
    have hn : name = [] := by cases name with
      | nil => rfl
      | cons c rest => simp at h
    subst hn
    cases fuel2 <;> simp [GetSubSectionPathF]
  | succ fuel ih =>
    intro fuel2 sec name h h2
    cases fuel2 with
    | zero =>
      have hn : name = [] := by cases name with
        | nil => rfl
        | cons c rest => simp at h2
      subst hn
      simp [GetSubSectionPathF]
    | succ fuel2 =>
      by_cases hn : name = []
      · subst hn; simp [GetSubSectionPathF]
      · simp only [GetSubSectionPathF, if_neg hn]
        cases hs : splitFirstDot name with
        | none => rfl
        | some p =>
          obtain ⟨a, b⟩ := p
          obtain ⟨la, lb⟩ := splitFirstDot_lengths _ _ _ hs
          have e : ∀ sub, GetSubSectionPathF fuel sub b =
              GetSubSectionPathF fuel2 sub b :=
            fun sub => ih fuel2 sub b (by omega) (by omega)
          dsimp only
          simp only [e]

theorem GetSubSectionPath_eq (sec : BgeConfigSection) (name : List Char) :
    GetSubSectionPath sec name =
      (if name = [] then none
       else
         match splitFirstDot name with
         | none =>
           if (getSecIter sec.mNestedSections name).isSome then some [name] else none
         | some (sectionName, nextSectionName) =>
           if ¬ HasSubSection sec sectionName then none
           else
             match GetSubSection sec sectionName with
             | none => none
             | some sub =>
               (GetSubSectionPath sub nextSectionName).map (sectionName :: ·)) := by
  by_cases hn : name = []
  · subst hn; simp [GetSubSectionPath, GetSubSectionPathF]
  · rw [GetSubSectionPath, ← length_pos_of_ne_nil hn]
    simp only [GetSubSectionPathF, if_neg hn]
    cases hs : splitFirstDot name with
    | none => rfl
    | some p =>
      obtain ⟨a, b⟩ := p
      obtain ⟨la, lb⟩ := splitFirstDot_lengths _ _ _ hs
      have e : ∀ sub, GetSubSectionPathF (name.length - 1) sub b =
          GetSubSectionPath sub b :=
        fun sub => getSubSectionPathF_agree _ b.length sub b (by omega) (Nat.le_refl _)
      dsimp only
      simp only [e]

theorem getF_agree :
    ∀ fuel fuel2 (sec : BgeConfigSection) (name : List Char),
      name.length ≤ fuel → name.length ≤ fuel2 →
      GetF fuel sec name = GetF fuel2 sec name := by
  intro fuel
  induction fuel with
  | zero =>
    intro fuel2 sec name h h2
    have hn : name = [] := by cases name with
      | nil => rfl
      | cons c rest => simp at h
    subst hn
    cases fuel2 <;> simp [GetF]
  | succ fuel ih =>
    intro fuel2 sec name h h2
    cases fuel2 with
    | zero =>
      have hn : name = [] := by cases name with
        | nil => rfl
        | cons c rest => simp at h2
      subst hn
      simp [GetF]
    | succ fuel2 =>
      by_cases hn : name = []
      · subst hn; simp [GetF]
      · simp only [GetF, if_neg hn]
        cases hs : splitFirstDot name with
        | none => rfl
        | some p =>
          obtain ⟨a, b⟩ := p
          obtain ⟨la, lb⟩ := splitFirstDot_lengths _ _ _ hs
          have e : ∀ sub, GetF fuel sub b = GetF fuel2 sub b :=
            fun sub => ih fuel2 sub b (by omega) (by omega)
          dsimp only
          simp only [e]

theorem Get_eq (sec : BgeConfigSection) (name : List Char) :
    Get sec name =
      (if name = [] then none
       else
         match splitFirstDot name with
         | none => getPropIter sec.mProperties name
         | some (sectionName, nextSectionName) =>
           if ¬ HasSubSection sec sectionName then none
           else
             match GetSubSection sec sectionName with
             | none => none
             | some sub => Get sub nextSectionName) := by
  by_cases hn : name = []
  · subst hn; simp [Get, GetF]
  · rw [Get, ← length_pos_of_ne_nil hn]
    simp only [GetF, if_neg hn]
    cases hs : splitFirstDot name with
    | none => rfl
    | some p =>
      obtain ⟨a, b⟩ := p
      obtain ⟨la, lb⟩ := splitFirstDot_lengths _ _ _ hs
      have e : ∀ sub, GetF (name.length - 1) sub b = Get sub b :=
        fun sub => getF_agree _ b.length sub b (by omega) (Nat.le_refl _)
      dsimp only
      simp only [e]

theorem hasPropertyF_agree :
    ∀ fuel fuel2 (sec : BgeConfigSection) (name : List Char),
      name.length ≤ fuel → name.length ≤ fuel2 →
      HasPropertyF fuel sec name = HasPropertyF fuel2 sec name := by
  intro fuel
  induction fuel with
  | zero =>
    intro fuel2 sec name h h2
    have hn : name = [] := by cases name with
      | nil => rfl
      | cons c rest => simp at h
    subst hn
    cases fuel2 <;> simp [HasPropertyF]
  | succ fuel ih =>
    intro fuel2 sec name h h2
    cases fuel2 with
    | zero =>
      have hn : name = [] := by cases name with
        | nil => rfl
        | cons c rest => simp at h2
      subst hn
      simp [HasPropertyF]
    | succ fuel2 =>
      by_cases hn : name = []
      · subst hn; simp [HasPropertyF]
      · simp only [HasPropertyF, if_neg hn]
        cases hs : splitFirstDot name with
        | none => rfl
        | some p =>
          obtain ⟨a, b⟩ := p
          obtain ⟨la, lb⟩ := splitFirstDot_lengths _ _ _ hs
          have e : ∀ sub, HasPropertyF fuel sub b = HasPropertyF fuel2 sub b :=
            fun sub => ih fuel2 sub b (by omega) (by omega)
          dsimp only
          simp only [e]

theorem HasProperty_eq (sec : BgeConfigSection) (name : List Char) :
    HasProperty sec name =
      (if name = [] then false
       else
         match splitFirstDot name with
         | none => (getPropIter sec.mProperties name).isSome
         | some (sectionName, nextSectionName) =>
           if ¬ HasSubSection sec sectionName then false
           else
             match GetSubSection sec sectionName with
             | none => false
             | some sub => HasProperty sub nextSectionName) := by
  by_cases hn : name = []
  · subst hn; simp [HasProperty, HasPropertyF]
  · rw [HasProperty, ← length_pos_of_ne_nil hn]
    simp only [HasPropertyF, if_neg hn]
    cases hs : splitFirstDot name with
    | none => rfl
    | some p =>
      obtain ⟨a, b⟩ := p
      obtain ⟨la, lb⟩ := splitFirstDot_lengths _ _ _ hs
      have e : ∀ sub, HasPropertyF (name.length - 1) sub b = HasProperty sub b :=
        fun sub => hasPropertyF_agree _ b.length sub b (by omega) (Nat.le_refl _)
      dsimp only
      simp only [e]

theorem addSubSectionPF_agree :
    ∀ fuel fuel2 (sec : BgeConfigSection) (name : List Char),
      name.length ≤ fuel → name.length ≤ fuel2 →
      AddSubSectionPF fuel sec name = AddSubSectionPF fuel2 sec name := by
  intro fuel
  induction fuel with
  | zero =>
    intro fuel2 sec name h h2
    have hn : name = [] := by cases name with
      | nil => rfl
      | cons c rest => simp at h
    subst hn
    cases fuel2 <;> simp [AddSubSectionPF]
  | succ fuel ih =>
    intro fuel2 sec name h h2
    cases fuel2 with
    | zero =>
      have hn : name = [] := by cases name with
        | nil => rfl
        | cons c rest => simp at h2
      subst hn
      simp [AddSubSectionPF]
    | succ fuel2 =>
      by_cases hn : name = []
      · subst hn; simp [AddSubSectionPF]
      · simp only [AddSubSectionPF, if_neg hn]
        cases hs : splitFirstDot name with
        | none => rfl
        | some p =>
          obtain ⟨a, b⟩ := p
          obtain ⟨la, lb⟩ := splitFirstDot_lengths _ _ _ hs
          have e1 : AddSubSectionPF fuel sec a = AddSubSectionPF fuel2 sec a :=
            ih fuel2 sec a (by omega) (by omega)
          have e2 : ∀ child, AddSubSectionPF fuel child b =
              AddSubSectionPF fuel2 child b :=
            fun child => ih fuel2 child b (by omega) (by omega)
          dsimp only
          rw [e1]
          simp only [e2]

theorem AddSubSectionP_eq (sec : BgeConfigSection) (name : List Char) :
    AddSubSectionP sec name =
      (if name = [] then (sec, none)
       else if HasSubSection sec name then (sec, GetSubSectionPath sec name)
       else
         match splitFirstDot name with
         | none =>
           (.mk sec.Name sec.mProperties (sec.mNestedSections ++ [.mk name [] []]),
            some [name])
         | some (sectionName, nextSectionName) =>
           let r1 := AddSubSectionP sec sectionName
           match r1.2 with
           | none => (r1.1, none)
           | some p1 =>
             match navPath r1.1 p1 with
             | none => (r1.1, none)
             | some child =>
               let r2 := AddSubSectionP child nextSectionName
               (updateAtPath (fun _ => r2.1) r1.1 p1, r2.2.map (p1 ++ ·))) := by
  by_cases hn : name = []
  · subst hn; simp [AddSubSectionP, AddSubSectionPF]
  · rw [AddSubSectionP, ← length_pos_of_ne_nil hn]
    simp only [AddSubSectionPF, if_neg hn]
    cases hs : splitFirstDot name with
    | none => rfl
    | some p =>
      obtain ⟨a, b⟩ := p
      obtain ⟨la, lb⟩ := splitFirstDot_lengths _ _ _ hs
      have e1 : AddSubSectionPF (name.length - 1) sec a = AddSubSectionP sec a :=
        addSubSectionPF_agree _ a.length sec a (by omega) (Nat.le_refl _)
      have e2 : ∀ child, AddSubSectionPF (name.length - 1) child b =
          AddSubSectionP child b :=
        fun child => addSubSectionPF_agree _ b.length child b (by omega) (Nat.le_refl _)
      dsimp only
      rw [e1]
      simp only [e2]

theorem addPropertyF_agree :
    ∀ fuel fuel2 (sec : BgeConfigSection) (name : List Char)
      (property : BgeConfigProperty),
      name.length ≤ fuel → name.length ≤ fuel2 →
      AddPropertyF fuel sec name property = AddPropertyF fuel2 sec name property := by
  intro fuel
  induction fuel with
  | zero =>
    intro fuel2 sec name property h h2
    have hn : name = [] := by cases name with
      | nil => rfl
      | cons c rest => simp at h
    subst hn
    cases fuel2 <;> simp [AddPropertyF]
  | succ fuel ih =>
    intro fuel2 sec name property h h2
    cases fuel2 with
    | zero =>
      have hn : name = [] := by cases name with
        | nil => rfl
        | cons c rest => simp at h2
      subst hn
      simp [AddPropertyF]
    | succ fuel2 =>
      by_cases hn : name = []
      · subst hn; simp [AddPropertyF]
      · simp only [AddPropertyF, if_neg hn]
        cases hs : splitFirstDot name with
        | none => rfl
        | some p =>
          obtain ⟨a, b⟩ := p
          obtain ⟨la, lb⟩ := splitFirstDot_lengths _ _ _ hs
          have e : ∀ child, AddPropertyF fuel child b property =
              AddPropertyF fuel2 child b property :=
            fun child => ih fuel2 child b property (by omega) (by omega)
          dsimp only
          simp only [e]

theorem AddProperty_eq (sec : BgeConfigSection) (name : List Char)
    (property : BgeConfigProperty) :
    AddProperty sec name property =
      (if name = [] then sec
       else if HasProperty sec name then sec
       else
         match splitFirstDot name with
         | none =>
           .mk sec.Name (sec.mProperties ++ [{ property with Name := name }])
             sec.mNestedSections
         | some (sectionName, nextSectionStr) =>
           let r :=
             if ¬ HasSubSection sec sectionName then AddSubSectionP sec sectionName
             else (sec, GetSubSectionPath sec sectionName)
           match r.2 with
           | none => r.1
           | some p1 =>
             match navPath r.1 p1 with
             | none => r.1
             | some child =>
               updateAtPath (fun _ => AddProperty child nextSectionStr property)
                 r.1 p1) := by
  by_cases hn : name = []
  · subst hn; simp [AddProperty, AddPropertyF]
  · rw [AddProperty, ← length_pos_of_ne_nil hn]
    simp only [AddPropertyF, if_neg hn]
    cases hs : splitFirstDot name with
    | none => rfl
    | some p =>
      obtain ⟨a, b⟩ := p
      obtain ⟨la, lb⟩ := splitFirstDot_lengths _ _ _ hs
      have e : ∀ child, AddPropertyF (name.length - 1) child b property =
          AddProperty child b property :=
        fun child => addPropertyF_agree _ b.length child b property (by omega)
          (Nat.le_refl _)
      dsimp only
      simp only [e, AddSubSectionP]

theorem natToDigitsF_agree :
    ∀ fuel fuel2 n, n ≤ fuel → n ≤ fuel2 →
      natToDigitsF fuel n = natToDigitsF fuel2 n := by
  intro fuel
  induction fuel with
  | zero =>
    intro fuel2 n h h2
    have hn : n = 0 := by omega
    subst hn
    cases fuel2 <;> simp [natToDigitsF]
  | succ fuel ih =>
    intro fuel2 n h h2
    cases fuel2 with
    | zero =>
      have hn : n = 0 := by omega
      subst hn
      simp [natToDigitsF]
    | succ fuel2 =>
      by_cases h10 : n < 10
      · simp [natToDigitsF, h10]
      · simp only [natToDigitsF, if_neg h10]
        rw [ih fuel2 (n / 10) (by omega) (by omega)]

theorem natToDigits_eq (n : Nat) :
    natToDigits n =
      (if n < 10 then [Char.ofNat ('0'.toNat + n)]
       else natToDigits (n / 10) ++ [Char.ofNat ('0'.toNat + n % 10)]) := by
  by_cases h10 : n < 10
  · cases n with
    | zero => simp [natToDigits, natToDigitsF, h10]
    | succ m =>
      rw [natToDigits]
      have : m + 1 = m + 1 := rfl
      simp only [natToDigitsF, if_pos h10]
  · cases n with
    | zero => omega
    | succ m =>
      rw [natToDigits]
      simp only [natToDigitsF, if_neg h10]
      rw [natToDigitsF_agree m ((m + 1) / 10) ((m + 1) / 10) (by omega)
        (Nat.le_refl _)]
      rfl

/-! Lemmas about first-match lookup, pointer paths and write-back. -/

theorem getSecIter_nil (n : List Char) : getSecIter [] n = none := rfl

theorem getSecIter_cons (s : BgeConfigSection) (rest : List BgeConfigSection)
    (n : List Char) :
    getSecIter (s :: rest) n =
      if n = s.Name then some s else getSecIter rest n := by
  simp [getSecIter, List.find?_cons]
  by_cases h : n = s.Name <;> simp [h]

theorem getSecIter_append (l1 l2 : List BgeConfigSection) (n : List Char) :
    getSecIter (l1 ++ l2) n = (getSecIter l1 n).or (getSecIter l2 n) := by
  simp [getSecIter, List.find?_append]

theorem getPropIter_append (l1 l2 : List BgeConfigProperty) (n : List Char) :
    getPropIter (l1 ++ l2) n = (getPropIter l1 n).or (getPropIter l2 n) := by
  simp [getPropIter, List.find?_append]

theorem updateFirstSec_not_found (f : BgeConfigSection → BgeConfigSection) :
    ∀ (l : List BgeConfigSection) (n : List Char), getSecIter l n = none →
      updateFirstSec f l n = l := by
  intro l
  induction l with
  | nil => intro n _; rfl
  | cons s rest ih =>
    intro n h
    rw [getSecIter_cons] at h
    by_cases hn : n = s.Name
    · simp [hn] at h
    · rw [updateFirstSec, if_neg (fun hh => hn hh.symm), ih n (by simpa [hn] using h)]

theorem updateFirstSec_append_not_found (f : BgeConfigSection → BgeConfigSection)
    (l1 l2 : List BgeConfigSection) (n : List Char) (h : getSecIter l1 n = none) :
    updateFirstSec f (l1 ++ l2) n = l1 ++ updateFirstSec f l2 n := by
  induction l1 with
  | nil => simp [updateFirstSec]
  | cons s rest ih =>
    rw [getSecIter_cons] at h
    by_cases hn : n = s.Name
    · simp [hn] at h
    · rw [List.cons_append, updateFirstSec, if_neg (fun hh => hn hh.symm),
        ih (by simpa [hn] using h)]
      rfl

theorem getSecIter_updateFirstSec (f : BgeConfigSection → BgeConfigSection)
    (hf : ∀ s, (f s).Name = s.Name) :
    ∀ (l : List BgeConfigSection) (n : List Char),
      getSecIter (updateFirstSec f l n) n = (getSecIter l n).map f := by
  intro l
  induction l with
  | nil => intro n; rfl
  | cons s rest ih =>
    intro n
    by_cases hn : s.Name = n
    · rw [updateFirstSec, if_pos hn, getSecIter_cons, getSecIter_cons,
        if_pos (by rw [hf s]; exact hn.symm), if_pos hn.symm]
      rfl
    · rw [updateFirstSec, if_neg hn, getSecIter_cons, getSecIter_cons,
        if_neg (fun hh => hn hh.symm), if_neg (fun hh => hn hh.symm), ih]

theorem updateFirstSec_congr_found {f g : BgeConfigSection → BgeConfigSection} :
    ∀ {l : List BgeConfigSection} {n : List Char} {s : BgeConfigSection},
      getSecIter l n = some s → f s = g s →
      updateFirstSec f l n = updateFirstSec g l n := by
  intro l
  induction l with
  | nil => intro n s h _; simp [getSecIter] at h
  | cons t rest ih =>
    intro n s h helem
    rw [getSecIter_cons] at h
    by_cases hn : n = t.Name
    · rw [if_pos hn] at h
      injection h with h
      subst h
      rw [updateFirstSec, if_pos hn.symm, updateFirstSec, if_pos hn.symm, helem]
    · rw [if_neg hn] at h
      rw [updateFirstSec, if_neg (fun hh => hn hh.symm), updateFirstSec,
        if_neg (fun hh => hn hh.symm), ih h helem]

/-- Write-back with the identity leaves the tree unchanged. -/
theorem updateFirstSec_id :
    ∀ (l : List BgeConfigSection) (n : List Char),
      updateFirstSec (fun s => s) l n = l := by
  intro l
  induction l with
  | nil => intro n; rfl
  | cons s rest ih =>
    intro n
    rw [updateFirstSec]
    by_cases hn : s.Name = n
    · rw [if_pos hn]
    · rw [if_neg hn, ih]

theorem updateAtPath_id :
    ∀ (p : List (List Char)) (sec : BgeConfigSection),
      updateAtPath (fun s => s) sec p = sec := by
  intro p
  induction p with
  | nil => intro sec; rfl
  | cons seg rest ih =>
    intro sec
    rw [updateAtPath]
    have he : (fun c => updateAtPath (fun s => s) c rest) = fun c => c := by
      funext c; exact ih c
    rw [he, updateFirstSec_id]
    cases sec with
    | mk n ps ss => rfl

theorem updateAtPath_append (f : BgeConfigSection → BgeConfigSection) :
    ∀ (p q : List (List Char)) (sec : BgeConfigSection),
      updateAtPath f sec (p ++ q) =
        updateAtPath (fun s => updateAtPath f s q) sec p := by
  intro p
  induction p with
  | nil => intro q sec; rfl
  | cons seg rest ih =>
    intro q sec
    rw [List.cons_append, updateAtPath, updateAtPath]
    have he : (fun c => updateAtPath f c (rest ++ q)) =
        fun c => updateAtPath (fun s => updateAtPath f s q) c rest := by
      funext c; exact ih q c
    rw [he]

theorem navPath_nil (sec : BgeConfigSection) : navPath sec [] = some sec := rfl

theorem navPath_cons (sec : BgeConfigSection) (n : List Char)
    (rest : List (List Char)) :
    navPath sec (n :: rest) =
      (getSecIter sec.mNestedSections n).bind (fun c => navPath c rest) := rfl

/-- Updating along a resolving path and reading it back gives the image
of the old node, provided the update preserves the node's name. -/
theorem navPath_updateAtPath (f : BgeConfigSection → BgeConfigSection)
    (hf : ∀ s, (f s).Name = s.Name) :
    ∀ (p : List (List Char)) (sec : BgeConfigSection),
      navPath (updateAtPath f sec p) p = (navPath sec p).map f := by
  intro p
  induction p with
  | nil => intro sec; rfl
  | cons seg rest ih =>
    intro sec
    rw [updateAtPath, navPath_cons, navPath_cons]
    simp only [BgeConfigSection.mNestedSections_mk]
    rw [getSecIter_updateFirstSec (fun c => updateAtPath f c rest)
      (fun s => by
        cases rest with
        | nil => exact hf _
        | cons a b => rfl)]
    cases hg : getSecIter sec.mNestedSections seg with
    | none => rfl
    | some c => simp [ih c]

/-- `BgeConfig`: the document root, holding `mProperties` and
`mSections`. -/
structure BgeConfig where
  mProperties : List BgeConfigProperty
  mSections : List BgeConfigSection

/-- Root wrapper: `BgeConfig`'s addressing methods (`Get`,
`GetSection`, `HasProperty`, `HasSection`, `AddProperty`, `AddSection`)
repeat `BgeConfigSection`'s logic verbatim with `mProperties` and
`mSections` as the root-level lists, so they are modelled by delegation
to the section-level functions on this wrapper (its name is never
read). -/
def toSec (cfg : BgeConfig) : BgeConfigSection :=
  .mk [] cfg.mProperties cfg.mSections

def ofSec (sec : BgeConfigSection) : BgeConfig :=
  ⟨sec.mProperties, sec.mNestedSections⟩

/-- `BgeConfig::HasProperty`. -/
def HasPropertyD (cfg : BgeConfig) (name : List Char) : Bool :=
  HasProperty (toSec cfg) name

/-- `BgeConfig::HasSection`. -/
def HasSectionD (cfg : BgeConfig) (name : List Char) : Bool :=
  HasSubSection (toSec cfg) name

/-- `BgeConfig::Get`. -/
def GetD (cfg : BgeConfig) (name : List Char) : Option BgeConfigProperty :=
  Get (toSec cfg) name

/-- `BgeConfig::GetSection`. -/
def GetSectionD (cfg : BgeConfig) (name : List Char) : Option BgeConfigSection :=
  GetSubSection (toSec cfg) name

/-- Access path of the pointer returned by `BgeConfig::GetSection`. -/
def GetSectionPathD (cfg : BgeConfig) (name : List Char) :
    Option (List (List Char)) :=
  GetSubSectionPath (toSec cfg) name

/-- `BgeConfig::AddProperty`. -/
def AddPropertyD (cfg : BgeConfig) (name : List Char)
    (property : BgeConfigProperty) : BgeConfig :=
  ofSec (AddProperty (toSec cfg) name property)

/-- `BgeConfig::AddSection` (state plus access path of the returned
pointer). -/
def AddSectionP (cfg : BgeConfig) (name : List Char) :
    BgeConfig × Option (List (List Char)) :=
  let r := AddSubSectionP (toSec cfg) name
  (ofSec r.1, r.2)

/-- `BgeConfig::Close`. -/
def CloseD : BgeConfig := ⟨[], []⟩

/-- Mutation through the parser's `currentSection` pointer, represented
as a root-relative path. -/
def updateAtPathD (f : BgeConfigSection → BgeConfigSection)
    (cfg : BgeConfig) (path : List (List Char)) : BgeConfig :=
  ofSec (updateAtPath f (toSec cfg) path)

/-- `"%.6f"`-style rendering of `std::to_string(float)`, modelled on
rationals by truncation to six decimal places (no claim depends on
float serialization). -/
def floatToString (q : Rat) : List Char :=
  let n := (q.num.natAbs * 1000000) / q.den
  let ip := n / 1000000
  let fp := n % 1000000
  let fracDigits :=
    List.replicate (6 - (natToDigits fp).length) '0' ++ natToDigits fp
  (if q.num < 0 then ['-'] else []) ++ natToDigits ip ++ '.' :: fracDigits

/-- The textual value appended by `BgeConfigProperty::Save`'s
`switch`. -/
def propValueText (p : BgeConfigProperty) : List Char :=
  match p.Ty with
  | INT => intToString p.IntValue
  | FLOAT => floatToString p.FloatValue
  | BOOL => if p.BoolValue then "true".toList else "false".toList
  | _ => p.StrValue

/-- `BgeConfigProperty::Save`: the single line written for a
property. -/
def propSaveLine (p : BgeConfigProperty) : List Char :=
  p.Name ++ " = ".toList ++ propValueText p

mutual

/-- `BgeConfigSection::Save`: header line `[prefix.Name]`, property
lines, one blank line, then the nested sections with the extended
prefix. -/
def saveSec (sec : BgeConfigSection) (pfx : List Char) : List (List Char) :=
  match sec with
  | .mk name props subs =>
    let sectionName :=
      '[' :: ((if pfx ≠ [] then pfx ++ ['.'] else []) ++ name ++ [']'])
    let newPfx := (if pfx ≠ [] then pfx ++ ['.'] else []) ++ name
    (sectionName :: props.map propSaveLine) ++ [[]] ++ saveSecs subs newPfx

/-- The `for (auto& subSection : mNestedSections)` loop of
`BgeConfigSection::Save`. -/
def saveSecs (l : List BgeConfigSection) (pfx : List Char) : List (List Char) :=
  match l with
  | [] => []
  | s :: rest => saveSec s pfx ++ saveSecs rest pfx

end

/-- `BgeConfig::Save` as the list of lines written (the file collaborator
is out of scope; an unready output file writes nothing). -/
def SaveD (cfg : BgeConfig) : List (List Char) :=
  cfg.mProperties.map propSaveLine ++
    (if cfg.mProperties.length ≠ 0 then [[]] else []) ++
    saveSecs cfg.mSections []

/-- The single-quote character (the `char` literal `'\x27'` in the C++
quote-stripping code). -/
def quoteChar1 : Char := Char.ofNat 39

/-- The double-quote character. -/
def quoteChar2 : Char := Char.ofNat 34

/-- The `switch (estimateType)` of `BgeConfig::Open` that builds the
`BgeConfigProperty` from the two halves of an assignment line.  In the
string/unknown branch, stripping a leading quote from a one-character
value makes `split1.length() - 1` underflow and the following `at`
raises `std::out_of_range`. -/
def buildProperty (estimateType : BgePropertyValueType)
    (split0 split1 : List Char) : Except CppError BgeConfigProperty :=
  match estimateType with
  | INT => (stoiModel split1).map (fun i => ⟨split0, INT, split1, i, 0, false⟩)
  | FLOAT => (stodModel split1).map (fun f => ⟨split0, FLOAT, split1, 0, f, false⟩)
  | BOOL =>
    .ok ⟨split0, BOOL, split1, 0, 0,
      split1 = "true".toList || split1 = "True".toList || split1 = "1".toList⟩
  | ty =>
    if split1 = [] then .ok ⟨split0, ty, split1, 0, 0, false⟩
    else
      let s1 :=
        if split1.head? = some quoteChar1 || split1.head? = some quoteChar2 then
          split1.drop 1
        else split1
      match s1.getLast? with
      | none => .error .outOfRange
      | some c =>
        .ok ⟨split0, ty,
          (if c = quoteChar1 || c = quoteChar2 then s1.dropLast else s1),
          0, 0, false⟩

/-- Parser state of `BgeConfig::Open`: the document being built and the
`currentSection` pointer (as a root-relative path, `none` for the
root). -/
structure ParseState where
  cfg : BgeConfig
  currentSection : Option (List (List Char))

/-- One iteration of the `while (!file.EndOfFile())` loop of
`BgeConfig::Open`, for one line.  Branch order follows the source:
empty line, whole-line comment, trimming (where `cleanLine.at(0)` on a
line that trimmed to nothing raises `std::out_of_range`), bracketed
header, the (unreachable) `[SECTIONEND]` comparison, then the
assignment split. -/
def processLine (st : ParseState) (line : List Char) :
    Except CppError ParseState :=
  if line.length < 1 then .ok st
  else if line.take 2 = "//".toList then .ok st
  else
    let cleanLine := stringTrimLeading (stringTrimComment line)
    match cleanLine with
    | [] => .error .outOfRange
    | c0 :: _ =>
      if c0 = '[' && cleanLine.getLast? = some ']' then
        let sectionName := (cleanLine.drop 1).dropLast
        if ¬ HasSectionD st.cfg sectionName then
          let r := AddSectionP st.cfg sectionName
          .ok ⟨r.1, r.2⟩
        else .ok ⟨st.cfg, GetSectionPathD st.cfg sectionName⟩
      else if cleanLine = "[SECTIONEND]".toList then .ok ⟨st.cfg, none⟩
      else
        match findLastEq cleanLine with
        | none => .ok st
        | some equalSignIdx =>
          let split0 := stringTrimLeading (cleanLine.take equalSignIdx)
          let split1 := stringTrimLeading (cleanLine.drop (equalSignIdx + 1))
          match buildProperty (EstimateValueType split1) split0 split1 with
          | .error e => .error e
          | .ok property =>
            match st.currentSection with
            | some path =>
              .ok ⟨updateAtPathD
                    (fun sec => AddProperty sec property.Name property)
                    st.cfg path,
                   st.currentSection⟩
            | none => .ok ⟨AddPropertyD st.cfg property.Name property, none⟩

/-- The parser loop over all lines; a raised exception aborts `Open`. -/
def parseLines : List (List Char) → ParseState → Except CppError ParseState
  | [], st => .ok st
  | line :: rest, st =>
    match processLine st line with
    | .error e => .error e
    | .ok st2 => parseLines rest st2

/-- `BgeConfig::Open`.  `ready` is the file collaborator's readiness;
when the file is not ready, `Open` returns before calling `Close`, so
the pre-existing tree is kept.  When ready, parsing starts from the
cleared tree. -/
def OpenD (ready : Bool) (lines : List (List Char)) (cfg : BgeConfig) :
    Except CppError BgeConfig :=
  if ¬ ready then .ok cfg
  else (parseLines lines ⟨CloseD, none⟩).map (fun st => st.cfg)

end BgeSpec

namespace BgeSpec

open BgePropertyValueType

/-! Claim theorems: value classification, trimming, error behavior. -/

/-- C9: the value-type classifier satisfies the spec's table —
`classify("123") = Int`, `classify("-4.5") = Float`,
`classify("true") = classify("True") = Bool`, `classify("hello") = String`,
`classify("") = Unknown`, `classify("12a") = String` — as produced by the
first-match order empty/bool/integer/float/string of
`BgeConfig::EstimateValueType`. -/
theorem c9_classification_table :
    EstimateValueType "123".toList = INT ∧
    EstimateValueType "-4.5".toList = FLOAT ∧
    EstimateValueType "true".toList = BOOL ∧
    EstimateValueType "True".toList = BOOL ∧
    EstimateValueType "hello".toList = STRING ∧
    EstimateValueType "".toList = UNKNOWN ∧
    EstimateValueType "12a".toList = STRING := by
  decide

/-- C5 (code bug): a lone sign character is classified `INT`, not
`STRING` — `StringIsNumber`'s digit loop is vacuous after consuming the
sign, so `EstimateValueType` returns `INT` and `Open`'s subsequent
`std::stoi` on the sign alone raises `std::invalid_argument`. -/
theorem c5_lone_sign_classified_int :
    EstimateValueType "+".toList = INT ∧
    EstimateValueType "-".toList = INT ∧
    stringIsNumber "+".toList = true ∧
    stoiModel "+".toList = .error .invalidArgument ∧
    EstimateValueType "+".toList ≠ STRING := by
  exact ⟨by decide, by decide, by decide, rfl, by decide⟩

/-- C6 (code bug): `StringTrimLeading`'s two trimming loops test only
space, tab and newline, so a carriage return or form feed at an end of
the line survives trimming (first two conjuncts), even though the
all-whitespace guard and the spec name all six ASCII whitespace kinds
(last two conjuncts). -/
theorem c6_trim_misses_three_whitespace_kinds :
    stringTrimLeading ['a', '\r'] = ['a', '\r'] ∧
    stringTrimLeading ['\x0c', 'a'] = ['\x0c', 'a'] ∧
    stringTrimLeading ['\t', ' ', 'a', ' '] = ['a'] ∧
    stringTrimLeading ['\r', '\x0c', '\x0b'] = [] := by
  decide

/-- C4 (code bug): the parser does raise.  A line that becomes empty
after comment stripping and trimming (here a single space) reaches
`cleanLine.at(0)`, which raises `std::out_of_range`; a value classified
numeric whose conversion fails also raises from `std::stoi`
(out-of-range literal, or a lone sign giving `std::invalid_argument`).
The raise happens before any state is consulted, for every parser
state. -/
theorem c4_parser_raises (st : ParseState) :
    processLine st [' '] = .error .outOfRange ∧
    processLine st "X = 99999999999999999999".toList = .error .outOfRange ∧
    processLine st "X = +".toList = .error .invalidArgument := by
  exact ⟨rfl, rfl, rfl⟩

/-- The C1 failing input: `[General]`, `A = 1`, `[SECTIONEND]`,
`B = 2`. -/
def c1Lines : List (List Char) :=
  ["[General]".toList, "A = 1".toList, "[SECTIONEND]".toList, "B = 2".toList]

/-- The tree the code actually builds from `c1Lines`. -/
def c1Result : BgeConfig :=
  ⟨[], [.mk "General".toList [⟨['A'], INT, ['1'], 1, 0, false⟩] [],
        .mk "SECTIONEND".toList [⟨['B'], INT, ['2'], 2, 0, false⟩] []]⟩

/-- C1 (code bug): the bracket-header branch of `BgeConfig::Open`
precedes the `cleanLine == "[SECTIONEND]"` comparison and ends in
`continue`, so the sentinel branch is unreachable: `[SECTIONEND]`
creates and enters a section of that name, `currentSection` is not
reset to the root, and `B = 2` lands inside the `SECTIONEND` section
instead of at the Document root. -/
theorem c1_sentinel_branch_dead :
    OpenD true c1Lines CloseD = .ok c1Result ∧
    parseLines c1Lines ⟨CloseD, none⟩ =
      .ok ⟨c1Result, some ["SECTIONEND".toList]⟩ ∧
    GetD c1Result "B".toList = none ∧
    GetD c1Result "SECTIONEND.B".toList =
      some ⟨['B'], INT, ['2'], 2, 0, false⟩ ∧
    GetD c1Result "General.A".toList = some ⟨['A'], INT, ['1'], 1, 0, false⟩ := by
  exact ⟨rfl, rfl, rfl, rfl, rfl⟩

/-- A document that already holds a root property, for the C3
counterexample. -/
def c3Cfg : BgeConfig := ⟨[⟨['A'], INT, [], 1, 0, false⟩], []⟩

/-- C3 (counterexample): `Open` on an unready file returns before
calling `Close()`, so the pre-existing tree is NOT cleared: the old
root property survives, refuting "leaves the tree cleared (post-Close
empty state)". -/
theorem c3_counterexample :
    OpenD false ["B = 2".toList] c3Cfg = .ok c3Cfg ∧
    c3Cfg.mProperties ≠ [] ∧ c3Cfg ≠ CloseD := by
  refine ⟨rfl, by decide, ?_⟩
  intro h
  have : c3Cfg.mProperties = [] := by rw [h]; rfl
  exact absurd this (by decide)

/-- C3 (amended): when the file is not ready, `Open` returns without
raising and leaves the tree UNCHANGED (the readiness check precedes
`Close()`); when the file is ready, `Open` parses from the cleared
tree, independent of the previous contents. -/
theorem c3_amended (cfg cfg2 : BgeConfig) (lines : List (List Char)) :
    OpenD false lines cfg = .ok cfg ∧
    OpenD true lines cfg = OpenD true lines cfg2 := by
  exact ⟨rfl, rfl⟩

/-- C10: every addressing operation invoked with the empty path is a
total no-op returning the not-found result, on sections and on the
document root alike. -/
theorem c10_empty_path_noop (sec : BgeConfigSection) (cfg : BgeConfig)
    (p : BgeConfigProperty) :
    Get sec [] = none ∧
    GetSubSection sec [] = none ∧
    GetSubSectionPath sec [] = none ∧
    HasProperty sec [] = false ∧
    HasSubSection sec [] = false ∧
    AddProperty sec [] p = sec ∧
    AddSubSectionP sec [] = (sec, none) ∧
    GetD cfg [] = none ∧
    GetSectionD cfg [] = none ∧
    HasPropertyD cfg [] = false ∧
    HasSectionD cfg [] = false ∧
    AddPropertyD cfg [] p = cfg ∧
    AddSectionP cfg [] = (cfg, none) := by
  exact ⟨rfl, rfl, rfl, rfl, rfl, rfl, rfl, rfl, rfl, rfl, rfl, rfl, rfl⟩

/-- The tree built by parsing `[General.Editor]` then `X = 1` from the
empty document. -/
def c2Result : BgeConfig :=
  ⟨[], [.mk "General".toList []
         [.mk "Editor".toList [⟨['X'], INT, ['1'], 1, 0, false⟩] []]]⟩

/-- C2 (counterexample): the header name IS split on dots.  Parsing
`[General.Editor]` from an empty document creates child `General` with
child `Editor` and puts `X` there; no root-level section literally
named `"General.Editor"` is created, refuting the claim's single-key
resolution.  Moreover, even a pre-existing root-level section literally
named `"General.Editor"` is ignored by the header lookup: processing
the same header against such a document descends past it and creates
the nested pair instead of reusing it. -/
theorem c2_counterexample :
    OpenD true ["[General.Editor]".toList, "X = 1".toList] CloseD = .ok c2Result ∧
    getSecIter c2Result.mSections "General.Editor".toList = none ∧
    GetD c2Result "General.Editor.X".toList =
      some ⟨['X'], INT, ['1'], 1, 0, false⟩ ∧
    processLine ⟨⟨[], [.mk "General.Editor".toList [] []]⟩, none⟩
        "[General.Editor]".toList =
      .ok ⟨⟨[], [.mk "General.Editor".toList [] [],
                 .mk "General".toList [] [.mk "Editor".toList [] []]]⟩,
           some ["General".toList, "Editor".toList]⟩ := by
  exact ⟨rfl, rfl, rfl, rfl⟩

end BgeSpec

namespace BgeSpec

open BgePropertyValueType

theorem isSome_false_eq_none {α : Type} {o : Option α}
    (h : o.isSome = false) : o = none := by
  cases o with
  | none => rfl
  | some v => simp at h

/-- C2 (amended): a dotted section header is resolved by dot-splitting
at the current addressing root.  For any document without a root
section named `General`, processing the header line `[General.Editor]`
appends a new root child `General` containing a new child `Editor`
(never a root-level section literally named `"General.Editor"`), and
`currentSection` becomes the path `General`, `Editor` — whatever the
previous current section was. -/
theorem c2_amended (cfg : BgeConfig) (cur : Option (List (List Char)))
    (hG : HasSectionD cfg "General".toList = false) :
    processLine ⟨cfg, cur⟩ "[General.Editor]".toList =
      .ok ⟨⟨cfg.mProperties,
            cfg.mSections ++
              [.mk "General".toList [] [.mk "Editor".toList [] []]]⟩,
           some ["General".toList, "Editor".toList]⟩ := by
  have hGsec : HasSubSection (toSec cfg) "General".toList = false := hG
  have hfind : getSecIter cfg.mSections "General".toList = none := by
    rw [HasSubSection_eq, if_neg (by decide),
      show splitFirstDot "General".toList = none from rfl] at hGsec
    exact isSome_false_eq_none hGsec
  have hHasGE : HasSubSection (toSec cfg) "General.Editor".toList = false := by
    rw [HasSubSection_eq, if_neg (by decide),
      show splitFirstDot "General.Editor".toList =
        some ("General".toList, "Editor".toList) from rfl]
    dsimp only
    rw [hGsec]
    simp
  have hr1 : AddSubSectionP (toSec cfg) "General".toList =
      (.mk [] cfg.mProperties (cfg.mSections ++ [.mk "General".toList [] []]),
       some ["General".toList]) := by
    rw [AddSubSectionP_eq, if_neg (by decide), hGsec]
    simp only [Bool.false_eq_true, if_false,
      show splitFirstDot "General".toList = none from rfl]
    rfl
  have hr : AddSubSectionP (toSec cfg) "General.Editor".toList =
      (.mk [] cfg.mProperties
        (cfg.mSections ++ [.mk "General".toList [] [.mk "Editor".toList [] []]]),
       some ["General".toList, "Editor".toList]) := by
    rw [AddSubSectionP_eq, if_neg (by decide), hHasGE]
    simp only [Bool.false_eq_true, if_false,
      show splitFirstDot "General.Editor".toList =
        some ("General".toList, "Editor".toList) from rfl]
    rw [hr1]
    dsimp only
    rw [show navPath
        (.mk [] cfg.mProperties (cfg.mSections ++ [.mk "General".toList [] []]))
        ["General".toList] =
        (getSecIter (cfg.mSections ++ [.mk "General".toList [] []])
          "General".toList).bind (fun c => navPath c []) from rfl,
      getSecIter_append, hfind]
    rw [show ((Option.or none (getSecIter
        [BgeConfigSection.mk "General".toList [] []] "General".toList)).bind
        (fun c => navPath c [])) =
        some (BgeConfigSection.mk "General".toList [] []) from rfl]
    dsimp only
    rw [show AddSubSectionP (.mk "General".toList [] []) "Editor".toList =
        (.mk "General".toList [] [.mk "Editor".toList [] []],
         some ["Editor".toList]) from rfl]
    dsimp only
    rw [show Option.map (fun x => ["General".toList] ++ x)
        (some ["Editor".toList]) =
        some ["General".toList, "Editor".toList] from rfl]
    rw [updateAtPath]
    have he : (fun c => updateAtPath
        (fun _ => BgeConfigSection.mk "General".toList []
          [.mk "Editor".toList [] []]) c []) =
        fun _ => BgeConfigSection.mk "General".toList []
          [.mk "Editor".toList [] []] := rfl
    rw [he]
    dsimp only [BgeConfigSection.Name_mk, BgeConfigSection.mProperties_mk,
      BgeConfigSection.mNestedSections_mk]
    rw [updateFirstSec_append_not_found _ _ _ _ hfind]
    rfl
  show (if ¬ HasSectionD cfg "General.Editor".toList = true then
          let r := AddSectionP cfg "General.Editor".toList
          Except.ok (ParseState.mk r.1 r.2)
        else Except.ok ⟨cfg, GetSectionPathD cfg "General.Editor".toList⟩) = _
  rw [if_pos (by rw [show HasSectionD cfg "General.Editor".toList =
    HasSubSection (toSec cfg) "General.Editor".toList from rfl, hHasGE]; simp)]
  show Except.ok (ParseState.mk (AddSectionP cfg "General.Editor".toList).1
    (AddSectionP cfg "General.Editor".toList).2) = _
  rw [AddSectionP, hr]
  rfl

/-- Witness for `c2_amended`: a document whose only root section is
literally named `"General.Editor"` has no root section `General`, and
processing the header appends the nested pair while ignoring the
literal section. -/
theorem c2_amended_witness :
    processLine ⟨⟨[], [.mk "General.Editor".toList [] []]⟩, none⟩
        "[General.Editor]".toList =
      .ok ⟨⟨[], [.mk "General.Editor".toList [] [],
                 .mk "General".toList [] [.mk "Editor".toList [] []]]⟩,
           some ["General".toList, "Editor".toList]⟩ :=
  c2_amended ⟨[], [.mk "General.Editor".toList [] []]⟩ none (by decide)

end BgeSpec

namespace BgeSpec

open BgePropertyValueType

/-! Support lemmas for the insertion claims: what the operations do on
a single (dot-free) path segment, and how first-match update interacts
with first-match lookup. -/

theorem getSecIter_name {l : List BgeConfigSection} {n : List Char}
    {x : BgeConfigSection} (h : getSecIter l n = some x) : x.Name = n := by
  have := List.find?_some h
  simp at this
  exact this.symm

theorem getPropIter_name {l : List BgeConfigProperty} {n : List Char}
    {x : BgeConfigProperty} (h : getPropIter l n = some x) : x.Name = n := by
  have := List.find?_some h
  simp at this
  exact this.symm

theorem getSecIter_updateFirstSec_found
    {f : BgeConfigSection → BgeConfigSection} :
    ∀ {l : List BgeConfigSection} {n : List Char} {x : BgeConfigSection},
      getSecIter l n = some x → (f x).Name = x.Name →
      getSecIter (updateFirstSec f l n) n = some (f x) := by
  intro l
  induction l with
  | nil => intro n x h _; simp [getSecIter] at h
  | cons s rest ih =>
    intro n x h hf
    rw [getSecIter_cons] at h
    by_cases hn : n = s.Name
    · rw [if_pos hn] at h
      injection h with h
      subst h
      rw [updateFirstSec, if_pos hn.symm, getSecIter_cons,
        if_pos (by rw [hf]; exact hn)]
    · rw [if_neg hn] at h
      rw [updateFirstSec, if_neg (fun hh => hn hh.symm), getSecIter_cons,
        if_neg hn, ih h hf]

theorem updateFirstSec_self :
    ∀ {l : List BgeConfigSection} {n : List Char} {x : BgeConfigSection},
      getSecIter l n = some x → updateFirstSec (fun _ => x) l n = l := by
  intro l
  induction l with
  | nil => intro n x h; simp [getSecIter] at h
  | cons s rest ih =>
    intro n x h
    rw [getSecIter_cons] at h
    by_cases hn : n = s.Name
    · rw [if_pos hn] at h
      injection h with h
      subst h
      rw [updateFirstSec, if_pos hn.symm]
    · rw [if_neg hn] at h
      rw [updateFirstSec, if_neg (fun hh => hn hh.symm), ih h]

theorem Has_plain {name : List Char} (sec : BgeConfigSection)
    (h0 : name ≠ []) (hp : splitFirstDot name = none) :
    HasSubSection sec name = (getSecIter sec.mNestedSections name).isSome := by
  rw [HasSubSection_eq, if_neg h0, hp]

theorem Get_plain {name : List Char} (sec : BgeConfigSection)
    (h0 : name ≠ []) (hp : splitFirstDot name = none) :
    GetSubSection sec name = getSecIter sec.mNestedSections name := by
  rw [GetSubSection_eq, if_neg h0, hp]

theorem GSP_plain {name : List Char} (sec : BgeConfigSection)
    (h0 : name ≠ []) (hp : splitFirstDot name = none) :
    GetSubSectionPath sec name =
      (if (getSecIter sec.mNestedSections name).isSome then some [name]
       else none) := by
  rw [GetSubSectionPath_eq, if_neg h0, hp]

theorem HasProp_plain {name : List Char} (sec : BgeConfigSection)
    (h0 : name ≠ []) (hp : splitFirstDot name = none) :
    HasProperty sec name = (getPropIter sec.mProperties name).isSome := by
  rw [HasProperty_eq, if_neg h0, hp]

theorem AddProp_plain {name : List Char} (sec : BgeConfigSection)
    (p : BgeConfigProperty) (h0 : name ≠ []) (hp : splitFirstDot name = none) :
    AddProperty sec name p =
      (if HasProperty sec name then sec
       else .mk sec.Name (sec.mProperties ++ [{ p with Name := name }])
         sec.mNestedSections) := by
  rw [AddProperty_eq, if_neg h0]
  by_cases hh : HasProperty sec name
  · rw [if_pos hh, if_pos hh]
  · rw [if_neg hh, if_neg hh, hp]

theorem ASP_plain {name : List Char} (sec : BgeConfigSection)
    (h0 : name ≠ []) (hp : splitFirstDot name = none) :
    AddSubSectionP sec name =
      (if HasSubSection sec name then (sec, GetSubSectionPath sec name)
       else (.mk sec.Name sec.mProperties
          (sec.mNestedSections ++ [.mk name [] []]), some [name])) := by
  rw [AddSubSectionP_eq, if_neg h0]
  by_cases hh : HasSubSection sec name
  · rw [if_pos hh, if_pos hh]
  · rw [if_neg hh, if_neg hh, hp]

/-- On a plain name, `AddSubSection` always returns the one-segment
path when the name is nonempty. -/
theorem ASP_plain_path {name : List Char} (sec : BgeConfigSection)
    (h0 : name ≠ []) (hp : splitFirstDot name = none) :
    (AddSubSectionP sec name).2 = some [name] := by
  rw [ASP_plain sec h0 hp]
  by_cases hh : HasSubSection sec name
  · rw [if_pos hh]
    dsimp only
    rw [Has_plain sec h0 hp] at hh
    rw [GSP_plain sec h0 hp, if_pos hh]
  · rw [if_neg hh]

end BgeSpec

namespace BgeSpec

open BgePropertyValueType

theorem splitFirstDot_fst_no_dot :
    ∀ {name a b : List Char}, splitFirstDot name = some (a, b) →
      splitFirstDot a = none := by
  intro name
  induction name with
  | nil => intro a b h; simp [splitFirstDot] at h
  | cons c rest ih =>
    intro a b h
    rw [splitFirstDot] at h
    by_cases hc : c = '.'
    · simp [hc] at h
      obtain ⟨ha, _⟩ := h
      subst ha; rfl
    · rw [if_neg hc] at h
      cases hsp : splitFirstDot rest with
      | none => rw [hsp] at h; simp at h
      | some p =>
        rw [hsp] at h
        simp only [Option.map_some', Option.some.injEq, Prod.mk.injEq] at h
        obtain ⟨ha, _⟩ := h
        rw [← ha, splitFirstDot, if_neg hc, ih (by rw [hsp])]
        rfl

theorem updateAtPath_name_props (f : BgeConfigSection → BgeConfigSection)
    (sec : BgeConfigSection) {p : List (List Char)} (h : p ≠ []) :
    (updateAtPath f sec p).Name = sec.Name ∧
      (updateAtPath f sec p).mProperties = sec.mProperties := by
  cases p with
  | nil => exact absurd rfl h
  | cons seg rest => exact ⟨rfl, rfl⟩

theorem ASP_name_props :
    ∀ (k : Nat) (name : List Char) (sec : BgeConfigSection), name.length ≤ k →
      (AddSubSectionP sec name).1.Name = sec.Name ∧
        (AddSubSectionP sec name).1.mProperties = sec.mProperties := by
  intro k
  induction k with
  | zero =>
    intro name sec h
    have h0 : name = [] := by cases name with
      | nil => rfl
      | cons c r => simp at h
    subst h0
    exact ⟨rfl, rfl⟩
  | succ k ih =>
    intro name sec h
    by_cases h0 : name = []
    · subst h0; exact ⟨rfl, rfl⟩
    · rw [AddSubSectionP_eq, if_neg h0]
      by_cases hh : HasSubSection sec name
      · rw [if_pos hh]; exact ⟨rfl, rfl⟩
      · rw [if_neg hh]
        cases hs : splitFirstDot name with
        | none => exact ⟨rfl, rfl⟩
        | some p =>
          obtain ⟨a, b⟩ := p
          obtain ⟨la, lb⟩ := splitFirstDot_lengths _ _ _ hs
          dsimp only
          obtain ⟨hn1, hp1⟩ := ih a sec (by omega)
          cases hr2 : (AddSubSectionP sec a).2 with
          | none => exact ⟨hn1, hp1⟩
          | some p1 =>
            dsimp only
            cases hnav : navPath (AddSubSectionP sec a).1 p1 with
            | none => exact ⟨hn1, hp1⟩
            | some child =>
              dsimp only
              cases p1 with
              | nil =>
                rw [navPath_nil] at hnav
                injection hnav with hnav
                obtain ⟨hn2, hp2⟩ := ih b child (by omega)
                rw [show updateAtPath
                    (fun _ => (AddSubSectionP child b).1)
                    (AddSubSectionP sec a).1 [] =
                    (AddSubSectionP child b).1 from rfl, hn2, hp2]
                exact ⟨hnav ▸ hn1, hnav ▸ hp1⟩
              | cons seg rest =>
                obtain ⟨hn3, hp3⟩ := updateAtPath_name_props
                  (fun _ => (AddSubSectionP child b).1)
                  (AddSubSectionP sec a).1
                  (p := seg :: rest) (by simp)
                rw [hn3, hp3]
                exact ⟨hn1, hp1⟩

theorem AP_name :
    ∀ (k : Nat) (name : List Char) (sec : BgeConfigSection)
      (prop : BgeConfigProperty), name.length ≤ k →
      (AddProperty sec name prop).Name = sec.Name := by
  intro k
  induction k with
  | zero =>
    intro name sec prop h
    have h0 : name = [] := by cases name with
      | nil => rfl
      | cons c r => simp at h
    subst h0
    rfl
  | succ k ih =>
    intro name sec prop h
    by_cases h0 : name = []
    · subst h0; rfl
    · rw [AddProperty_eq, if_neg h0]
      by_cases hh : HasProperty sec name
      · rw [if_pos hh]
      · rw [if_neg hh]
        cases hs : splitFirstDot name with
        | none => rfl
        | some p =>
          obtain ⟨a, b⟩ := p
          obtain ⟨la, lb⟩ := splitFirstDot_lengths _ _ _ hs
          dsimp only
          set r := if ¬ HasSubSection sec a = true then AddSubSectionP sec a
            else (sec, GetSubSectionPath sec a) with hrdef
          have hrn : r.1.Name = sec.Name := by
            rw [hrdef]
            by_cases hha : HasSubSection sec a
            · rw [if_neg (by simpa using hha)]
            · rw [if_pos (by simpa using hha)]
              exact (ASP_name_props (k + 1) a sec (by omega)).1
          cases hr2 : r.2 with
          | none => exact hrn
          | some p1 =>
            dsimp only
            cases hnav : navPath r.1 p1 with
            | none => exact hrn
            | some child =>
              dsimp only
              cases p1 with
              | nil =>
                rw [navPath_nil] at hnav
                injection hnav with hnav
                rw [show updateAtPath (fun _ => AddProperty child b prop)
                  r.1 [] = AddProperty child b prop from rfl]
                rw [ih b child prop (by omega)]
                exact hnav ▸ hrn
              | cons seg rest =>
                rw [(updateAtPath_name_props
                  (fun _ => AddProperty child b prop) r.1
                  (p := seg :: rest) (by simp)).1]
                exact hrn

theorem Has_exists_get :
    ∀ (k : Nat) (name : List Char) (sec : BgeConfigSection),
      name.length ≤ k → HasSubSection sec name = true →
      (∃ sub, GetSubSection sec name = some sub) ∧
        (∃ p, GetSubSectionPath sec name = some p) := by
  intro k
  induction k with
  | zero =>
    intro name sec h hh
    have h0 : name = [] := by cases name with
      | nil => rfl
      | cons c r => simp at h
    subst h0
    rw [show HasSubSection sec [] = false from rfl] at hh
    simp at hh
  | succ k ih =>
    intro name sec h hh
    by_cases h0 : name = []
    · subst h0
      rw [show HasSubSection sec [] = false from rfl] at hh
      simp at hh
    · rw [HasSubSection_eq, if_neg h0] at hh
      cases hs : splitFirstDot name with
      | none =>
        rw [hs] at hh
        cases hgi : getSecIter sec.mNestedSections name with
        | none => rw [hgi] at hh; simp at hh
        | some x =>
          constructor
          · exact ⟨x, by rw [Get_plain sec h0 hs, hgi]⟩
          · exact ⟨[name], by rw [GSP_plain sec h0 hs, hgi]; rfl⟩
      | some p =>
        obtain ⟨a, b⟩ := p
        obtain ⟨la, lb⟩ := splitFirstDot_lengths _ _ _ hs
        rw [hs] at hh
        dsimp only at hh
        by_cases hha : HasSubSection sec a
        · rw [if_neg (by simpa using hha)] at hh
          cases hga : GetSubSection sec a with
          | none => rw [hga] at hh; simp at hh
          | some sub =>
            rw [hga] at hh
            dsimp only at hh
            obtain ⟨⟨sub2, hg2⟩, ⟨p2, hp2⟩⟩ := ih b sub (by omega) hh
            constructor
            · refine ⟨sub2, ?_⟩
              rw [GetSubSection_eq, if_neg h0, hs]
              dsimp only
              rw [if_neg (by simpa using hha), hga]
              exact hg2
            · refine ⟨a :: p2, ?_⟩
              rw [GetSubSectionPath_eq, if_neg h0, hs]
              dsimp only
              rw [if_neg (by simpa using hha), hga]
              dsimp only
              rw [hp2]
              rfl
        · rw [if_pos (by simpa using hha)] at hh
          simp at hh

end BgeSpec

namespace BgeSpec

open BgePropertyValueType

theorem bool_ne_true_eq_false {b : Bool} (h : ¬ b = true) : b = false := by
  cases b with
  | false => rfl
  | true => exact absurd rfl h

/-- Core facts about one `AddSubSection` call, proved together by
induction on the name length: the result tree answers `HasSubSection`
for the same name exactly when a pointer was returned, the returned
path then resolves again via `GetSubSectionPath`, and a second
identical call is a no-op returning the same pointer. -/
theorem ASP_bundle :
    ∀ (k : Nat) (name : List Char) (sec : BgeConfigSection), name.length ≤ k →
      HasSubSection (AddSubSectionP sec name).1 name =
        (AddSubSectionP sec name).2.isSome ∧
      ((AddSubSectionP sec name).2.isSome = true →
        GetSubSectionPath (AddSubSectionP sec name).1 name =
          (AddSubSectionP sec name).2) ∧
      AddSubSectionP (AddSubSectionP sec name).1 name = AddSubSectionP sec name := by
  intro k
  induction k with
  | zero =>
    intro name sec h
    have h0 : name = [] := by cases name with
      | nil => rfl
      | cons c r => simp at h
    subst h0
    exact ⟨rfl, fun hcon => absurd hcon Bool.false_ne_true, rfl⟩
  | succ k ih =>
    intro name sec h
    by_cases h0 : name = []
    · subst h0
      exact ⟨rfl, fun hcon => absurd hcon Bool.false_ne_true, rfl⟩
    by_cases hh : HasSubSection sec name
    · -- already present: the call returns the existing node's path
      have hA : AddSubSectionP sec name = (sec, GetSubSectionPath sec name) := by
        rw [AddSubSectionP_eq, if_neg h0, if_pos hh]
      obtain ⟨_, p0, hp0⟩ := Has_exists_get (k + 1) name sec h hh
      refine ⟨?_, ?_, ?_⟩
      · rw [hA]; dsimp only; rw [hh, hp0]; rfl
      · intro _; rw [hA]
      · rw [hA]; dsimp only; exact hA
    cases hs : splitFirstDot name with
    | none =>
      -- plain segment, not present: a fresh empty section is appended
      have hHf : HasSubSection sec name = false := bool_ne_true_eq_false hh
      have hfind : getSecIter sec.mNestedSections name = none := by
        rw [Has_plain sec h0 hs] at hHf
        exact isSome_false_eq_none hHf
      have hA : AddSubSectionP sec name =
          (.mk sec.Name sec.mProperties
            (sec.mNestedSections ++ [.mk name [] []]), some [name]) := by
        rw [ASP_plain sec h0 hs, if_neg hh]
      have hfind2 : getSecIter
          (sec.mNestedSections ++ [BgeConfigSection.mk name [] []]) name =
          some (.mk name [] []) := by
        rw [getSecIter_append, hfind]
        simp [getSecIter, List.find?_cons]
      have hHas2 : HasSubSection
          (BgeConfigSection.mk sec.Name sec.mProperties
            (sec.mNestedSections ++ [.mk name [] []])) name = true := by
        rw [Has_plain _ h0 hs]
        simp only [BgeConfigSection.mNestedSections_mk]
        rw [hfind2]
        rfl
      have hPath2 : GetSubSectionPath
          (BgeConfigSection.mk sec.Name sec.mProperties
            (sec.mNestedSections ++ [.mk name [] []])) name = some [name] := by
        rw [GSP_plain _ h0 hs]
        simp only [BgeConfigSection.mNestedSections_mk]
        simp [hfind2]
      rw [hA]
      refine ⟨by rw [hHas2]; rfl, fun _ => by rw [hPath2], ?_⟩
      rw [AddSubSectionP_eq, if_neg h0, if_pos hHas2, hPath2]
    | some p =>
      obtain ⟨a, b⟩ := p
      obtain ⟨la, lb⟩ := splitFirstDot_lengths _ _ _ hs
      have hadot : splitFirstDot a = none := splitFirstDot_fst_no_dot hs
      by_cases ha0 : a = []
      · -- empty leading segment: null-pointer branch, modelled no-op
        subst ha0
        have hA : AddSubSectionP sec name = (sec, none) := by
          rw [AddSubSectionP_eq, if_neg h0, if_neg hh, hs]
          dsimp only
          rw [show AddSubSectionP sec [] = (sec, none) from rfl]
        rw [hA]
        refine ⟨by rw [bool_ne_true_eq_false hh]; rfl,
          fun hcon => by simp at hcon, ?_⟩
        rw [AddSubSectionP_eq, if_neg h0, if_neg hh, hs]
        dsimp only
        rw [show AddSubSectionP sec [] = (sec, none) from rfl]
      · -- nonempty leading segment
        have hpath1 : (AddSubSectionP sec a).2 = some [a] :=
          ASP_plain_path sec ha0 hadot
        have hc0 : ∃ c0, getSecIter (AddSubSectionP sec a).1.mNestedSections a =
            some c0 := by
          by_cases hha : HasSubSection sec a
          · have hs1 : (AddSubSectionP sec a).1 = sec := by
              rw [ASP_plain sec ha0 hadot, if_pos hha]
            rw [Has_plain sec ha0 hadot] at hha
            cases hgi : getSecIter sec.mNestedSections a with
            | none => rw [hgi] at hha; simp at hha
            | some c0 => exact ⟨c0, by rw [hs1, hgi]⟩
          · have hs1 : (AddSubSectionP sec a).1 =
                .mk sec.Name sec.mProperties
                  (sec.mNestedSections ++ [.mk a [] []]) := by
              rw [ASP_plain sec ha0 hadot, if_neg hha]
            have hfa : getSecIter sec.mNestedSections a = none := by
              rw [Has_plain sec ha0 hadot] at hha
              exact isSome_false_eq_none (bool_ne_true_eq_false hha)
            refine ⟨.mk a [] [], ?_⟩
            rw [hs1]
            simp only [BgeConfigSection.mNestedSections_mk]
            rw [getSecIter_append, hfa]
            simp [getSecIter, List.find?_cons]
        obtain ⟨c0, hc0⟩ := hc0
        have hc0name : c0.Name = a := getSecIter_name hc0
        have hnav : navPath (AddSubSectionP sec a).1 [a] = some c0 := by
          rw [navPath_cons, hc0]
          rfl
        have hr21name : (AddSubSectionP c0 b).1.Name = c0.Name :=
          (ASP_name_props (k + 1) b c0 (by omega)).1
        -- the result of the dotted call
        have hA : AddSubSectionP sec name =
            (updateAtPath (fun _ => (AddSubSectionP c0 b).1)
              (AddSubSectionP sec a).1 [a],
             (AddSubSectionP c0 b).2.map (fun x => [a] ++ x)) := by
          rw [AddSubSectionP_eq, if_neg h0, if_neg hh, hs]
          dsimp only
          rw [hpath1]
          dsimp only
          rw [hnav]
        have hupd : updateAtPath (fun _ => (AddSubSectionP c0 b).1)
            (AddSubSectionP sec a).1 [a] =
            .mk (AddSubSectionP sec a).1.Name (AddSubSectionP sec a).1.mProperties
              (updateFirstSec (fun _ => (AddSubSectionP c0 b).1)
                (AddSubSectionP sec a).1.mNestedSections a) := rfl
        have hgu : getSecIter
            (updateFirstSec (fun _ => (AddSubSectionP c0 b).1)
              (AddSubSectionP sec a).1.mNestedSections a) a =
            some (AddSubSectionP c0 b).1 :=
          getSecIter_updateFirstSec_found hc0 (by rw [hr21name])
        have hhu : HasSubSection (updateAtPath
            (fun _ => (AddSubSectionP c0 b).1)
            (AddSubSectionP sec a).1 [a]) a = true := by
          rw [hupd, Has_plain _ ha0 hadot]
          simp only [BgeConfigSection.mNestedSections_mk]
          rw [hgu]
          rfl
        have hgetu : GetSubSection (updateAtPath
            (fun _ => (AddSubSectionP c0 b).1)
            (AddSubSectionP sec a).1 [a]) a =
            some (AddSubSectionP c0 b).1 := by
          rw [hupd, Get_plain _ ha0 hadot]
          simp only [BgeConfigSection.mNestedSections_mk]
          rw [hgu]
        have hnavu : navPath (updateAtPath
            (fun _ => (AddSubSectionP c0 b).1)
            (AddSubSectionP sec a).1 [a]) [a] =
            some (AddSubSectionP c0 b).1 := by
          rw [navPath_cons, hupd]
          simp only [BgeConfigSection.mNestedSections_mk]
          rw [hgu]
          rfl
        have hHasU : HasSubSection
            (updateAtPath (fun _ => (AddSubSectionP c0 b).1)
              (AddSubSectionP sec a).1 [a]) name =
            HasSubSection (AddSubSectionP c0 b).1 b := by
          rw [HasSubSection_eq, if_neg h0, hs]
          dsimp only
          rw [if_neg (by simp [hhu]), hgetu]
        have hGPU : GetSubSectionPath
            (updateAtPath (fun _ => (AddSubSectionP c0 b).1)
              (AddSubSectionP sec a).1 [a]) name =
            (GetSubSectionPath (AddSubSectionP c0 b).1 b).map (a :: ·) := by
          rw [GetSubSectionPath_eq, if_neg h0, hs]
          dsimp only
          rw [if_neg (by simp [hhu]), hgetu]
        obtain ⟨ihH, ihP, ihD⟩ := ih b c0 (by omega)
        rw [hA]
        refine ⟨?_, ?_, ?_⟩
        · dsimp only
          rw [hHasU, ihH]
          cases (AddSubSectionP c0 b).2 <;> rfl
        · intro hsome
          dsimp only at hsome ⊢
          cases hp2 : (AddSubSectionP c0 b).2 with
          | none => rw [hp2] at hsome; simp at hsome
          | some p2 =>
            rw [hGPU, ihP (by rw [hp2]; rfl), hp2]
            rfl
        · dsimp only
          cases hp2 : (AddSubSectionP c0 b).2 with
          | some p2 =>
            have hHtrue : HasSubSection
                (updateAtPath (fun _ => (AddSubSectionP c0 b).1)
                  (AddSubSectionP sec a).1 [a]) name = true := by
              rw [hHasU, ihH, hp2]; rfl
            rw [AddSubSectionP_eq, if_neg h0, if_pos hHtrue]
            rw [hGPU, ihP (by rw [hp2]; rfl), hp2]
            rfl
          | none =>
            have hHfalse : HasSubSection
                (updateAtPath (fun _ => (AddSubSectionP c0 b).1)
                  (AddSubSectionP sec a).1 [a]) name = false := by
              rw [hHasU, ihH, hp2]; rfl
            rw [AddSubSectionP_eq, if_neg h0,
              if_neg (by rw [hHfalse]; simp), hs]
            dsimp only
            have hAu : AddSubSectionP (updateAtPath
                (fun _ => (AddSubSectionP c0 b).1)
                (AddSubSectionP sec a).1 [a]) a =
                (updateAtPath (fun _ => (AddSubSectionP c0 b).1)
                  (AddSubSectionP sec a).1 [a],
                 some [a]) := by
              rw [ASP_plain _ ha0 hadot, if_pos hhu, GSP_plain _ ha0 hadot]
              rw [hupd]
              simp only [BgeConfigSection.mNestedSections_mk]
              simp [hgu]
            rw [hAu]
            dsimp only
            rw [hnavu]
            dsimp only
            rw [ihD, hp2]
            have hself : updateFirstSec (fun _ => (AddSubSectionP c0 b).1)
                (updateFirstSec (fun _ => (AddSubSectionP c0 b).1)
                  (AddSubSectionP sec a).1.mNestedSections a) a =
                updateFirstSec (fun _ => (AddSubSectionP c0 b).1)
                  (AddSubSectionP sec a).1.mNestedSections a :=
              updateFirstSec_self hgu
            rw [show updateAtPath (fun _ => (AddSubSectionP c0 b).1)
                (updateAtPath (fun _ => (AddSubSectionP c0 b).1)
                  (AddSubSectionP sec a).1 [a]) [a] =
                BgeConfigSection.mk (AddSubSectionP sec a).1.Name
                  (AddSubSectionP sec a).1.mProperties
                  (updateFirstSec (fun _ => (AddSubSectionP c0 b).1)
                    (updateFirstSec (fun _ => (AddSubSectionP c0 b).1)
                      (AddSubSectionP sec a).1.mNestedSections a) a) from rfl]
            rw [hself, ← hupd]

end BgeSpec

namespace BgeSpec

open BgePropertyValueType

/-- A second `AddProperty` with the same path (and any property) is a
no-op: the state after two calls equals the state after the first. -/
theorem AP_idem :
    ∀ (k : Nat) (name : List Char) (sec : BgeConfigSection)
      (p q : BgeConfigProperty), name.length ≤ k →
      AddProperty (AddProperty sec name p) name q = AddProperty sec name p := by
  intro k
  induction k with
  | zero =>
    intro name sec p q h
    have h0 : name = [] := by cases name with
      | nil => rfl
      | cons c r => simp at h
    subst h0
    rfl
  | succ k ih =>
    intro name sec p q h
    by_cases h0 : name = []
    · subst h0; rfl
    by_cases hh : HasProperty sec name
    · have hA : AddProperty sec name p = sec := by
        rw [AddProperty_eq, if_neg h0, if_pos hh]
      rw [hA, AddProperty_eq, if_neg h0, if_pos hh]
    cases hs : splitFirstDot name with
    | none =>
      -- plain property name: first call appends, second sees it
      have hA : AddProperty sec name p =
          .mk sec.Name (sec.mProperties ++ [{ p with Name := name }])
            sec.mNestedSections := by
        rw [AddProp_plain sec p h0 hs, if_neg hh]
      have hfp : getPropIter sec.mProperties name = none := by
        rw [HasProp_plain sec h0 hs] at hh
        exact isSome_false_eq_none (bool_ne_true_eq_false hh)
      have hHas2 : HasProperty
          (BgeConfigSection.mk sec.Name
            (sec.mProperties ++ [{ p with Name := name }])
            sec.mNestedSections) name = true := by
        rw [HasProp_plain _ h0 hs]
        simp only [BgeConfigSection.mProperties_mk]
        rw [getPropIter_append, hfp]
        simp [getPropIter, List.find?_cons]
      rw [hA, AddProperty_eq, if_neg h0, if_pos hHas2]
    | some pr =>
      obtain ⟨a, b⟩ := pr
      obtain ⟨la, lb⟩ := splitFirstDot_lengths _ _ _ hs
      have hadot : splitFirstDot a = none := splitFirstDot_fst_no_dot hs
      by_cases ha0 : a = []
      · -- empty leading segment: the null-pointer guard makes both
        -- calls no-ops
        subst ha0
        have hA : AddProperty sec name p = sec := by
          rw [AddProperty_eq, if_neg h0, if_neg hh, hs]
          dsimp only
          rw [if_pos (by rw [show HasSubSection sec [] = false from rfl]; simp)]
          rw [show AddSubSectionP sec [] = (sec, none) from rfl]
        rw [hA, AddProperty_eq, if_neg h0, if_neg hh, hs]
        dsimp only
        rw [if_pos (by rw [show HasSubSection sec [] = false from rfl]; simp)]
        rw [show AddSubSectionP sec [] = (sec, none) from rfl]
      · -- nonempty leading segment
        -- the r pair computed by the first call
        have hr : ∃ c0,
            (if ¬ HasSubSection sec a = true then AddSubSectionP sec a
             else (sec, GetSubSectionPath sec a)).2 = some [a] ∧
            navPath (if ¬ HasSubSection sec a = true then AddSubSectionP sec a
              else (sec, GetSubSectionPath sec a)).1 [a] = some c0 := by
          by_cases hha : HasSubSection sec a
          · rw [if_neg (by simp [hha])]
            dsimp only
            rw [Has_plain sec ha0 hadot] at hha
            cases hgi : getSecIter sec.mNestedSections a with
            | none => rw [hgi] at hha; simp at hha
            | some c0 =>
              refine ⟨c0, ?_, ?_⟩
              · rw [GSP_plain sec ha0 hadot, hgi]; rfl
              · rw [navPath_cons, hgi]; rfl
          · rw [if_pos (by simp [hha])]
            refine ⟨.mk a [] [], ASP_plain_path sec ha0 hadot, ?_⟩
            have hfa : getSecIter sec.mNestedSections a = none := by
              rw [Has_plain sec ha0 hadot] at hha
              exact isSome_false_eq_none (bool_ne_true_eq_false hha)
            rw [show (AddSubSectionP sec a).1 =
                BgeConfigSection.mk sec.Name sec.mProperties
                  (sec.mNestedSections ++ [.mk a [] []]) from by
              rw [ASP_plain sec ha0 hadot, if_neg hha]]
            rw [navPath_cons]
            simp only [BgeConfigSection.mNestedSections_mk]
            rw [getSecIter_append, hfa]
            simp [getSecIter, List.find?_cons]
            rfl
        obtain ⟨c0, hr2, hnav⟩ := hr
        have hc0name : c0.Name = a := by
          rw [navPath_cons] at hnav
          cases hgi : getSecIter (if ¬ HasSubSection sec a = true
              then AddSubSectionP sec a
              else (sec, GetSubSectionPath sec a)).1.mNestedSections a with
          | none => rw [hgi] at hnav; simp at hnav
          | some x =>
            rw [hgi] at hnav
            rw [show (some x).bind (fun c => navPath c []) = some x
              from rfl] at hnav
            injection hnav with hnav
            rw [← hnav]
            exact getSecIter_name hgi
        have hgc0 : getSecIter (if ¬ HasSubSection sec a = true
            then AddSubSectionP sec a
            else (sec, GetSubSectionPath sec a)).1.mNestedSections a =
            some c0 := by
          rw [navPath_cons] at hnav
          cases hgi : getSecIter (if ¬ HasSubSection sec a = true
              then AddSubSectionP sec a
              else (sec, GetSubSectionPath sec a)).1.mNestedSections a with
          | none => rw [hgi] at hnav; simp at hnav
          | some x =>
            rw [hgi] at hnav
            rw [show (some x).bind (fun c => navPath c []) = some x
              from rfl] at hnav
            injection hnav with hnav
            rw [hnav]
        have hA : AddProperty sec name p =
            updateAtPath (fun _ => AddProperty c0 b p)
              (if ¬ HasSubSection sec a = true then AddSubSectionP sec a
               else (sec, GetSubSectionPath sec a)).1 [a] := by
          rw [AddProperty_eq, if_neg h0, if_neg hh, hs]
          dsimp only
          rw [hr2]
          dsimp only
          rw [hnav]
        have hS1 : updateAtPath (fun _ => AddProperty c0 b p)
            (if ¬ HasSubSection sec a = true then AddSubSectionP sec a
             else (sec, GetSubSectionPath sec a)).1 [a] =
            .mk (if ¬ HasSubSection sec a = true then AddSubSectionP sec a
              else (sec, GetSubSectionPath sec a)).1.Name
              (if ¬ HasSubSection sec a = true then AddSubSectionP sec a
               else (sec, GetSubSectionPath sec a)).1.mProperties
              (updateFirstSec (fun _ => AddProperty c0 b p)
                (if ¬ HasSubSection sec a = true then AddSubSectionP sec a
                 else (sec, GetSubSectionPath sec a)).1.mNestedSections a) := rfl
        have hgS1 : getSecIter
            (updateFirstSec (fun _ => AddProperty c0 b p)
              (if ¬ HasSubSection sec a = true then AddSubSectionP sec a
               else (sec, GetSubSectionPath sec a)).1.mNestedSections a) a =
            some (AddProperty c0 b p) :=
          getSecIter_updateFirstSec_found hgc0
            (by rw [AP_name (k + 1) b c0 p (by omega)])
        have hHasS1a : HasSubSection (updateAtPath (fun _ => AddProperty c0 b p)
            (if ¬ HasSubSection sec a = true then AddSubSectionP sec a
             else (sec, GetSubSectionPath sec a)).1 [a]) a = true := by
          rw [hS1, Has_plain _ ha0 hadot]
          simp only [BgeConfigSection.mNestedSections_mk]
          rw [hgS1]
          rfl
        rw [hA]
        by_cases hq : HasProperty (updateAtPath (fun _ => AddProperty c0 b p)
            (if ¬ HasSubSection sec a = true then AddSubSectionP sec a
             else (sec, GetSubSectionPath sec a)).1 [a]) name
        · rw [AddProperty_eq, if_neg h0, if_pos hq]
        · rw [AddProperty_eq, if_neg h0, if_neg hq, hs]
          dsimp only
          rw [if_neg (fun hcon => hcon hHasS1a)]
          dsimp only
          have hgsp : GetSubSectionPath (updateAtPath
              (fun _ => AddProperty c0 b p)
              (if ¬ HasSubSection sec a = true then AddSubSectionP sec a
               else (sec, GetSubSectionPath sec a)).1 [a]) a = some [a] := by
            rw [hS1, GSP_plain _ ha0 hadot]
            simp only [BgeConfigSection.mNestedSections_mk]
            rw [if_pos (show (getSecIter
              (updateFirstSec (fun _ => AddProperty c0 b p)
                (if ¬ HasSubSection sec a = true then AddSubSectionP sec a
                 else (sec, GetSubSectionPath sec a)).1.mNestedSections a)
              a).isSome = true from by rw [hgS1]; rfl)]
          rw [hgsp]
          dsimp only
          have hnavS1 : navPath (updateAtPath (fun _ => AddProperty c0 b p)
              (if ¬ HasSubSection sec a = true then AddSubSectionP sec a
               else (sec, GetSubSectionPath sec a)).1 [a]) [a] =
              some (AddProperty c0 b p) := by
            rw [navPath_cons, hS1]
            simp only [BgeConfigSection.mNestedSections_mk]
            rw [hgS1]
            rfl
          rw [hnavS1]
          dsimp only
          rw [ih b c0 p q (by omega)]
          have hself : updateFirstSec (fun _ => AddProperty c0 b p)
              (updateFirstSec (fun _ => AddProperty c0 b p)
                (if ¬ HasSubSection sec a = true then AddSubSectionP sec a
                 else (sec, GetSubSectionPath sec a)).1.mNestedSections a) a =
              updateFirstSec (fun _ => AddProperty c0 b p)
                (if ¬ HasSubSection sec a = true then AddSubSectionP sec a
                 else (sec, GetSubSectionPath sec a)).1.mNestedSections a :=
            updateFirstSec_self hgS1
          rw [show updateAtPath (fun _ => AddProperty c0 b p)
              (updateAtPath (fun _ => AddProperty c0 b p)
                (if ¬ HasSubSection sec a = true then AddSubSectionP sec a
                 else (sec, GetSubSectionPath sec a)).1 [a]) [a] =
              BgeConfigSection.mk
                (if ¬ HasSubSection sec a = true then AddSubSectionP sec a
                 else (sec, GetSubSectionPath sec a)).1.Name
                (if ¬ HasSubSection sec a = true then AddSubSectionP sec a
                 else (sec, GetSubSectionPath sec a)).1.mProperties
                (updateFirstSec (fun _ => AddProperty c0 b p)
                  (updateFirstSec (fun _ => AddProperty c0 b p)
                    (if ¬ HasSubSection sec a = true then AddSubSectionP sec a
                     else (sec, GetSubSectionPath sec a)).1.mNestedSections a)
                  a) from rfl]
          rw [hself, ← hS1]

end BgeSpec

namespace BgeSpec

open BgePropertyValueType

theorem toSec_ofSec {s : BgeConfigSection} (h : s.Name = []) :
    toSec (ofSec s) = s := by
  cases s with
  | mk n ps ss =>
    simp only [BgeConfigSection.Name_mk] at h
    subst h
    rfl

theorem countSec_one_of_add {sec : BgeConfigSection} {name : List Char}
    (h0 : name ≠ []) (hp : splitFirstDot name = none)
    (hcount : sec.mNestedSections.countP (fun x => decide (name = x.Name)) ≤ 1) :
    ((AddSubSectionP sec name).1.mNestedSections).countP
      (fun x => decide (name = x.Name)) = 1 := by
  rw [ASP_plain sec h0 hp]
  by_cases hh : HasSubSection sec name
  · rw [if_pos hh]
    dsimp only
    rw [Has_plain sec h0 hp] at hh
    cases hgi : getSecIter sec.mNestedSections name with
    | none => rw [hgi] at hh; simp at hh
    | some x =>
      have hmem := List.mem_of_find?_eq_some hgi
      have hx := getSecIter_name hgi
      have : 0 < sec.mNestedSections.countP (fun x => decide (name = x.Name)) :=
        List.countP_pos.mpr ⟨x, hmem, by simp [hx]⟩
      omega
  · rw [if_neg hh]
    dsimp only
    rw [Has_plain sec h0 hp] at hh
    have hfind : getSecIter sec.mNestedSections name = none :=
      isSome_false_eq_none (bool_ne_true_eq_false hh)
    have hzero : sec.mNestedSections.countP (fun x => decide (name = x.Name)) = 0 := by
      rw [List.countP_eq_zero]
      intro x hmem
      by_contra hcon
      simp at hcon
      rw [getSecIter, List.find?_eq_none] at hfind
      exact absurd (by simp [hcon]) (hfind x hmem)
    simp only [BgeConfigSection.mNestedSections_mk]
    rw [List.countP_append, hzero]
    simp

theorem countProp_one_of_add {sec : BgeConfigSection} {name : List Char}
    (p : BgeConfigProperty)
    (h0 : name ≠ []) (hp : splitFirstDot name = none)
    (hcount : sec.mProperties.countP (fun x => decide (name = x.Name)) ≤ 1) :
    ((AddProperty sec name p).mProperties).countP
      (fun x => decide (name = x.Name)) = 1 := by
  rw [AddProp_plain sec p h0 hp]
  by_cases hh : HasProperty sec name
  · rw [if_pos hh]
    rw [HasProp_plain sec h0 hp] at hh
    cases hgi : getPropIter sec.mProperties name with
    | none => rw [hgi] at hh; simp at hh
    | some x =>
      have hmem := List.mem_of_find?_eq_some hgi
      have hx := getPropIter_name hgi
      have : 0 < sec.mProperties.countP (fun x => decide (name = x.Name)) :=
        List.countP_pos.mpr ⟨x, hmem, by simp [hx]⟩
      omega
  · rw [if_neg hh]
    rw [HasProp_plain sec h0 hp] at hh
    have hfind : getPropIter sec.mProperties name = none :=
      isSome_false_eq_none (bool_ne_true_eq_false hh)
    have hzero : sec.mProperties.countP (fun x => decide (name = x.Name)) = 0 := by
      rw [List.countP_eq_zero]
      intro x hmem
      by_contra hcon
      simp at hcon
      rw [getPropIter, List.find?_eq_none] at hfind
      exact absurd (by simp [hcon]) (hfind x hmem)
    simp only [BgeConfigSection.mProperties_mk]
    rw [List.countP_append, hzero]
    simp

/-- C8: idempotent insertion.  A second `AddProperty` with the same
path is a no-op keeping the first-inserted value; a second
`AddSubSection`/`AddSection` with the same path leaves the tree
unchanged and returns the pointer (path) of the originally created
section — at section level and at document level alike.  For a plain
(dot-free) name inserted at a level that held at most one entry of that
name, the level holds exactly one entry of that name afterwards. -/
theorem c8_idempotent_insertion (sec : BgeConfigSection) (cfg : BgeConfig)
    (name : List Char) (p q : BgeConfigProperty) :
    AddProperty (AddProperty sec name p) name q = AddProperty sec name p ∧
    AddSubSectionP (AddSubSectionP sec name).1 name = AddSubSectionP sec name ∧
    AddPropertyD (AddPropertyD cfg name p) name q = AddPropertyD cfg name p ∧
    AddSectionP (AddSectionP cfg name).1 name = AddSectionP cfg name ∧
    (name ≠ [] → splitFirstDot name = none →
      (sec.mProperties.countP (fun x => decide (name = x.Name)) ≤ 1 →
        ((AddProperty sec name p).mProperties).countP
          (fun x => decide (name = x.Name)) = 1) ∧
      (sec.mNestedSections.countP (fun x => decide (name = x.Name)) ≤ 1 →
        ((AddSubSectionP sec name).1.mNestedSections).countP
          (fun x => decide (name = x.Name)) = 1)) := by
  refine ⟨AP_idem name.length name sec p q (Nat.le_refl _),
    (ASP_bundle name.length name sec (Nat.le_refl _)).2.2, ?_, ?_,
    fun h0 hp => ⟨fun hc => countProp_one_of_add p h0 hp hc,
      fun hc => countSec_one_of_add h0 hp hc⟩⟩
  · simp only [AddPropertyD]
    rw [toSec_ofSec (AP_name name.length name (toSec cfg) p (Nat.le_refl _)),
      AP_idem name.length name (toSec cfg) p q (Nat.le_refl _)]
  · simp only [AddSectionP]
    rw [toSec_ofSec (ASP_name_props name.length name (toSec cfg)
      (Nat.le_refl _)).1,
      (ASP_bundle name.length name (toSec cfg) (Nat.le_refl _)).2.2]

/-- Witness for `c8_idempotent_insertion` at a concrete plain name on
concrete trees. -/
theorem c8_idempotent_insertion_witness :
    (AddProperty (AddProperty (.mk [] [] []) ['A'] defaultProperty) ['A']
        defaultProperty = AddProperty (.mk [] [] []) ['A'] defaultProperty) ∧
    (AddSubSectionP (AddSubSectionP (.mk [] [] []) ['A']).1 ['A'] =
      AddSubSectionP (.mk [] [] []) ['A']) ∧
    ((AddProperty (BgeConfigSection.mk [] [] []) ['A']
        defaultProperty).mProperties).countP
      (fun x => decide (['A'] = x.Name)) = 1 ∧
    ((AddSubSectionP (BgeConfigSection.mk [] [] []) ['A']).1.mNestedSections).countP
      (fun x => decide (['A'] = x.Name)) = 1 := by
  obtain ⟨h1, h2, _, _, h5⟩ := c8_idempotent_insertion (.mk [] [] []) ⟨[], []⟩
    ['A'] defaultProperty defaultProperty
  obtain ⟨h5a, h5b⟩ := h5 (by decide) (by decide)
  exact ⟨h1, h2, h5a (by decide), h5b (by decide)⟩

end BgeSpec

namespace BgeSpec

open BgePropertyValueType

/-! Round-trip (Save then Open) machinery: validity of a tree, the
exact tree the parser rebuilds, and typed-value equivalence. -/

/-- No two consecutive slashes (would be cut as a comment on
re-parse). -/
def noDoubleSlash : List Char → Bool
  | [] => true
  | [_] => true
  | c :: d :: rest => !(c = '/' && d = '/') && noDoubleSlash (d :: rest)

/-- Characters allowed in section and property names for a faithful
round trip: no path separator, no assignment sign, no slash, no
brackets, no quotes, no whitespace. -/
def validNameChar (c : Char) : Bool :=
  !(c = '.' || c = '=' || c = '/' || c = '[' || c = ']' ||
    c = quoteChar1 || c = quoteChar2 || isWs6 c)

def validName (n : List Char) : Bool :=
  !(n = [] : Bool) && n.all validNameChar

/-- A string value that survives the serialized line unchanged: it
re-classifies as `STRING`, is not cut by comment stripping, does not
move the last `=`, is stable under trimming, and is not quote
stripped. -/
def validStrValue (v : List Char) : Bool :=
  !(v = [] : Bool) && !stringIsBool v && !stringIsNumber v && !stringIsFloat v &&
  noDoubleSlash v && v.all (fun c => !(c = '=' || c = '\n')) && !v.all isWs6 &&
  (match v.head? with
   | some c => !(isWs3 c || c = quoteChar1 || c = quoteChar2)
   | none => false) &&
  (match v.getLast? with
   | some c => !(isWs3 c || c = quoteChar1 || c = quoteChar2)
   | none => false)

/-- Valid typed value: `INT` within the 32-bit range, any `BOOL`, a
stable `STRING`; `FLOAT` is excluded (the serializer's fixed
six-decimal rendering is lossy) and so is `UNKNOWN`. -/
def validPropValue (p : BgeConfigProperty) : Bool :=
  match p.Ty with
  | INT => decide (-2147483648 ≤ p.IntValue) && decide (p.IntValue ≤ 2147483647)
  | BOOL => true
  | STRING => validStrValue p.StrValue
  | _ => false

def validProp (p : BgeConfigProperty) : Bool :=
  validName p.Name && validPropValue p

def distinctNames : List (List Char) → Bool
  | [] => true
  | n :: rest => rest.all (fun m => !(n = m : Bool)) && distinctNames rest

mutual

/-- A tree that round-trips: valid names, valid property values,
unique names per level. -/
def validSec : BgeConfigSection → Bool
  | .mk n props subs =>
    validName n && props.all validProp &&
    distinctNames (props.map BgeConfigProperty.Name) &&
    distinctNames (subs.map BgeConfigSection.Name) &&
    validSecs subs

def validSecs : List BgeConfigSection → Bool
  | [] => true
  | s :: rest => validSec s && validSecs rest

end

def validCfg (cfg : BgeConfig) : Bool :=
  cfg.mProperties.all validProp &&
  distinctNames (cfg.mProperties.map BgeConfigProperty.Name) &&
  distinctNames (cfg.mSections.map BgeConfigSection.Name) &&
  validSecs cfg.mSections

/-- The property the parser rebuilds from a saved property line: the
typed value is preserved, `StrValue` becomes the serialized text, the
inactive numeric/boolean fields are the parser's defaults. -/
def reparsedProp (p : BgeConfigProperty) : BgeConfigProperty :=
  match p.Ty with
  | INT => ⟨p.Name, INT, intToString p.IntValue, p.IntValue, 0, false⟩
  | BOOL => ⟨p.Name, BOOL,
      (if p.BoolValue then "true".toList else "false".toList), 0, 0, p.BoolValue⟩
  | ty => ⟨p.Name, ty, p.StrValue, 0, 0, false⟩

mutual

def reparsedSec : BgeConfigSection → BgeConfigSection
  | .mk n props subs => .mk n (props.map reparsedProp) (reparsedSecs subs)

def reparsedSecs : List BgeConfigSection → List BgeConfigSection
  | [] => []
  | s :: rest => reparsedSec s :: reparsedSecs rest

end

def reparsedCfg (cfg : BgeConfig) : BgeConfig :=
  ⟨cfg.mProperties.map reparsedProp, reparsedSecs cfg.mSections⟩

/-- Same name, same type, same typed (active) value. -/
def propEquiv (p q : BgeConfigProperty) : Bool :=
  decide (p.Name = q.Name) && decide (p.Ty = q.Ty) &&
  (match p.Ty with
   | INT => decide (p.IntValue = q.IntValue)
   | BOOL => decide (p.BoolValue = q.BoolValue)
   | FLOAT => decide (p.FloatValue = q.FloatValue)
   | _ => decide (p.StrValue = q.StrValue))

def propsEquiv : List BgeConfigProperty → List BgeConfigProperty → Bool
  | [], [] => true
  | p :: r, q :: t => propEquiv p q && propsEquiv r t
  | _, _ => false

mutual

/-- Same section names, same nesting, same property names and typed
values, in order. -/
def secEquiv : BgeConfigSection → BgeConfigSection → Bool
  | .mk n1 ps1 ss1, .mk n2 ps2 ss2 =>
    decide (n1 = n2) && propsEquiv ps1 ps2 && secsEquiv ss1 ss2

def secsEquiv : List BgeConfigSection → List BgeConfigSection → Bool
  | [], [] => true
  | s :: r, t :: u => secEquiv s t && secsEquiv r u
  | _, _ => false

end

def cfgEquiv (c1 c2 : BgeConfig) : Bool :=
  propsEquiv c1.mProperties c2.mProperties && secsEquiv c1.mSections c2.mSections

/-- Dot-joined qualified name of a section path. -/
def joinDots : List (List Char) → List Char
  | [] => []
  | [x] => x
  | x :: rest => x ++ '.' :: joinDots rest

/-- The C7 counterexample tree: one root property of type `STRING`
whose value is the digits `123`. -/
def c7Cfg : BgeConfig :=
  ⟨[⟨['A'], STRING, "123".toList, 0, 0, false⟩], []⟩

/-- C7 (counterexample): `Save` writes `A = 123`; `Open` re-classifies
the value as `INT`, so the reloaded tree does not have the same typed
value at path `A` — the property comes back with type `INT` and
integer value `123` instead of type `STRING`. -/
theorem c7_counterexample :
    SaveD c7Cfg = ["A = 123".toList, []] ∧
    OpenD true (SaveD c7Cfg) CloseD =
      .ok ⟨[⟨['A'], INT, "123".toList, 123, 0, false⟩], []⟩ ∧
    (GetD c7Cfg ['A']).map BgeConfigProperty.Ty = some STRING ∧
    (GetD ⟨[⟨['A'], INT, "123".toList, 123, 0, false⟩], []⟩ ['A']).map
      BgeConfigProperty.Ty = some INT ∧
    propEquiv ⟨['A'], STRING, "123".toList, 0, 0, false⟩
      ⟨['A'], INT, "123".toList, 123, 0, false⟩ = false := by
  exact ⟨rfl, rfl, rfl, rfl, by decide⟩

end BgeSpec

namespace BgeSpec

open BgePropertyValueType

/-! String-level lemmas for the saved-line round trip. -/

theorem trimComment_eq_self :
    ∀ {l : List Char}, noDoubleSlash l = true → stringTrimComment l = l := by
  intro l
  induction l with
  | nil => intro _; rfl
  | cons c rest ih =>
    intro h
    cases rest with
    | nil => rfl
    | cons d r =>
      have h' : (!(c = '/' && d = '/') && noDoubleSlash (d :: r)) = true := h
      simp only [Bool.and_eq_true] at h'
      rw [stringTrimComment, if_neg (by rw [Bool.not_eq_true'] at h'; simp [h'.1]),
        ih h'.2]

theorem noDoubleSlash_append {a b : List Char}
    (ha : ∀ c ∈ a, c ≠ '/') (hb : noDoubleSlash b = true) :
    noDoubleSlash (a ++ b) = true := by
  induction a with
  | nil => simpa using hb
  | cons c a' ih =>
    have hc : c ≠ '/' := ha c (by simp)
    have ih2 := ih (fun x hx => ha x (by simp [hx]))
    rw [List.cons_append]
    cases hab : a' ++ b with
    | nil => rfl
    | cons e r =>
      rw [hab] at ih2
      show (!(c = '/' && e = '/') && noDoubleSlash (e :: r)) = true
      simp only [Bool.and_eq_true]
      exact ⟨by simp [hc], ih2⟩

theorem dropWhile_eq_self_of_head {l : List Char}
    (h : ∀ c, l.head? = some c → isWs3 c = false) :
    l.dropWhile isWs3 = l := by
  cases l with
  | nil => rfl
  | cons c rest =>
    rw [List.dropWhile_cons, if_neg (by rw [h c rfl]; simp)]

theorem trimLeading_eq_self {l : List Char}
    (hhead : ∀ c, l.head? = some c → isWs3 c = false)
    (hlast : ∀ c, l.getLast? = some c → isWs3 c = false)
    (hall : l.all isWs6 = false) :
    stringTrimLeading l = l := by
  rw [stringTrimLeading, if_neg (by rw [hall]; simp),
    dropWhile_eq_self_of_head hhead,
    dropWhile_eq_self_of_head (by
      intro c hc
      rw [List.head?_reverse] at hc
      exact hlast c hc),
    List.reverse_reverse]

theorem findLastEq_none :
    ∀ {l : List Char}, (∀ c ∈ l, c ≠ '=') → findLastEq l = none := by
  intro l
  induction l with
  | nil => intro _; rfl
  | cons c rest ih =>
    intro h
    rw [findLastEq, ih (fun x hx => h x (by simp [hx]))]
    rw [if_neg (h c (by simp))]

theorem findLastEq_append {v : List Char} (hv : ∀ c ∈ v, c ≠ '=') :
    ∀ (a : List Char), findLastEq (a ++ '=' :: v) = some a.length := by
  intro a
  induction a with
  | nil =>
    rw [List.nil_append, findLastEq, findLastEq_none hv, if_pos rfl]
    rfl
  | cons c a' ih =>
    rw [List.cons_append, findLastEq, ih]
    rfl

theorem take_append_exact (a b : List Char) : (a ++ b).take a.length = a := by
  simpa using @List.take_append _ a b 0

theorem drop_append_exact (a b : List Char) : (a ++ b).drop a.length = b := by
  simpa using @List.drop_append _ a b 0

theorem drop_append_succ (a : List Char) (c : Char) (b : List Char) :
    (a ++ c :: b).drop (a.length + 1) = b := by
  rw [show a.length + 1 = (a ++ [c]).length by simp, show a ++ c :: b =
    (a ++ [c]) ++ b by simp, drop_append_exact]

end BgeSpec

namespace BgeSpec

open BgePropertyValueType

/-! Digit and classification lemmas. -/

theorem digitsVal_append_single (l : List Char) (c : Char) :
    digitsVal (l ++ [c]) = 10 * digitsVal l + (c.toNat - '0'.toNat) := by
  rw [digitsVal, digitsVal, List.foldl_append]
  rfl

theorem natToDigits_spec :
    ∀ n : Nat, (natToDigits n).all isDigitChar = true ∧ natToDigits n ≠ [] ∧
      digitsVal (natToDigits n) = n := by
  intro n
  induction n using Nat.strong_induction_on with
  | _ n ih =>
    rw [natToDigits_eq]
    by_cases h10 : n < 10
    · rw [if_pos h10]
      refine ⟨?_, by simp, ?_⟩
      · simp only [List.all_cons, List.all_nil, Bool.and_true]
        interval_cases n <;> decide
      · rw [digitsVal]
        simp only [List.foldl_cons, List.foldl_nil]
        interval_cases n <;> decide
    · rw [if_neg h10]
      obtain ⟨ha, hn, hv⟩ := ih (n / 10) (Nat.div_lt_self (by omega) (by omega))
      refine ⟨?_, by simp, ?_⟩
      · rw [List.all_append, ha]
        simp only [List.all_cons, List.all_nil, Bool.and_true, Bool.true_and]
        have hm : n % 10 < 10 := Nat.mod_lt _ (by omega)
        interval_cases hh : (n % 10) <;> decide
      · rw [digitsVal_append_single, hv]
        have hm : n % 10 < 10 := Nat.mod_lt _ (by omega)
        have ht : (Char.ofNat ('0'.toNat + n % 10)).toNat = '0'.toNat + n % 10 := by
          interval_cases hh : (n % 10) <;> decide
        rw [ht]
        omega

theorem takeWhile_all_eq_self {l : List Char} {p : Char → Bool}
    (h : l.all p = true) : l.takeWhile p = l := by
  induction l with
  | nil => rfl
  | cons c rest ih =>
    simp only [List.all_cons, Bool.and_eq_true] at h
    rw [List.takeWhile_cons, if_pos h.1, ih h.2]

theorem digit_ne {c : Char} (h : isDigitChar c = true) :
    c ≠ '+' ∧ c ≠ '-' ∧ c ≠ '=' ∧ c ≠ '/' ∧ isWs3 c = false ∧ isWs6 c = false ∧
      c ≠ '.' := by
  have hx : ∀ x : Char, isDigitChar x = false → c ≠ x := by
    intro x hxf he
    rw [he] at h
    rw [hxf] at h
    exact absurd h (by decide)
  refine ⟨hx '+' (by decide), hx '-' (by decide), hx '=' (by decide),
    hx '/' (by decide), ?_, ?_, hx '.' (by decide)⟩
  · simp [isWs3, hx (Char.ofNat 9) (by decide), hx (Char.ofNat 10) (by decide),
      hx ' ' (by decide)]
  · simp [isWs6, hx ' ' (by decide), hx (Char.ofNat 10) (by decide),
      hx (Char.ofNat 9) (by decide), hx (Char.ofNat 13) (by decide),
      hx (Char.ofNat 12) (by decide), hx (Char.ofNat 11) (by decide)]

theorem intToString_ne_nil (i : Int) : intToString i ≠ [] := by
  rw [intToString]
  by_cases hi : i < 0
  · rw [if_pos hi]; simp
  · rw [if_neg hi]; exact (natToDigits_spec _).2.1

theorem intToString_chars (i : Int) :
    ∀ c ∈ intToString i, c = '-' ∨ isDigitChar c = true := by
  intro c hc
  rw [intToString] at hc
  by_cases hi : i < 0
  · rw [if_pos hi] at hc
    cases hc with
    | head => exact Or.inl rfl
    | tail _ hmem =>
      exact Or.inr (by
        have := (natToDigits_spec (-i).toNat).1
        rw [List.all_eq_true] at this
        exact this c hmem)
  · rw [if_neg hi] at hc
    exact Or.inr (by
      have := (natToDigits_spec i.toNat).1
      rw [List.all_eq_true] at this
      exact this c hc)

theorem stringIsNumber_of_digits {l : List Char} (h0 : l ≠ [])
    (h : l.all isDigitChar = true) : stringIsNumber l = true := by
  cases l with
  | nil => exact absurd rfl h0
  | cons c rest =>
    simp only [List.all_cons, Bool.and_eq_true] at h
    obtain ⟨hne1, hne2, _⟩ := digit_ne h.1
    rw [stringIsNumber, if_neg (by simp [hne1, hne2])]
    simp only [List.all_cons, Bool.and_eq_true]
    exact ⟨h.1, h.2⟩

theorem stringIsNumber_intToString (i : Int) :
    stringIsNumber (intToString i) = true := by
  rw [intToString]
  by_cases hi : i < 0
  · rw [if_pos hi, stringIsNumber, if_pos (by simp)]
    exact (natToDigits_spec _).1
  · rw [if_neg hi]
    exact stringIsNumber_of_digits (natToDigits_spec _).2.1 (natToDigits_spec _).1

theorem stringIsBool_false_of_head {s : List Char} {c : Char}
    (hc : s.head? = some c) (h1 : c ≠ 'T') (h2 : c ≠ 't')
    (h3 : c ≠ 'F') (h4 : c ≠ 'f') : stringIsBool s = false := by
  have e1 : s ≠ "True".toList := by
    intro he; rw [he] at hc; injection hc with hc; exact h1 hc.symm
  have e2 : s ≠ "true".toList := by
    intro he; rw [he] at hc; injection hc with hc; exact h2 hc.symm
  have e3 : s ≠ "False".toList := by
    intro he; rw [he] at hc; injection hc with hc; exact h3 hc.symm
  have e4 : s ≠ "false".toList := by
    intro he; rw [he] at hc; injection hc with hc; exact h4 hc.symm
  rw [stringIsBool]
  simp only [Bool.or_eq_false_iff, decide_eq_false_iff_not]
  exact ⟨⟨⟨e1, e2⟩, e3⟩, e4⟩

theorem intToString_head (i : Int) :
    ∃ c, (intToString i).head? = some c ∧ (c = '-' ∨ isDigitChar c = true) := by
  cases hl : intToString i with
  | nil => exact absurd hl (intToString_ne_nil i)
  | cons c rest =>
    exact ⟨c, rfl, intToString_chars i c (by rw [hl]; simp)⟩

theorem stringIsBool_intToString (i : Int) :
    stringIsBool (intToString i) = false := by
  obtain ⟨c, hc, hd⟩ := intToString_head i
  cases hd with
  | inl h =>
    subst h
    exact stringIsBool_false_of_head hc (by decide) (by decide) (by decide)
      (by decide)
  | inr h =>
    refine stringIsBool_false_of_head hc ?_ ?_ ?_ ?_ <;>
      (intro he; rw [he] at h; exact absurd h (by decide))

theorem classify_intToString (i : Int) :
    EstimateValueType (intToString i) = INT := by
  rw [EstimateValueType, if_neg (intToString_ne_nil i),
    stringIsBool_intToString, stringIsNumber_intToString]
  rfl

theorem signSplit_of_digit_head {s : List Char} {c : Char}
    (hc : s.head? = some c) (h : isDigitChar c = true) :
    signSplit s = (1, s) := by
  cases s with
  | nil => simp at hc
  | cons d rest =>
    injection hc with hc
    subst hc
    obtain ⟨hne1, hne2, _⟩ := digit_ne h
    rw [signSplit, if_neg hne1, if_neg hne2]

theorem stoiModel_intToString {i : Int}
    (h1 : -2147483648 ≤ i) (h2 : i ≤ 2147483647) :
    stoiModel (intToString i) = .ok i := by
  by_cases hi : i < 0
  · have hs : intToString i = '-' :: natToDigits (-i).toNat := by
      rw [intToString, if_pos hi]
    rw [stoiModel, hs]
    rw [show signSplit ('-' :: natToDigits (-i).toNat) =
      (-1, natToDigits (-i).toNat) from by rw [signSplit]; simp]
    dsimp only
    rw [takeWhile_all_eq_self (natToDigits_spec _).1]
    rw [if_neg (by simpa using (natToDigits_spec (-i).toNat).2.1)]
    rw [(natToDigits_spec (-i).toNat).2.2]
    have hv : (-1 : Int) * ((-i).toNat : Int) = i := by
      rw [Int.toNat_of_nonneg (by omega)]
      omega
    rw [hv, if_neg (by
      simp only [Bool.or_eq_true, decide_eq_true_eq]
      omega)]
  · have hs : intToString i = natToDigits i.toNat := by
      rw [intToString, if_neg hi]
    obtain ⟨c, hc, hd⟩ := intToString_head i
    rw [hs] at hc
    have hdig : isDigitChar c = true := by
      cases hd with
      | inl h =>
        exfalso
        have hall := (natToDigits_spec i.toNat).1
        rw [List.all_eq_true] at hall
        have hmem : c ∈ natToDigits i.toNat := by
          cases hl : natToDigits i.toNat with
          | nil => rw [hl] at hc; simp at hc
          | cons d r =>
            rw [hl] at hc
            injection hc with hc2
            subst hc2
            simp
        have hd2 := hall c hmem
        rw [h] at hd2
        exact absurd hd2 (by decide)
      | inr h => exact h
    rw [stoiModel, hs, signSplit_of_digit_head hc hdig]
    dsimp only
    rw [takeWhile_all_eq_self (natToDigits_spec _).1]
    rw [if_neg (by simpa using (natToDigits_spec i.toNat).2.1)]
    rw [(natToDigits_spec i.toNat).2.2]
    have hv : (1 : Int) * (i.toNat : Int) = i := by
      rw [Int.toNat_of_nonneg (by omega)]
      omega
    rw [hv, if_neg (by
      simp only [Bool.or_eq_true, decide_eq_true_eq]
      omega)]

end BgeSpec

namespace BgeSpec

open BgePropertyValueType

/-! Helper lemmas for the amended round-trip claim: membership,
whitespace, and extraction of the validity components. -/

theorem mem_of_head? {l : List Char} {c : Char} (h : l.head? = some c) :
    c ∈ l := by
  cases l with
  | nil => simp at h
  | cons d r =>
    injection h with h
    subst h
    simp

theorem mem_of_getLast? {l : List Char} {c : Char} (h : l.getLast? = some c) :
    c ∈ l := by
  rw [← List.head?_reverse] at h
  have hm := mem_of_head? h
  simpa using hm

theorem head?_append_left {a b : List Char} (ha : a ≠ []) :
    (a ++ b).head? = a.head? := by
  cases a with
  | nil => exact absurd rfl ha
  | cons c r => rfl

theorem getLast?_append_right {a v : List Char} (hv : v ≠ []) :
    (a ++ v).getLast? = v.getLast? := by
  rw [← List.head?_reverse, ← List.head?_reverse, List.reverse_append]
  exact head?_append_left (by simpa using hv)

theorem isWs3_false_of_ws6_false {c : Char} (h : isWs6 c = false) :
    isWs3 c = false := by
  rw [isWs6] at h
  rw [isWs3]
  simp only [Bool.or_eq_false_iff, decide_eq_false_iff_not] at h ⊢
  exact ⟨⟨h.1.1.1.2, h.1.1.1.1.2⟩, h.1.1.1.1.1⟩

theorem all_isWs6_false_of_head {l : List Char} {c : Char}
    (hc : l.head? = some c) (h : isWs6 c = false) : l.all isWs6 = false := by
  cases l with
  | nil => simp at hc
  | cons d r =>
    injection hc with hc
    subst hc
    simp [List.all_cons, h]

theorem all_false_of_ne_nil {l : List Char} {q : Char → Bool} (hne : l ≠ [])
    (h : ∀ c ∈ l, q c = false) : l.all q = false := by
  cases l with
  | nil => exact absurd rfl hne
  | cons c r => simp [List.all_cons, h c (by simp)]

theorem validName_parts {n : List Char} (h : validName n = true) :
    n ≠ [] ∧ ∀ c ∈ n, validNameChar c = true := by
  rw [validName, Bool.and_eq_true] at h
  refine ⟨by simpa using h.1, ?_⟩
  intro c hc
  have ha := h.2
  rw [List.all_eq_true] at ha
  exact ha c hc

theorem validNameChar_ne {c x : Char} (h : validNameChar c = true)
    (hx : validNameChar x = false) : c ≠ x := by
  intro he
  rw [he] at h
  rw [hx] at h
  exact absurd h (by decide)

theorem validNameChar_ws6 {c : Char} (h : validNameChar c = true) :
    isWs6 c = false := by
  cases h6 : isWs6 c
  · rfl
  · rw [validNameChar, h6] at h
    simp at h

theorem validNameChar_parts {c : Char} (h : validNameChar c = true) :
    c ≠ '.' ∧ c ≠ '=' ∧ c ≠ '/' ∧ c ≠ '[' ∧ c ≠ ']' ∧
      isWs6 c = false ∧ isWs3 c = false :=
  ⟨validNameChar_ne h (by decide), validNameChar_ne h (by decide),
   validNameChar_ne h (by decide), validNameChar_ne h (by decide),
   validNameChar_ne h (by decide), validNameChar_ws6 h,
   isWs3_false_of_ws6_false (validNameChar_ws6 h)⟩

theorem splitFirstDot_none {n : List Char} (h : ∀ c ∈ n, c ≠ '.') :
    splitFirstDot n = none := by
  induction n with
  | nil => rfl
  | cons c rest ih =>
    rw [splitFirstDot, if_neg (h c (by simp)),
      ih (fun x hx => h x (by simp [hx]))]
    rfl

theorem noDoubleSlash_of_no_slash {a : List Char} (ha : ∀ c ∈ a, c ≠ '/') :
    noDoubleSlash a = true := by
  have h := @noDoubleSlash_append a [] ha rfl
  simpa using h

theorem validName_no_dot {n : List Char} (h : validName n = true) :
    splitFirstDot n = none := by
  obtain ⟨_, hch⟩ := validName_parts h
  exact splitFirstDot_none (fun c hc => (validNameChar_parts (hch c hc)).1)

theorem or3_false_parts {a b c : Bool} (h : (!(a || b || c)) = true) :
    a = false ∧ b = false ∧ c = false := by
  cases a <;> cases b <;> cases c <;> simp_all

theorem validStrValue_parts {v : List Char} (h : validStrValue v = true) :
    v ≠ [] ∧ stringIsBool v = false ∧ stringIsNumber v = false ∧
      stringIsFloat v = false ∧ noDoubleSlash v = true ∧
      (∀ c ∈ v, c ≠ '=') ∧ v.all isWs6 = false ∧
      (∀ c, v.head? = some c →
        isWs3 c = false ∧ c ≠ quoteChar1 ∧ c ≠ quoteChar2) ∧
      (∀ c, v.getLast? = some c →
        isWs3 c = false ∧ c ≠ quoteChar1 ∧ c ≠ quoteChar2) := by
  rw [validStrValue] at h
  simp only [Bool.and_eq_true] at h
  obtain ⟨⟨⟨⟨⟨⟨⟨⟨hne, hb⟩, hn⟩, hf⟩, hds⟩, heq⟩, h6⟩, hhd⟩, hlt⟩ := h
  refine ⟨by simpa using hne, by simpa using hb, by simpa using hn,
    by simpa using hf, hds, ?_, by simpa using h6, ?_, ?_⟩
  · intro c hc
    rw [List.all_eq_true] at heq
    have hc2 := heq c hc
    simp only [Bool.not_eq_true', Bool.or_eq_false_iff,
      decide_eq_false_iff_not] at hc2
    exact hc2.1
  · intro c hc
    rw [hc] at hhd
    obtain ⟨h1, h2, h3⟩ := or3_false_parts hhd
    exact ⟨h1, by simpa using h2, by simpa using h3⟩
  · intro c hc
    rw [hc] at hlt
    obtain ⟨h1, h2, h3⟩ := or3_false_parts hlt
    exact ⟨h1, by simpa using h2, by simpa using h3⟩

end BgeSpec

namespace BgeSpec

open BgePropertyValueType

/-! Trimming of the two halves of a serialized assignment line, and the
facts about the serialized value text needed for re-parsing. -/

theorem trimLeading_append_space {n : List Char} (hne : n ≠ [])
    (hws : ∀ c ∈ n, isWs3 c = false)
    (h6 : ∀ c, n.head? = some c → isWs6 c = false) :
    stringTrimLeading (n ++ [' ']) = n := by
  obtain ⟨c, hc⟩ : ∃ c, n.head? = some c := by
    cases n with
    | nil => exact absurd rfl hne
    | cons d r => exact ⟨d, rfl⟩
  rw [stringTrimLeading, if_neg (by
    rw [all_isWs6_false_of_head (by rw [head?_append_left hne]; exact hc)
      (h6 c hc)]
    simp)]
  have h1 : List.dropWhile isWs3 (n ++ [' ']) = n ++ [' '] :=
    dropWhile_eq_self_of_head (by
      intro d hd
      rw [head?_append_left hne] at hd
      exact hws d (mem_of_head? hd))
  have hrev : (n ++ [' ']).reverse = ' ' :: n.reverse := by simp
  have h2 : List.dropWhile isWs3 n.reverse = n.reverse :=
    dropWhile_eq_self_of_head (by
      intro d hd
      rw [List.head?_reverse] at hd
      exact hws d (mem_of_getLast? hd))
  rw [h1, hrev, List.dropWhile_cons, if_pos (by decide), h2,
    List.reverse_reverse]

theorem trimLeading_space_cons {v : List Char}
    (hhead : ∀ c, v.head? = some c → isWs3 c = false)
    (hlast : ∀ c, v.getLast? = some c → isWs3 c = false)
    (hall : v.all isWs6 = false) :
    stringTrimLeading (' ' :: v) = v := by
  rw [stringTrimLeading, if_neg (by
    rw [show ((' ' :: v).all isWs6) = (isWs6 ' ' && v.all isWs6) from rfl, hall]
    simp)]
  have h1 : List.dropWhile isWs3 v = v := dropWhile_eq_self_of_head hhead
  have h2 : List.dropWhile isWs3 v.reverse = v.reverse :=
    dropWhile_eq_self_of_head (by
      intro d hd
      rw [List.head?_reverse] at hd
      exact hlast d hd)
  rw [List.dropWhile_cons, if_pos (by decide), h1, h2, List.reverse_reverse]

theorem reparsedProp_Name (p : BgeConfigProperty) :
    (reparsedProp p).Name = p.Name := by
  cases p with
  | mk n t s i f b => cases t <;> rfl

theorem reparsedProp_Ty (p : BgeConfigProperty) :
    (reparsedProp p).Ty = p.Ty := by
  cases p with
  | mk n t s i f b => cases t <;> rfl

theorem reparsedProp_set_name (p : BgeConfigProperty) :
    { reparsedProp p with Name := p.Name } = reparsedProp p := by
  cases p with
  | mk n t s i f b => cases t <;> rfl

theorem concrete_text_facts {v : List Char} (hne : v ≠ [])
    (heq : (∀ c ∈ v, c ≠ '=') ∧ noDoubleSlash v = true ∧
           (∀ c ∈ v, isWs3 c = false) ∧ v.all isWs6 = false) :
    v ≠ [] ∧ (∀ c ∈ v, c ≠ '=') ∧ noDoubleSlash v = true ∧
      (∀ c, v.head? = some c → isWs3 c = false) ∧
      (∀ c, v.getLast? = some c → isWs3 c = false) ∧
      v.all isWs6 = false :=
  ⟨hne, heq.1, heq.2.1,
   fun c hc => heq.2.2.1 c (mem_of_head? hc),
   fun c hc => heq.2.2.1 c (mem_of_getLast? hc),
   heq.2.2.2⟩

theorem valueText_facts {p : BgeConfigProperty} (h : validProp p = true) :
    propValueText p ≠ [] ∧
      (∀ c ∈ propValueText p, c ≠ '=') ∧
      noDoubleSlash (propValueText p) = true ∧
      (∀ c, (propValueText p).head? = some c → isWs3 c = false) ∧
      (∀ c, (propValueText p).getLast? = some c → isWs3 c = false) ∧
      (propValueText p).all isWs6 = false := by
  rw [validProp, Bool.and_eq_true] at h
  obtain ⟨hname, hval⟩ := h
  rw [validPropValue] at hval
  cases hT : p.Ty with
  | INT =>
    have hpv : propValueText p = intToString p.IntValue := by
      rw [propValueText, hT]
    rw [hpv]
    have hch : ∀ c ∈ intToString p.IntValue,
        c ≠ '=' ∧ c ≠ '/' ∧ isWs3 c = false := by
      intro c hc
      cases intToString_chars p.IntValue c hc with
      | inl hm => subst hm; exact ⟨by decide, by decide, by decide⟩
      | inr hd =>
        obtain ⟨_, _, he, hs, h3, _, _⟩ := digit_ne hd
        exact ⟨he, hs, h3⟩
    refine concrete_text_facts (intToString_ne_nil _)
      ⟨fun c hc => (hch c hc).1,
       noDoubleSlash_of_no_slash (fun c hc => (hch c hc).2.1),
       fun c hc => (hch c hc).2.2, ?_⟩
    refine all_false_of_ne_nil (intToString_ne_nil _) ?_
    intro c hc
    cases intToString_chars p.IntValue c hc with
    | inl hm => subst hm; decide
    | inr hd => exact (digit_ne hd).2.2.2.2.2.1
  | BOOL =>
    have hpv : propValueText p =
        (if p.BoolValue then "true".toList else "false".toList) := by
      rw [propValueText, hT]
    rw [hpv]
    cases hb : p.BoolValue
    · rw [if_neg (by simp)]
      exact concrete_text_facts (by decide)
        ⟨by decide, by decide, by decide, by decide⟩
    · rw [if_pos rfl]
      exact concrete_text_facts (by decide)
        ⟨by decide, by decide, by decide, by decide⟩
  | STRING =>
    rw [hT] at hval
    have hpv : propValueText p = p.StrValue := by
      rw [propValueText, hT]
    rw [hpv]
    obtain ⟨hne, _, _, _, hds, heq, h6, hhd, hlt⟩ := validStrValue_parts hval
    exact ⟨hne, heq, hds, fun c hc => (hhd c hc).1,
      fun c hc => (hlt c hc).1, h6⟩
  | FLOAT =>
    rw [hT] at hval
    simp at hval
  | UNKNOWN =>
    rw [hT] at hval
    simp at hval

end BgeSpec

namespace BgeSpec

open BgePropertyValueType

/-! `buildProperty` on a serialized valid value rebuilds the reparsed
property. -/

theorem exists_head? {v : List Char} (hne : v ≠ []) :
    ∃ c, v.head? = some c := by
  cases v with
  | nil => exact absurd rfl hne
  | cons d r => exact ⟨d, rfl⟩

theorem exists_getLast? {v : List Char} (hne : v ≠ []) :
    ∃ c, v.getLast? = some c := by
  cases hg : v.getLast? with
  | some x => exact ⟨x, rfl⟩
  | none =>
    rw [← List.head?_reverse] at hg
    cases hr : v.reverse with
    | cons d r => rw [hr] at hg; simp at hg
    | nil => exact absurd (by simpa using hr) hne

/-- The string/unknown branch of `buildProperty` on a value that is not
quote-wrapped keeps the value unchanged. -/
theorem buildProperty_string {v split0 : List Char} (hne : v ≠ [])
    (hhd : ∀ c, v.head? = some c → c ≠ quoteChar1 ∧ c ≠ quoteChar2)
    (hlt : ∀ c, v.getLast? = some c → c ≠ quoteChar1 ∧ c ≠ quoteChar2) :
    buildProperty STRING split0 v = .ok ⟨split0, STRING, v, 0, 0, false⟩ := by
  obtain ⟨c0, hc0⟩ := exists_head? hne
  obtain ⟨cl, hcl⟩ := exists_getLast? hne
  obtain ⟨h01, h02⟩ := hhd c0 hc0
  obtain ⟨h11, h12⟩ := hlt cl hcl
  simp only [buildProperty]
  rw [if_neg hne, hc0, if_neg (by simp [h01, h02]), hcl]
  dsimp only
  rw [if_neg (by simp [h11, h12])]

theorem buildProperty_valid {p : BgeConfigProperty} (h : validProp p = true) :
    buildProperty (EstimateValueType (propValueText p)) p.Name
      (propValueText p) = .ok (reparsedProp p) := by
  have hvp := h
  rw [validProp, Bool.and_eq_true] at hvp
  obtain ⟨hname, hval⟩ := hvp
  rw [validPropValue] at hval
  cases hT : p.Ty with
  | INT =>
    rw [hT] at hval
    simp only [Bool.and_eq_true, decide_eq_true_eq] at hval
    have hpv : propValueText p = intToString p.IntValue := by
      rw [propValueText, hT]
    have hrp : reparsedProp p =
        ⟨p.Name, INT, intToString p.IntValue, p.IntValue, 0, false⟩ := by
      simp [reparsedProp, hT]
    rw [hpv, classify_intToString, hrp]
    simp only [buildProperty]
    rw [stoiModel_intToString hval.1 hval.2]
    rfl
  | BOOL =>
    cases hb : p.BoolValue
    · have hpv : propValueText p = "false".toList := by
        simp [propValueText, hT, hb]
      have hrp : reparsedProp p =
          ⟨p.Name, BOOL, "false".toList, 0, 0, false⟩ := by
        simp [reparsedProp, hT, hb]
      rw [hpv, hrp]
      rfl
    · have hpv : propValueText p = "true".toList := by
        simp [propValueText, hT, hb]
      have hrp : reparsedProp p =
          ⟨p.Name, BOOL, "true".toList, 0, 0, true⟩ := by
        simp [reparsedProp, hT, hb]
      rw [hpv, hrp]
      rfl
  | STRING =>
    rw [hT] at hval
    have hpv : propValueText p = p.StrValue := by
      rw [propValueText, hT]
    have hrp : reparsedProp p = ⟨p.Name, STRING, p.StrValue, 0, 0, false⟩ := by
      simp [reparsedProp, hT]
    obtain ⟨hne, hb2, hn2, hf2, _, _, _, hhd, hlt⟩ := validStrValue_parts hval
    have hcl : EstimateValueType p.StrValue = STRING := by
      rw [EstimateValueType, if_neg hne, hb2, hn2, hf2]
      rfl
    rw [hpv, hcl, hrp]
    exact buildProperty_string hne (fun c hc => (hhd c hc).2)
      (fun c hc => (hlt c hc).2)
  | FLOAT =>
    rw [hT] at hval
    simp at hval
  | UNKNOWN =>
    rw [hT] at hval
    simp at hval

end BgeSpec

namespace BgeSpec

open BgePropertyValueType

/-- The parser position: the `currentSection` pointer as a root path
(`none`, the root, navigates like the empty path). -/
def curPath : Option (List (List Char)) → List (List Char)
  | some p => p
  | none => []

/-- Processing the saved line of a valid property adds the reparsed
property at the current section and leaves `currentSection` alone. -/
theorem processLine_propLine {p : BgeConfigProperty} (h : validProp p = true)
    (cfg : BgeConfig) (cur : Option (List (List Char))) :
    processLine ⟨cfg, cur⟩ (propSaveLine p) =
      .ok ⟨updateAtPathD (fun sec => AddProperty sec p.Name (reparsedProp p))
            cfg (curPath cur), cur⟩ := by
  have hvp := h
  rw [validProp, Bool.and_eq_true] at hvp
  obtain ⟨hname, _⟩ := hvp
  obtain ⟨hnne, hnch⟩ := validName_parts hname
  obtain ⟨hvne, hveq, hvds, hvhd, hvlt, hv6⟩ := valueText_facts h
  have hbp := buildProperty_valid h
  have hline2 : propSaveLine p =
      (p.Name ++ [' ']) ++ '=' :: ' ' :: propValueText p := by
    rw [propSaveLine,
      show (" = ".toList : List Char) = ' ' :: '=' :: ' ' :: [] from rfl]
    simp
  rw [hline2]
  cases hN : p.Name with
  | nil => exact absurd hN hnne
  | cons c0 n' =>
    rw [hN] at hnch hbp
    have hpc0 := validNameChar_parts (hnch c0 (by simp))
    rw [List.cons_append, List.cons_append]
    have hshape : c0 :: ((n' ++ [' ']) ++ '=' :: ' ' :: propValueText p) =
        ((c0 :: n') ++ [' ']) ++ '=' :: (' ' :: propValueText p) := by
      simp
    have hnds : noDoubleSlash
        (c0 :: ((n' ++ [' ']) ++ '=' :: ' ' :: propValueText p)) = true := by
      rw [hshape]
      refine noDoubleSlash_append ?_ ?_
      · intro x hx
        rcases List.mem_append.mp hx with h1 | h1
        · exact (validNameChar_parts (hnch x h1)).2.2.1
        · simp at h1
          subst h1
          decide
      · exact @noDoubleSlash_append ['=', ' '] (propValueText p)
          (by
            intro x hx
            rcases List.mem_cons.mp hx with h1 | h1
            · subst h1; decide
            · simp at h1; subst h1; decide)
          hvds
    have htc : stringTrimComment
        (c0 :: ((n' ++ [' ']) ++ '=' :: ' ' :: propValueText p)) =
        c0 :: ((n' ++ [' ']) ++ '=' :: ' ' :: propValueText p) :=
      trimComment_eq_self hnds
    have hglast : (c0 :: ((n' ++ [' ']) ++ '=' :: ' ' :: propValueText p)).getLast? =
        (propValueText p).getLast? := by
      rw [show c0 :: ((n' ++ [' ']) ++ '=' :: ' ' :: propValueText p) =
        ((c0 :: (n' ++ [' '])) ++ ['=', ' ']) ++ propValueText p from by simp,
        getLast?_append_right hvne]
    have htl : stringTrimLeading
        (c0 :: ((n' ++ [' ']) ++ '=' :: ' ' :: propValueText p)) =
        c0 :: ((n' ++ [' ']) ++ '=' :: ' ' :: propValueText p) := by
      refine trimLeading_eq_self ?_ ?_ ?_
      · intro d hd
        injection hd with hd
        subst hd
        exact hpc0.2.2.2.2.2.2
      · intro d hd
        rw [hglast] at hd
        exact hvlt d hd
      · exact all_isWs6_false_of_head rfl hpc0.2.2.2.2.2.1
    have hfle : findLastEq
        (c0 :: ((n' ++ [' ']) ++ '=' :: ' ' :: propValueText p)) =
        some ((c0 :: n').length + 1) := by
      rw [hshape, findLastEq_append (by
        intro x hx
        rcases List.mem_cons.mp hx with h1 | h1
        · subst h1; decide
        · exact hveq x h1)]
      simp
    have hsplit0 : stringTrimLeading
        ((c0 :: ((n' ++ [' ']) ++ '=' :: ' ' :: propValueText p)).take
          ((c0 :: n').length + 1)) = c0 :: n' := by
      rw [hshape,
        show (c0 :: n').length + 1 = ((c0 :: n') ++ [' ']).length from by simp,
        take_append_exact]
      refine trimLeading_append_space (by simp) ?_ ?_
      · intro d hd
        exact (validNameChar_parts (hnch d hd)).2.2.2.2.2.2
      · intro d hd
        injection hd with hd
        subst hd
        exact hpc0.2.2.2.2.2.1
    have hsplit1 : stringTrimLeading
        ((c0 :: ((n' ++ [' ']) ++ '=' :: ' ' :: propValueText p)).drop
          ((c0 :: n').length + 1 + 1)) = propValueText p := by
      rw [hshape,
        show (c0 :: n').length + 1 + 1 = ((c0 :: n') ++ [' ']).length + 1 from
          by simp,
        drop_append_succ]
      exact trimLeading_space_cons hvhd hvlt hv6
    simp only [processLine]
    rw [if_neg (by simp only [List.length_cons]; omega)]
    rw [if_neg (by
      intro he
      rw [show ("//".toList : List Char) = '/' :: ['/'] from rfl] at he
      injection he with he1 he2
      exact (hpc0.2.2.1) he1)]
    rw [htc, htl]
    dsimp only
    rw [if_neg (by
      simp only [Bool.and_eq_true, decide_eq_true_eq]
      intro hcon
      exact hpc0.2.2.2.1 hcon.1)]
    rw [if_neg (by
      intro hcon
      rw [show ("[SECTIONEND]".toList : List Char) =
        '[' :: "SECTIONEND]".toList from rfl] at hcon
      injection hcon with h1 h2
      exact hpc0.2.2.2.1 h1)]
    rw [hfle]
    dsimp only
    rw [hsplit0, hsplit1, hbp]
    dsimp only
    rw [reparsedProp_Name, hN]
    cases cur <;> rfl

end BgeSpec

namespace BgeSpec

open BgePropertyValueType

/-! Composition of write-backs, navigation over appended paths, and the
fold of property insertions. -/

theorem parseLines_append :
    ∀ (l1 l2 : List (List Char)) (st : ParseState),
      parseLines (l1 ++ l2) st =
        (match parseLines l1 st with
         | .error e => .error e
         | .ok st2 => parseLines l2 st2) := by
  intro l1
  induction l1 with
  | nil => intro l2 st; rfl
  | cons line rest ih =>
    intro l2 st
    rw [List.cons_append]
    simp only [parseLines]
    cases hpl : processLine st line with
    | error e => rfl
    | ok st2 => exact ih l2 st2

theorem navPath_append :
    ∀ (q r : List (List Char)) (sec : BgeConfigSection),
      navPath sec (q ++ r) = (navPath sec q).bind (fun c => navPath c r) := by
  intro q
  induction q with
  | nil => intro r sec; rfl
  | cons seg rest ih =>
    intro r sec
    rw [List.cons_append, navPath_cons, navPath_cons]
    cases getSecIter sec.mNestedSections seg with
    | none => rfl
    | some c => exact ih r c

theorem navPath_single (sec : BgeConfigSection) (n : List Char) :
    navPath sec [n] = getSecIter sec.mNestedSections n := by
  rw [navPath_cons]
  cases getSecIter sec.mNestedSections n with
  | none => rfl
  | some c => rfl

theorem updateFirstSec_comp (F G : BgeConfigSection → BgeConfigSection)
    (hG : ∀ s, (G s).Name = s.Name) :
    ∀ (l : List BgeConfigSection) (n : List Char),
      updateFirstSec F (updateFirstSec G l n) n =
        updateFirstSec (fun s => F (G s)) l n := by
  intro l
  induction l with
  | nil => intro n; rfl
  | cons s rest ih =>
    intro n
    by_cases hn : s.Name = n
    · rw [updateFirstSec, if_pos hn, updateFirstSec,
        if_pos (by rw [hG s]; exact hn), updateFirstSec, if_pos hn]
    · rw [updateFirstSec, if_neg hn, updateFirstSec, if_neg hn, updateFirstSec,
        if_neg hn, ih]

theorem updateFirstSec_ext {F1 F2 : BgeConfigSection → BgeConfigSection}
    (h : ∀ s, F1 s = F2 s) :
    ∀ (l : List BgeConfigSection) (n : List Char),
      updateFirstSec F1 l n = updateFirstSec F2 l n := by
  intro l
  induction l with
  | nil => intro n; rfl
  | cons s rest ih =>
    intro n
    rw [updateFirstSec, updateFirstSec, h s, ih]

theorem updateAtPath_comp (f g : BgeConfigSection → BgeConfigSection)
    (hg : ∀ s, (g s).Name = s.Name) :
    ∀ (q : List (List Char)) (sec : BgeConfigSection),
      updateAtPath f (updateAtPath g sec q) q =
        updateAtPath (fun s => f (g s)) sec q := by
  intro q
  induction q with
  | nil => intro sec; rfl
  | cons seg rest ih =>
    intro sec
    simp only [updateAtPath, BgeConfigSection.Name_mk,
      BgeConfigSection.mProperties_mk, BgeConfigSection.mNestedSections_mk]
    refine congrArg (BgeConfigSection.mk sec.Name sec.mProperties) ?_
    refine Eq.trans (updateFirstSec_comp _ _ (fun s => by
      cases rest with
      | nil => exact hg s
      | cons a b => rfl) sec.mNestedSections seg) ?_
    exact updateFirstSec_ext (fun s => ih s) sec.mNestedSections seg

theorem toSec_name (cfg : BgeConfig) : (toSec cfg).Name = [] := rfl

theorem updateAtPathD_comp (f g : BgeConfigSection → BgeConfigSection)
    (hg : ∀ s, (g s).Name = s.Name) (q : List (List Char)) (cfg : BgeConfig) :
    updateAtPathD f (updateAtPathD g cfg q) q =
      updateAtPathD (fun s => f (g s)) cfg q := by
  rw [updateAtPathD, updateAtPathD, updateAtPathD,
    toSec_ofSec (by
      cases q with
      | nil => exact (hg (toSec cfg)).trans rfl
      | cons a b =>
        exact ((updateAtPath_name_props g (toSec cfg)
          (show (a :: b : List (List Char)) ≠ [] by simp)).1).trans rfl),
    updateAtPath_comp f g hg]

theorem updateAtPath_congr_nav {f g : BgeConfigSection → BgeConfigSection} :
    ∀ {q : List (List Char)} {sec node : BgeConfigSection},
      navPath sec q = some node → f node = g node →
      updateAtPath f sec q = updateAtPath g sec q := by
  intro q
  induction q with
  | nil =>
    intro sec node hn hfg
    rw [navPath_nil] at hn
    injection hn with hn
    subst hn
    exact hfg
  | cons seg rest ih =>
    intro sec node hn hfg
    rw [navPath_cons] at hn
    cases hg2 : getSecIter sec.mNestedSections seg with
    | none => rw [hg2] at hn; simp at hn
    | some c =>
      rw [hg2] at hn
      have hn2 : navPath c rest = some node := hn
      simp only [updateAtPath]
      refine congrArg (BgeConfigSection.mk sec.Name sec.mProperties) ?_
      exact updateFirstSec_congr_found hg2 (ih hn2 hfg)

theorem foldl_addProps :
    ∀ (props : List BgeConfigProperty) (q : BgeConfigSection),
      props.all validProp = true →
      distinctNames (props.map BgeConfigProperty.Name) = true →
      (∀ x ∈ props, getPropIter q.mProperties x.Name = none) →
      props.foldl (fun acc x => AddProperty acc x.Name (reparsedProp x)) q =
        .mk q.Name (q.mProperties ++ props.map reparsedProp)
          q.mNestedSections := by
  intro props
  induction props with
  | nil =>
    intro q _ _ _
    cases q with
    | mk n ps ss => simp
  | cons x rest ih =>
    intro q hall hdn hfresh
    simp only [List.all_cons, Bool.and_eq_true] at hall
    simp only [List.map_cons, distinctNames, Bool.and_eq_true] at hdn
    have hxname : validName x.Name = true := by
      have hxv := hall.1
      rw [validProp, Bool.and_eq_true] at hxv
      exact hxv.1
    obtain ⟨hxne, _⟩ := validName_parts hxname
    rw [List.foldl_cons]
    have hstep : AddProperty q x.Name (reparsedProp x) =
        .mk q.Name (q.mProperties ++ [reparsedProp x]) q.mNestedSections := by
      rw [AddProp_plain q (reparsedProp x) hxne (validName_no_dot hxname),
        if_neg (by
          rw [HasProp_plain q hxne (validName_no_dot hxname),
            hfresh x (by simp)]
          simp),
        reparsedProp_set_name]
    have hfresh2 : ∀ y ∈ rest,
        getPropIter (q.mProperties ++ [reparsedProp x]) y.Name = none := by
      intro y hy
      rw [getPropIter_append, hfresh y (by simp [hy])]
      simp only [Option.none_or]
      have hne2 : ¬(y.Name = x.Name) := by
        have h1 := hdn.1
        rw [List.all_eq_true] at h1
        have h2 := h1 y.Name (List.mem_map_of_mem _ hy)
        simp only [Bool.not_eq_true', decide_eq_false_iff_not] at h2
        intro he
        exact h2 he.symm
      simp [getPropIter, List.find?_cons, reparsedProp_Name, hne2]
    rw [hstep, ih (.mk q.Name (q.mProperties ++ [reparsedProp x])
      q.mNestedSections) hall.2 hdn.2 hfresh2]
    simp

end BgeSpec

namespace BgeSpec

open BgePropertyValueType

/-- Parsing the saved lines of a list of valid properties folds their
insertion into the node at the current section. -/
theorem parseLines_props :
    ∀ (props : List BgeConfigProperty) (cfg : BgeConfig)
      (cur : Option (List (List Char))),
      props.all validProp = true →
      parseLines (props.map propSaveLine) ⟨cfg, cur⟩ =
        .ok ⟨updateAtPathD
          (fun q => props.foldl
            (fun acc x => AddProperty acc x.Name (reparsedProp x)) q)
          cfg (curPath cur), cur⟩ := by
  intro props
  induction props with
  | nil =>
    intro cfg cur _
    have h1 : updateAtPathD
        (fun q => List.foldl
          (fun acc x => AddProperty acc x.Name (reparsedProp x)) q
          ([] : List BgeConfigProperty)) cfg (curPath cur) = cfg := by
      rw [updateAtPathD,
        show (fun q => List.foldl
          (fun acc x => AddProperty acc x.Name (reparsedProp x)) q
          ([] : List BgeConfigProperty)) = (fun s : BgeConfigSection => s)
          from rfl,
        updateAtPath_id]
      rfl
    rw [List.map_nil, parseLines, h1]
  | cons x rest ih =>
    intro cfg cur hall
    simp only [List.all_cons, Bool.and_eq_true] at hall
    rw [List.map_cons]
    simp only [parseLines]
    rw [processLine_propLine hall.1]
    dsimp only
    rw [ih _ cur hall.2,
      updateAtPathD_comp _ _
        (fun s => AP_name x.Name.length x.Name s (reparsedProp x)
          (Nat.le_refl _)) (curPath cur) cfg]
    rfl

end BgeSpec

namespace BgeSpec

open BgePropertyValueType

/-! Dotted qualified names: splitting of `joinDots`, and the addressing
operations on a joined path of valid segment names. -/

theorem joinDots_cons {P : List (List Char)} (x : List Char) (hP : P ≠ []) :
    joinDots (x :: P) = x ++ '.' :: joinDots P := by
  cases P with
  | nil => exact absurd rfl hP
  | cons y rest => rfl

theorem joinDots_ne_nil :
    ∀ {P : List (List Char)}, P ≠ [] → (∀ s ∈ P, s ≠ []) →
      joinDots P ≠ [] := by
  intro P
  cases P with
  | nil => intro h _; exact absurd rfl h
  | cons x rest =>
    intro _ hs
    cases rest with
    | nil => exact hs x (by simp)
    | cons y r2 =>
      rw [joinDots_cons x (by simp)]
      intro he
      simp at he

theorem joinDots_chars :
    ∀ (P : List (List Char)) (c : Char), c ∈ joinDots P →
      (∃ s ∈ P, c ∈ s) ∨ c = '.' := by
  intro P
  induction P with
  | nil => intro c hc; simp [joinDots] at hc
  | cons x rest ih =>
    intro c hc
    cases rest with
    | nil => exact Or.inl ⟨x, by simp, hc⟩
    | cons y rest2 =>
      rw [joinDots_cons x (by simp)] at hc
      rcases List.mem_append.mp hc with h1 | h1
      · exact Or.inl ⟨x, by simp, h1⟩
      · rcases List.mem_cons.mp h1 with h2 | h2
        · exact Or.inr h2
        · rcases ih c h2 with ⟨s, hs, hcs⟩ | h3
          · exact Or.inl ⟨s, by simp [hs], hcs⟩
          · exact Or.inr h3

theorem splitFirstDot_append_dot {x t : List Char} (hx : ∀ c ∈ x, c ≠ '.') :
    splitFirstDot (x ++ '.' :: t) = some (x, t) := by
  induction x with
  | nil =>
    rw [List.nil_append, splitFirstDot, if_pos rfl]
  | cons c x2 ih =>
    rw [List.cons_append, splitFirstDot, if_neg (hx c (by simp)),
      ih (fun d hd => hx d (by simp [hd]))]
    rfl

theorem joinDots_append_single :
    ∀ (P : List (List Char)) (n : List Char), (∀ s ∈ P, s ≠ []) →
      joinDots (P ++ [n]) =
        (if joinDots P ≠ [] then joinDots P ++ ['.'] else []) ++ n := by
  intro P
  induction P with
  | nil =>
    intro n _
    rw [List.nil_append, if_neg (by simp [joinDots])]
    rfl
  | cons x rest ih =>
    intro n hs
    cases rest with
    | nil =>
      rw [List.cons_append, List.nil_append, joinDots_cons x (by simp),
        show joinDots [n] = n from rfl, show joinDots [x] = x from rfl,
        if_pos (hs x (by simp))]
      simp
    | cons y r2 =>
      rw [List.cons_append, joinDots_cons x (by simp),
        ih n (fun s h => hs s (by simp [h]))]
      have h1 : joinDots (y :: r2) ≠ [] :=
        joinDots_ne_nil (by simp) (fun s h => hs s (by simp [h]))
      rw [if_pos h1, joinDots_cons x (by simp), if_pos (by simp)]
      simp

theorem Has_joinDots :
    ∀ (P : List (List Char)) (sec : BgeConfigSection), P ≠ [] →
      (∀ s ∈ P, validName s = true) →
      HasSubSection sec (joinDots P) = (navPath sec P).isSome := by
  intro P
  induction P with
  | nil => intro sec h _; exact absurd rfl h
  | cons x rest ih =>
    intro sec _ hv
    have hxv := hv x (by simp)
    obtain ⟨hxne, hxch⟩ := validName_parts hxv
    cases rest with
    | nil =>
      rw [show joinDots [x] = x from rfl,
        Has_plain sec hxne (validName_no_dot hxv), navPath_single]
    | cons y r2 =>
      rw [joinDots_cons x (by simp),
        HasSubSection_eq,
        if_neg (by simp : ¬(x ++ '.' :: joinDots (y :: r2) : List Char) = []),
        splitFirstDot_append_dot
          (fun c hc => (validNameChar_parts (hxch c hc)).1)]
      dsimp only
      rw [Has_plain sec hxne (validName_no_dot hxv),
        Get_plain sec hxne (validName_no_dot hxv), navPath_cons]
      cases hg : getSecIter sec.mNestedSections x with
      | none =>
        rw [if_pos (by simp)]
        rfl
      | some c =>
        rw [if_neg (by simp)]
        dsimp only
        exact ih c (by simp) (fun s h => hv s (by simp [h]))

theorem GSP_joinDots :
    ∀ (P : List (List Char)) (sec : BgeConfigSection), P ≠ [] →
      (∀ s ∈ P, validName s = true) → (navPath sec P).isSome = true →
      GetSubSectionPath sec (joinDots P) = some P := by
  intro P
  induction P with
  | nil => intro sec h _ _; exact absurd rfl h
  | cons x rest ih =>
    intro sec _ hv hnav
    have hxv := hv x (by simp)
    obtain ⟨hxne, hxch⟩ := validName_parts hxv
    cases rest with
    | nil =>
      rw [show joinDots [x] = x from rfl,
        GSP_plain sec hxne (validName_no_dot hxv)]
      rw [navPath_single] at hnav
      rw [if_pos hnav]
    | cons y r2 =>
      rw [navPath_cons] at hnav
      cases hg : getSecIter sec.mNestedSections x with
      | none => rw [hg] at hnav; simp at hnav
      | some c =>
        rw [hg] at hnav
        have hnav2 : (navPath c (y :: r2)).isSome = true := hnav
        rw [joinDots_cons x (by simp), GetSubSectionPath_eq,
          if_neg (by simp : ¬(x ++ '.' :: joinDots (y :: r2) : List Char) = []),
          splitFirstDot_append_dot
            (fun ch hc => (validNameChar_parts (hxch ch hc)).1)]
        dsimp only
        rw [if_neg (by
            rw [Has_plain sec hxne (validName_no_dot hxv), hg]
            simp),
          Get_plain sec hxne (validName_no_dot hxv), hg]
        dsimp only
        rw [ih c (by simp) (fun s h => hv s (by simp [h])) hnav2]
        rfl

end BgeSpec

namespace BgeSpec

open BgePropertyValueType

/-- `AddSubSection` on a qualified name whose parent path resolves and
whose final segment is fresh: appends an empty section under the parent
and returns the extended path. -/
theorem ASP_fresh :
    ∀ (P : List (List Char)) (n : List Char) (sec : BgeConfigSection),
      (∀ s ∈ P, validName s = true) → validName n = true →
      navPath sec (P ++ [n]) = none → (navPath sec P).isSome = true →
      AddSubSectionP sec (joinDots (P ++ [n])) =
        (updateAtPath (fun q => .mk q.Name q.mProperties
           (q.mNestedSections ++ [.mk n [] []])) sec P,
         some (P ++ [n])) := by
  intro P
  induction P with
  | nil =>
    intro n sec _ hn hnone _
    obtain ⟨hnne, _⟩ := validName_parts hn
    rw [List.nil_append] at hnone ⊢
    rw [navPath_single] at hnone
    rw [show joinDots [n] = n from rfl,
      ASP_plain sec hnne (validName_no_dot hn),
      if_neg (by
        rw [Has_plain sec hnne (validName_no_dot hn), hnone]
        simp)]
    rfl
  | cons x P2 ih =>
    intro n sec hv hn hnone hsome
    have hxv := hv x (by simp)
    obtain ⟨hxne, hxch⟩ := validName_parts hxv
    rw [List.cons_append] at hnone ⊢
    rw [navPath_cons] at hnone hsome
    cases hg : getSecIter sec.mNestedSections x with
    | none => rw [hg] at hsome; simp at hsome
    | some c =>
      rw [hg] at hnone hsome
      have hnone2 : navPath c (P2 ++ [n]) = none := hnone
      have hsome2 : (navPath c P2).isSome = true := hsome
      have hHas : HasSubSection sec (x ++ '.' :: joinDots (P2 ++ [n])) =
          false := by
        have h1 := Has_joinDots (x :: (P2 ++ [n])) sec (by simp)
          (fun s hs => by
            rcases List.mem_cons.mp hs with h2 | h2
            · subst h2; exact hxv
            · rcases List.mem_append.mp h2 with h3 | h3
              · exact hv s (by simp [h3])
              · simp at h3; subst h3; exact hn)
        rw [joinDots_cons x (by simp)] at h1
        rw [h1, navPath_cons, hg]
        rw [show ((some c).bind (fun d => navPath d (P2 ++ [n]))) =
          navPath c (P2 ++ [n]) from rfl, hnone2]
        rfl
      have hr1 : AddSubSectionP sec x = (sec, some [x]) := by
        rw [ASP_plain sec hxne (validName_no_dot hxv),
          if_pos (show HasSubSection sec x = true by
            rw [Has_plain sec hxne (validName_no_dot hxv), hg]
            rfl),
          GSP_plain sec hxne (validName_no_dot hxv),
          if_pos (by rw [hg]; rfl)]
      have hih := ih n c (fun s hs => hv s (by simp [hs])) hn hnone2 hsome2
      rw [joinDots_cons x (by simp), AddSubSectionP_eq,
        if_neg (by
          simp : ¬(x ++ '.' :: joinDots (P2 ++ [n]) : List Char) = []),
        if_neg (by rw [hHas]; simp),
        splitFirstDot_append_dot
          (fun ch hc => (validNameChar_parts (hxch ch hc)).1)]
      dsimp only
      rw [hr1]
      dsimp only
      rw [navPath_single, hg]
      dsimp only
      rw [hih]
      dsimp only
      have hupd : updateAtPath (fun _ => updateAtPath
            (fun q => BgeConfigSection.mk q.Name q.mProperties
              (q.mNestedSections ++ [BgeConfigSection.mk n [] []])) c P2)
            sec [x] =
          updateAtPath
            (fun q => BgeConfigSection.mk q.Name q.mProperties
              (q.mNestedSections ++ [BgeConfigSection.mk n [] []]))
            sec (x :: P2) := by
        simp only [updateAtPath]
        refine congrArg (BgeConfigSection.mk sec.Name sec.mProperties) ?_
        refine updateFirstSec_congr_found hg ?_
        rfl
      rw [hupd]
      rfl

end BgeSpec

namespace BgeSpec

open BgePropertyValueType

/-- Processing a saved section-header line `[qualified]` (fresh final
segment under a resolving parent path) appends an empty child and moves
`currentSection` to it. -/
theorem processLine_header (P : List (List Char)) (n : List Char)
    (cfg : BgeConfig) (cur : Option (List (List Char)))
    (hP : ∀ q ∈ P, validName q = true) (hn : validName n = true)
    (hnav : (navPath (toSec cfg) P).isSome = true)
    (hfresh : navPath (toSec cfg) (P ++ [n]) = none) :
    processLine ⟨cfg, cur⟩ ('[' :: (joinDots (P ++ [n]) ++ [']'])) =
      .ok ⟨updateAtPathD (fun q => .mk q.Name q.mProperties
             (q.mNestedSections ++ [.mk n [] []])) cfg P,
           some (P ++ [n])⟩ := by
  have hsegs : ∀ s ∈ P ++ [n], validName s = true := by
    intro s hs
    rcases List.mem_append.mp hs with h1 | h1
    · exact hP s h1
    · simp at h1; subst h1; exact hn
  have hQch : ∀ c ∈ joinDots (P ++ [n]), c ≠ '/' := by
    intro c hc
    rcases joinDots_chars (P ++ [n]) c hc with ⟨s, hs, hcs⟩ | h2
    · exact (validNameChar_parts ((validName_parts (hsegs s hs)).2 c hcs)).2.2.1
    · subst h2; decide
  have hglast : ('[' :: (joinDots (P ++ [n]) ++ [']'])).getLast? =
      some ']' := by
    rw [show '[' :: (joinDots (P ++ [n]) ++ [']']) =
      ('[' :: joinDots (P ++ [n])) ++ [']'] from by simp,
      getLast?_append_right (by simp)]
    rfl
  have hnds : noDoubleSlash ('[' :: (joinDots (P ++ [n]) ++ [']'])) =
      true := by
    refine noDoubleSlash_of_no_slash ?_
    intro c hc
    rcases List.mem_cons.mp hc with h1 | h1
    · subst h1; decide
    · rcases List.mem_append.mp h1 with h2 | h2
      · exact hQch c h2
      · simp at h2; subst h2; decide
  have htc := trimComment_eq_self hnds
  have htl : stringTrimLeading ('[' :: (joinDots (P ++ [n]) ++ [']'])) =
      '[' :: (joinDots (P ++ [n]) ++ [']']) := by
    refine trimLeading_eq_self ?_ ?_ ?_
    · intro d hd
      injection hd with hd
      subst hd
      decide
    · intro d hd
      rw [hglast] at hd
      injection hd with hd
      subst hd
      decide
    · exact all_isWs6_false_of_head rfl (by decide)
  have hHasD : HasSectionD cfg (joinDots (P ++ [n])) = false := by
    rw [HasSectionD, Has_joinDots (P ++ [n]) (toSec cfg) (by simp) hsegs,
      hfresh]
    rfl
  have hasp := ASP_fresh P n (toSec cfg) hP hn hfresh hnav
  simp only [processLine]
  rw [if_neg (by simp only [List.length_cons]; omega)]
  rw [if_neg (by
    intro he
    rw [show ("//".toList : List Char) = '/' :: ['/'] from rfl] at he
    injection he with he1 he2
    exact absurd he1 (by decide))]
  rw [htc, htl]
  dsimp only
  rw [if_pos (by
    simp only [Bool.and_eq_true, decide_eq_true_eq]
    exact ⟨trivial, hglast⟩)]
  rw [show ('[' :: (joinDots (P ++ [n]) ++ [']'])).drop 1 =
    joinDots (P ++ [n]) ++ [']'] from rfl]
  rw [show (joinDots (P ++ [n]) ++ [']']).dropLast = joinDots (P ++ [n])
    from by simp]
  rw [hHasD, if_pos (by simp)]
  simp only [AddSectionP]
  rw [hasp]
  rfl

end BgeSpec

namespace BgeSpec

open BgePropertyValueType

/-! Helpers for the save/reparse induction. -/

theorem processLine_empty (st : ParseState) :
    processLine st ([] : List Char) = .ok st := rfl

theorem reparsedSec_Name (s : BgeConfigSection) :
    (reparsedSec s).Name = s.Name := by
  cases s with
  | mk n ps ss => rfl

theorem foldl_addProps_name :
    ∀ (props : List BgeConfigProperty) (q : BgeConfigSection),
      (props.foldl (fun acc x => AddProperty acc x.Name (reparsedProp x))
        q).Name = q.Name := by
  intro props
  induction props with
  | nil => intro q; rfl
  | cons x rest ih =>
    intro q
    rw [List.foldl_cons, ih,
      AP_name x.Name.length x.Name q (reparsedProp x) (Nat.le_refl _)]

theorem updateAtPath_ext {f g : BgeConfigSection → BgeConfigSection}
    (h : ∀ s, f s = g s) :
    ∀ (q : List (List Char)) (sec : BgeConfigSection),
      updateAtPath f sec q = updateAtPath g sec q := by
  intro q
  induction q with
  | nil => intro sec; exact h sec
  | cons seg rest ih =>
    intro sec
    simp only [updateAtPath]
    exact congrArg (BgeConfigSection.mk sec.Name sec.mProperties)
      (updateFirstSec_ext (fun s => ih s) sec.mNestedSections seg)

theorem updateAtPathD_append (f : BgeConfigSection → BgeConfigSection)
    (P : List (List Char)) (n : List Char) (cfg : BgeConfig) :
    updateAtPathD f cfg (P ++ [n]) =
      updateAtPathD (fun q => updateAtPath f q [n]) cfg P := by
  rw [updateAtPathD, updateAtPathD, updateAtPath_append]

theorem updateAtPathD_congr_nav (f g : BgeConfigSection → BgeConfigSection)
    {P : List (List Char)} {cfg : BgeConfig} {node : BgeConfigSection}
    (hn : navPath (toSec cfg) P = some node) (hfg : f node = g node) :
    updateAtPathD f cfg P = updateAtPathD g cfg P := by
  rw [updateAtPathD, updateAtPathD, updateAtPath_congr_nav hn hfg]

theorem updateAtPathD_comp3 (f g h : BgeConfigSection → BgeConfigSection)
    (hg : ∀ s, (g s).Name = s.Name)
    (hfg : ∀ s, f (g s) = h s)
    (q : List (List Char)) (cfg : BgeConfig) :
    updateAtPathD f (updateAtPathD g cfg q) q = updateAtPathD h cfg q := by
  rw [updateAtPathD_comp f g hg q cfg, updateAtPathD, updateAtPathD]
  exact congrArg ofSec (updateAtPath_ext hfg q (toSec cfg))

theorem toSec_updateAtPathD (f : BgeConfigSection → BgeConfigSection)
    (hf : ∀ s, (f s).Name = s.Name) (P : List (List Char)) (cfg : BgeConfig) :
    toSec (updateAtPathD f cfg P) = updateAtPath f (toSec cfg) P := by
  rw [updateAtPathD, toSec_ofSec (by
    cases P with
    | nil => exact (hf (toSec cfg)).trans rfl
    | cons a b =>
      exact ((updateAtPath_name_props f (toSec cfg)
        (show (a :: b : List (List Char)) ≠ [] by simp)).1).trans rfl)]

theorem navPath_updateAtPathD (f : BgeConfigSection → BgeConfigSection)
    (hf : ∀ s, (f s).Name = s.Name) (P : List (List Char)) (cfg : BgeConfig) :
    navPath (toSec (updateAtPathD f cfg P)) P =
      (navPath (toSec cfg) P).map f := by
  rw [toSec_updateAtPathD f hf, navPath_updateAtPath f hf]

theorem getSecIter_singleton_self {x : BgeConfigSection} {n : List Char}
    (h : x.Name = n) : getSecIter [x] n = some x := by
  rw [getSecIter_cons, if_pos h.symm]

theorem updateFirstSec_singleton {f : BgeConfigSection → BgeConfigSection}
    {x : BgeConfigSection} {n : List Char} (h : x.Name = n) :
    updateFirstSec f [x] n = [f x] := by
  rw [updateFirstSec, if_pos h]

end BgeSpec

namespace BgeSpec

open BgePropertyValueType

/-- Bounded induction bundle: parsing the lines `Save` writes for one
section (or a sibling list) under a resolving parent path appends the
reparsed subtree at the parent, for any starting `currentSection`. -/
theorem save_parses_bundle :
    ∀ k : Nat,
      (∀ (s : BgeConfigSection) (P : List (List Char)) (cfg : BgeConfig)
         (cur : Option (List (List Char))) (parent : BgeConfigSection),
         sizeOf s ≤ k → validSec s = true →
         (∀ q ∈ P, validName q = true) →
         navPath (toSec cfg) P = some parent →
         getSecIter parent.mNestedSections s.Name = none →
         ∃ cur2, parseLines (saveSec s (joinDots P)) ⟨cfg, cur⟩ =
           .ok ⟨updateAtPathD (fun q => BgeConfigSection.mk q.Name
                  q.mProperties (q.mNestedSections ++ [reparsedSec s])) cfg P,
                cur2⟩) ∧
      (∀ (l : List BgeConfigSection) (P : List (List Char)) (cfg : BgeConfig)
         (cur : Option (List (List Char))) (parent : BgeConfigSection),
         sizeOf l ≤ k → validSecs l = true →
         distinctNames (l.map BgeConfigSection.Name) = true →
         (∀ q ∈ P, validName q = true) →
         navPath (toSec cfg) P = some parent →
         (∀ t ∈ l, getSecIter parent.mNestedSections t.Name = none) →
         ∃ cur2, parseLines (saveSecs l (joinDots P)) ⟨cfg, cur⟩ =
           .ok ⟨updateAtPathD (fun q => BgeConfigSection.mk q.Name
                  q.mProperties (q.mNestedSections ++ reparsedSecs l)) cfg P,
                cur2⟩) := by
  intro k
  induction k with
  | zero =>
    constructor
    · intro s P cfg cur parent hsz _ _ _ _
      cases s with
      | mk n ps subs => simp at hsz
    · intro l P cfg cur parent hsz _ _ _ _ _
      cases l with
      | nil => simp at hsz
      | cons a b => simp at hsz
  | succ k ih =>
    constructor
    · intro s P cfg cur parent hsz hvs hP hnavp hfr
      cases s with
      | mk n ps subs =>
        simp only [validSec, Bool.and_eq_true] at hvs
        obtain ⟨⟨⟨⟨hvn, hvprops⟩, hdnp⟩, hdns⟩, hvsubs⟩ := hvs
        have hszsubs : sizeOf subs ≤ k := by simp at hsz; omega
        have hfrn : getSecIter parent.mNestedSections n = none := hfr
        have hsegs : ∀ q ∈ P ++ [n], validName q = true := by
          intro q hq
          rcases List.mem_append.mp hq with h1 | h1
          · exact hP q h1
          · simp at h1; subst h1; exact hvn
        have hnavi : (navPath (toSec cfg) P).isSome = true := by
          rw [hnavp]; rfl
        have hfresh2 : navPath (toSec cfg) (P ++ [n]) = none := by
          rw [navPath_append, hnavp]
          show navPath parent [n] = none
          rw [navPath_single]
          exact hfrn
        have hjoin : (if joinDots P ≠ [] then joinDots P ++ ['.'] else []) ++ n
            = joinDots (P ++ [n]) :=
          (joinDots_append_single P n
            (fun q hq => (validName_parts (hP q hq)).1)).symm
        have hnav1 : navPath (toSec (updateAtPathD
            (fun q => BgeConfigSection.mk q.Name q.mProperties
              (q.mNestedSections ++ [BgeConfigSection.mk n [] []])) cfg P))
            (P ++ [n]) = some (BgeConfigSection.mk n [] []) := by
          rw [navPath_append, navPath_updateAtPathD
            (fun q => BgeConfigSection.mk q.Name q.mProperties
              (q.mNestedSections ++ [BgeConfigSection.mk n [] []]))
            (fun t => rfl) P cfg, hnavp, Option.map_some']
          show navPath (BgeConfigSection.mk parent.Name parent.mProperties
            (parent.mNestedSections ++ [BgeConfigSection.mk n [] []])) [n] = _
          rw [navPath_single]
          simp only [BgeConfigSection.mNestedSections_mk]
          rw [getSecIter_append, hfrn, Option.none_or]
          exact getSecIter_singleton_self rfl
        have hfold : List.foldl (fun acc x => AddProperty acc x.Name
              (reparsedProp x)) (BgeConfigSection.mk n [] []) ps =
            BgeConfigSection.mk n (ps.map reparsedProp) [] := by
          rw [foldl_addProps ps (BgeConfigSection.mk n [] []) hvprops hdnp
            (fun x hx => rfl)]
          simp
        simp only [saveSec]
        rw [hjoin, List.cons_append, List.cons_append]
        simp only [parseLines]
        rw [processLine_header P n cfg cur hP hvn hnavi hfresh2]
        dsimp only
        rw [List.append_assoc, parseLines_append,
          parseLines_props ps _ _ hvprops]
        simp only [curPath]
        rw [List.singleton_append]
        simp only [parseLines]
        rw [processLine_empty]
        dsimp only
        obtain ⟨cur3, heq3⟩ := ih.2 subs (P ++ [n])
          (updateAtPathD (fun q => List.foldl (fun acc x => AddProperty acc
              x.Name (reparsedProp x)) q ps)
            (updateAtPathD (fun q => BgeConfigSection.mk q.Name q.mProperties
              (q.mNestedSections ++ [BgeConfigSection.mk n [] []])) cfg P)
            (P ++ [n]))
          (some (P ++ [n])) (BgeConfigSection.mk n (ps.map reparsedProp) [])
          hszsubs hvsubs hdns hsegs
          (by
            rw [navPath_updateAtPathD _ (fun t => foldl_addProps_name ps t)
              (P ++ [n]) _, hnav1, Option.map_some']
            exact congrArg some hfold)
          (fun t ht => rfl)
        rw [heq3]
        refine ⟨cur3, ?_⟩
        refine congrArg (fun z => (Except.ok (⟨z, cur3⟩ : ParseState) :
          Except CppError ParseState)) ?_
        have e1 : updateAtPathD (fun q => BgeConfigSection.mk q.Name
              q.mProperties (q.mNestedSections ++ reparsedSecs subs))
            (updateAtPathD (fun q => List.foldl (fun acc x => AddProperty acc
                x.Name (reparsedProp x)) q ps)
              (updateAtPathD (fun q => BgeConfigSection.mk q.Name q.mProperties
                (q.mNestedSections ++ [BgeConfigSection.mk n [] []])) cfg P)
              (P ++ [n])) (P ++ [n]) =
            updateAtPathD (fun t => BgeConfigSection.mk
                (List.foldl (fun acc x => AddProperty acc x.Name
                  (reparsedProp x)) t ps).Name
                (List.foldl (fun acc x => AddProperty acc x.Name
                  (reparsedProp x)) t ps).mProperties
                ((List.foldl (fun acc x => AddProperty acc x.Name
                  (reparsedProp x)) t ps).mNestedSections ++
                  reparsedSecs subs))
              (updateAtPathD (fun q => BgeConfigSection.mk q.Name q.mProperties
                (q.mNestedSections ++ [BgeConfigSection.mk n [] []])) cfg P)
              (P ++ [n]) :=
          updateAtPathD_comp _ _ (fun t => foldl_addProps_name ps t) _ _
        have e2 : updateAtPathD (fun t => BgeConfigSection.mk
              (List.foldl (fun acc x => AddProperty acc x.Name
                (reparsedProp x)) t ps).Name
              (List.foldl (fun acc x => AddProperty acc x.Name
                (reparsedProp x)) t ps).mProperties
              ((List.foldl (fun acc x => AddProperty acc x.Name
                (reparsedProp x)) t ps).mNestedSections ++
                reparsedSecs subs))
            (updateAtPathD (fun q => BgeConfigSection.mk q.Name q.mProperties
              (q.mNestedSections ++ [BgeConfigSection.mk n [] []])) cfg P)
            (P ++ [n]) =
            updateAtPathD (fun _ => reparsedSec (BgeConfigSection.mk n ps subs))
            (updateAtPathD (fun q => BgeConfigSection.mk q.Name q.mProperties
              (q.mNestedSections ++ [BgeConfigSection.mk n [] []])) cfg P)
            (P ++ [n]) :=
          updateAtPathD_congr_nav _ _ hnav1 (by
            rw [show List.foldl (fun acc x => AddProperty acc x.Name
              (reparsedProp x)) (BgeConfigSection.mk n [] []) ps =
              BgeConfigSection.mk n (ps.map reparsedProp) [] from hfold]
            rfl)
        have e3 : updateAtPathD
              (fun _ => reparsedSec (BgeConfigSection.mk n ps subs))
            (updateAtPathD (fun q => BgeConfigSection.mk q.Name q.mProperties
              (q.mNestedSections ++ [BgeConfigSection.mk n [] []])) cfg P)
            (P ++ [n]) =
            updateAtPathD (fun q => updateAtPath
              (fun _ => reparsedSec (BgeConfigSection.mk n ps subs)) q [n])
            (updateAtPathD (fun q => BgeConfigSection.mk q.Name q.mProperties
              (q.mNestedSections ++ [BgeConfigSection.mk n [] []])) cfg P)
            P :=
          updateAtPathD_append _ P n _
        have e4 : updateAtPathD (fun q => updateAtPath
              (fun _ => reparsedSec (BgeConfigSection.mk n ps subs)) q [n])
            (updateAtPathD (fun q => BgeConfigSection.mk q.Name q.mProperties
              (q.mNestedSections ++ [BgeConfigSection.mk n [] []])) cfg P)
            P =
            updateAtPathD (fun t => updateAtPath
              (fun _ => reparsedSec (BgeConfigSection.mk n ps subs))
              (BgeConfigSection.mk t.Name t.mProperties
                (t.mNestedSections ++ [BgeConfigSection.mk n [] []])) [n])
            cfg P :=
          updateAtPathD_comp
            (fun q => updateAtPath
              (fun _ => reparsedSec (BgeConfigSection.mk n ps subs)) q [n])
            (fun q => BgeConfigSection.mk q.Name q.mProperties
              (q.mNestedSections ++ [BgeConfigSection.mk n [] []]))
            (fun t => rfl) _ _
        have e5 : updateAtPathD (fun t => updateAtPath
              (fun _ => reparsedSec (BgeConfigSection.mk n ps subs))
              (BgeConfigSection.mk t.Name t.mProperties
                (t.mNestedSections ++ [BgeConfigSection.mk n [] []])) [n])
            cfg P =
            updateAtPathD (fun q => BgeConfigSection.mk q.Name q.mProperties
              (q.mNestedSections ++
                [reparsedSec (BgeConfigSection.mk n ps subs)])) cfg P :=
          updateAtPathD_congr_nav _ _ hnavp (by
            simp only [updateAtPath, BgeConfigSection.Name_mk,
              BgeConfigSection.mProperties_mk,
              BgeConfigSection.mNestedSections_mk]
            refine congrArg (BgeConfigSection.mk parent.Name
              parent.mProperties) ?_
            rw [updateFirstSec_append_not_found _ _ _ _ hfrn]
            exact congrArg (fun z => parent.mNestedSections ++ z)
              (updateFirstSec_singleton rfl))
        exact e1.trans (e2.trans (e3.trans (e4.trans e5)))
    · intro l P cfg cur parent hsz hvl hdn hP hnavp hfr
      cases l with
      | nil =>
        refine ⟨cur, ?_⟩
        rw [show saveSecs [] (joinDots P) = [] from rfl, parseLines,
          updateAtPathD_congr_nav
            (fun q => BgeConfigSection.mk q.Name q.mProperties
              (q.mNestedSections ++ reparsedSecs []))
            (fun t => t) hnavp (by
              cases parent with
              | mk a b c => simp [reparsedSecs]),
          updateAtPathD, updateAtPath_id]
        rfl
      | cons s rest =>
        simp only [validSecs, Bool.and_eq_true] at hvl
        obtain ⟨hvs1, hvrest⟩ := hvl
        simp only [List.map_cons, distinctNames, Bool.and_eq_true] at hdn
        obtain ⟨hdn1, hdnrest⟩ := hdn
        have hszs : sizeOf s ≤ k := by simp at hsz; omega
        have hszr : sizeOf rest ≤ k := by simp at hsz; omega
        rw [show saveSecs (s :: rest) (joinDots P) =
          saveSec s (joinDots P) ++ saveSecs rest (joinDots P) from rfl,
          parseLines_append]
        obtain ⟨curA, heqA⟩ := ih.1 s P cfg cur parent hszs hvs1 hP hnavp
          (hfr s (by simp))
        rw [heqA]
        dsimp only
        have hnav2 : navPath (toSec (updateAtPathD
            (fun q => BgeConfigSection.mk q.Name q.mProperties
              (q.mNestedSections ++ [reparsedSec s])) cfg P)) P =
            some (BgeConfigSection.mk parent.Name parent.mProperties
              (parent.mNestedSections ++ [reparsedSec s])) := by
          rw [navPath_updateAtPathD
            (fun q => BgeConfigSection.mk q.Name q.mProperties
              (q.mNestedSections ++ [reparsedSec s]))
            (fun t => rfl) P cfg, hnavp, Option.map_some']
        have hfr2 : ∀ t ∈ rest, getSecIter (BgeConfigSection.mk parent.Name
            parent.mProperties (parent.mNestedSections ++
              [reparsedSec s])).mNestedSections t.Name = none := by
          intro t ht
          simp only [BgeConfigSection.mNestedSections_mk]
          rw [getSecIter_append, hfr t (by simp [ht]), Option.none_or]
          have hne2 : ¬(t.Name = s.Name) := by
            rw [List.all_eq_true] at hdn1
            have h2 := hdn1 t.Name (List.mem_map_of_mem _ ht)
            simp only [Bool.not_eq_true', decide_eq_false_iff_not] at h2
            intro he
            exact h2 he.symm
          rw [getSecIter_cons, if_neg (by rw [reparsedSec_Name]; exact hne2)]
          rfl
        obtain ⟨curB, heqB⟩ := ih.2 rest P
          (updateAtPathD (fun q => BgeConfigSection.mk q.Name q.mProperties
            (q.mNestedSections ++ [reparsedSec s])) cfg P) curA
          (BgeConfigSection.mk parent.Name parent.mProperties
            (parent.mNestedSections ++ [reparsedSec s]))
          hszr hvrest hdnrest hP hnav2 hfr2
        rw [heqB]
        refine ⟨curB, ?_⟩
        refine congrArg (fun z => (Except.ok (⟨z, curB⟩ : ParseState) :
          Except CppError ParseState)) ?_
        refine updateAtPathD_comp3
          (fun q => BgeConfigSection.mk q.Name q.mProperties
            (q.mNestedSections ++ reparsedSecs rest))
          (fun q => BgeConfigSection.mk q.Name q.mProperties
            (q.mNestedSections ++ [reparsedSec s]))
          (fun q => BgeConfigSection.mk q.Name q.mProperties
            (q.mNestedSections ++ reparsedSecs (s :: rest)))
          (fun t => rfl) ?_ P cfg
        intro t
        simp [reparsedSecs, List.append_assoc]

end BgeSpec

namespace BgeSpec

open BgePropertyValueType

/-! Typed-value equivalence of a valid tree with its reparsed image. -/

theorem propEquiv_reparsed {p : BgeConfigProperty} (h : validProp p = true) :
    propEquiv p (reparsedProp p) = true := by
  rw [validProp, Bool.and_eq_true] at h
  obtain ⟨_, hval⟩ := h
  rw [validPropValue] at hval
  cases hT : p.Ty with
  | INT => simp [propEquiv, reparsedProp, hT]
  | BOOL => simp [propEquiv, reparsedProp, hT]
  | STRING => simp [propEquiv, reparsedProp, hT]
  | FLOAT => rw [hT] at hval; simp at hval
  | UNKNOWN => rw [hT] at hval; simp at hval

theorem propsEquiv_reparsed :
    ∀ (ps : List BgeConfigProperty), ps.all validProp = true →
      propsEquiv ps (ps.map reparsedProp) = true := by
  intro ps
  induction ps with
  | nil => intro _; rfl
  | cons x rest ih =>
    intro h
    simp only [List.all_cons, Bool.and_eq_true] at h
    rw [List.map_cons, propsEquiv, Bool.and_eq_true]
    exact ⟨propEquiv_reparsed h.1, ih h.2⟩

theorem equiv_reparsed_bundle :
    ∀ k : Nat,
      (∀ s : BgeConfigSection, sizeOf s ≤ k → validSec s = true →
        secEquiv s (reparsedSec s) = true) ∧
      (∀ l : List BgeConfigSection, sizeOf l ≤ k → validSecs l = true →
        secsEquiv l (reparsedSecs l) = true) := by
  intro k
  induction k with
  | zero =>
    constructor
    · intro s hsz _
      cases s with
      | mk n ps subs => simp at hsz
    · intro l hsz _
      cases l with
      | nil => simp at hsz
      | cons a b => simp at hsz
  | succ k ih =>
    constructor
    · intro s hsz hv
      cases s with
      | mk n ps subs =>
        simp only [validSec, Bool.and_eq_true] at hv
        obtain ⟨⟨⟨⟨hvn, hvprops⟩, _⟩, _⟩, hvsubs⟩ := hv
        have hsub : sizeOf subs ≤ k := by simp at hsz; omega
        rw [show reparsedSec (BgeConfigSection.mk n ps subs) =
          BgeConfigSection.mk n (ps.map reparsedProp) (reparsedSecs subs)
          from rfl, secEquiv]
        simp only [Bool.and_eq_true]
        exact ⟨⟨by simp, propsEquiv_reparsed ps hvprops⟩,
          ih.2 subs hsub hvsubs⟩
    · intro l hsz hv
      cases l with
      | nil => rfl
      | cons s rest =>
        simp only [validSecs, Bool.and_eq_true] at hv
        have h1 : sizeOf s ≤ k := by simp at hsz; omega
        have h2 : sizeOf rest ≤ k := by simp at hsz; omega
        rw [show reparsedSecs (s :: rest) =
          reparsedSec s :: reparsedSecs rest from rfl, secsEquiv,
          Bool.and_eq_true]
        exact ⟨ih.1 s h1 hv.1, ih.2 rest h2 hv.2⟩

theorem cfgEquiv_reparsed {cfg : BgeConfig} (h : validCfg cfg = true) :
    cfgEquiv cfg (reparsedCfg cfg) = true := by
  rw [validCfg] at h
  simp only [Bool.and_eq_true] at h
  obtain ⟨⟨⟨hp, _⟩, _⟩, hs⟩ := h
  rw [cfgEquiv, reparsedCfg]
  simp only [Bool.and_eq_true]
  exact ⟨propsEquiv_reparsed _ hp,
    (equiv_reparsed_bundle (sizeOf cfg.mSections)).2 cfg.mSections
      (Nat.le_refl _) hs⟩

theorem parseLines_blank_if (c : Prop) [Decidable c] (st : ParseState) :
    parseLines (if c then [[]] else []) st = .ok st := by
  by_cases hc : c
  · rw [if_pos hc]
    show parseLines ([] :: []) st = .ok st
    simp [parseLines, processLine_empty]
  · rw [if_neg hc, parseLines]

end BgeSpec

namespace BgeSpec

open BgePropertyValueType

/-- A concrete valid document for the round-trip witness: two root
properties (a 32-bit integer and a stable string) and one section with
a boolean property. -/
def c7WitnessCfg : BgeConfig :=
  ⟨[⟨['A'], INT, [], 5, 0, false⟩,
    ⟨['B'], STRING, "hi".toList, 0, 0, false⟩],
   [.mk ['S'] [⟨['C'], BOOL, [], 0, 0, true⟩] []]⟩

/-- C7 (amended): for a valid document — nonempty bracket-, dot-,
slash-, quote- and whitespace-free names that are unique per level,
`INT` values within the 32-bit range, any `BOOL` values, and `STRING`
values that re-classify as strings and are stable under comment
stripping, trimming and quote stripping — `Save` followed by `Open`
succeeds and rebuilds exactly the reparsed tree, which agrees with the
original on every name, type and typed value (`FLOAT` is excluded: its
fixed six-decimal rendering is lossy, and a saved `STRING` of digits
reloads as `INT`, per the counterexample). -/
theorem c7_amended (cfg : BgeConfig) (h : validCfg cfg = true) :
    OpenD true (SaveD cfg) CloseD = .ok (reparsedCfg cfg) ∧
      cfgEquiv cfg (reparsedCfg cfg) = true := by
  have hv := h
  rw [validCfg] at hv
  simp only [Bool.and_eq_true] at hv
  obtain ⟨⟨⟨hvp, hdnp⟩, hdns⟩, hvs⟩ := hv
  refine ⟨?_, cfgEquiv_reparsed h⟩
  rw [OpenD, if_neg (by simp), SaveD, List.append_assoc, parseLines_append,
    parseLines_props cfg.mProperties CloseD none hvp]
  simp only [curPath]
  have hroot : updateAtPathD
      (fun q => List.foldl (fun acc x => AddProperty acc x.Name
        (reparsedProp x)) q cfg.mProperties) CloseD [] =
      (⟨cfg.mProperties.map reparsedProp, []⟩ : BgeConfig) := by
    rw [updateAtPathD,
      show updateAtPath (fun q => List.foldl (fun acc x => AddProperty acc
        x.Name (reparsedProp x)) q cfg.mProperties) (toSec CloseD) [] =
        List.foldl (fun acc x => AddProperty acc x.Name (reparsedProp x))
          (toSec CloseD) cfg.mProperties from rfl,
      foldl_addProps cfg.mProperties (toSec CloseD) hvp hdnp
        (fun x hx => rfl)]
    rfl
  rw [hroot]
  rw [parseLines_append, parseLines_blank_if]
  dsimp only
  obtain ⟨cur2, heq2⟩ := (save_parses_bundle (sizeOf cfg.mSections)).2
    cfg.mSections [] (⟨cfg.mProperties.map reparsedProp, []⟩ : BgeConfig)
    none (toSec (⟨cfg.mProperties.map reparsedProp, []⟩ : BgeConfig))
    (Nat.le_refl _) hvs hdns (fun q hq => by simp at hq) rfl
    (fun t ht => rfl)
  have heq3 : parseLines (saveSecs cfg.mSections [])
      (⟨(⟨cfg.mProperties.map reparsedProp, []⟩ : BgeConfig), none⟩ :
        ParseState) =
      .ok ⟨updateAtPathD (fun q => BgeConfigSection.mk q.Name
            q.mProperties (q.mNestedSections ++ reparsedSecs cfg.mSections))
          (⟨cfg.mProperties.map reparsedProp, []⟩ : BgeConfig) [], cur2⟩ :=
    heq2
  rw [heq3]
  rfl

/-- Witness: the amended round trip on the concrete valid document. -/
theorem c7_amended_witness :
    validCfg c7WitnessCfg = true ∧
      (OpenD true (SaveD c7WitnessCfg) CloseD =
          .ok (reparsedCfg c7WitnessCfg) ∧
        cfgEquiv c7WitnessCfg (reparsedCfg c7WitnessCfg) = true) :=
  ⟨by decide, c7_amended c7WitnessCfg (by decide)⟩

end BgeSpec
